import Mathlib

/-!
# Comparator-driven sorting and selection of the `gen` templates

A shallow embedding of the Go code that `templates.go` stamps out for a slice
type (`SortBy`, `IsSortedBy`, `SortByDesc`, `IsSortedByDesc`, `MaxBy`, `MinBy`,
`Max`, `Any`, `DistinctBy` and the sort support functions `insertionSort`,
`siftDown`, `heapSort`, `medianOfThree`, `swapRange`, `doPivot`, `quickSort`),
followed by theorems about it.

Conventions of the embedding

* A slice is a `List α`; the in-place mutation of the Go code is explicit
  state passing: every function that writes to `rcv` returns the new slice.
* Go `int` indices are natural numbers.  Where the Go code lets an index run
  below zero to leave a loop (`for i := hi - 1; i >= 0; i--`) the loop is
  written as a recursion over the index itself, noted at the definition.
  Machine overflow is not modelled: every index is bounded by a slice length.
* A computation returns `Except Fault`: `Fault.error` is an `error` value
  returned by the Go method, `Fault.indexOutOfRange` is the run-time panic of
  an index expression, and `Fault.fuelExhausted` says that a loop of the model
  was cut off by its iteration budget before the Go loop condition failed (so
  a result `Except.ok` is always a result of the Go code).
* The comparator is a pure total function `α → α → Bool`.
* Methods that read the slice with `range` and cannot fail (`Any`,
  `DistinctBy`) are plain functions over the list.
-/

namespace Gen

/-! ## Runtime model -/

/-- Abnormal outcomes of a run. -/
inductive Fault where
  | error (msg : String)
  | indexOutOfRange
  | fuelExhausted
  deriving DecidableEq

/-- Index expression `rcv[i]` with the bounds check of the Go runtime. -/
def index {α : Type} (rcv : List α) (i : Nat) : Except Fault α :=
  match rcv[i]? with
  | some v => pure v
  | none => throw Fault.indexOutOfRange

/-- Source `swap`: `rcv[a], rcv[b] = rcv[b], rcv[a]`. -/
def swap {α : Type} (rcv : List α) (a b : Nat) : Except Fault (List α) := do
  let x ← index rcv a
  let y ← index rcv b
  pure ((rcv.set a y).set b x)

/-! ## Insertion sort -/

/-- Inner loop of `insertionSort`:
`for j := i; j > a && less(rcv[j], rcv[j-1]); j-- { swap(rcv, j, j-1) }`,
a recursion over `j`. -/
def insertionSort.inner {α : Type} (less : α → α → Bool) (a : Nat) :
    Nat → List α → Except Fault (List α)
  | 0, rcv => pure rcv
  | j + 1, rcv =>
    if j + 1 > a then do
      let x ← index rcv (j + 1)
      let y ← index rcv j
      if less x y then do
        let rcv ← swap rcv (j + 1) j
        insertionSort.inner less a j rcv
      else pure rcv
    else pure rcv

/-- Outer loop of `insertionSort`: `for i := a + 1; i < b; i++ { ... }`. -/
def insertionSort.outer {α : Type} (less : α → α → Bool) (a b : Nat) :
    Nat → Nat → List α → Except Fault (List α)
  | fuel, i, rcv =>
    if i < b then
      match fuel with
      | 0 => throw Fault.fuelExhausted
      | f + 1 => do
        let rcv ← insertionSort.inner less a i rcv
        insertionSort.outer less a b f (i + 1) rcv
    else pure rcv

/-- Source `insertionSort`. -/
def insertionSort {α : Type} (less : α → α → Bool) (rcv : List α) (a b : Nat) :
    Except Fault (List α) :=
  insertionSort.outer less a b (b - a) (a + 1) rcv

/-! ## Heap sort -/

/-- The step `if child+1 < hi && less(rcv[first+child], rcv[first+child+1]) { child++ }`
of `siftDown`; returns `child`. -/
def siftDown.pick {α : Type} (less : α → α → Bool) (rcv : List α) (hi first child : Nat) :
    Except Fault Nat :=
  if child + 1 < hi then do
    let x ← index rcv (first + child)
    let y ← index rcv (first + child + 1)
    if less x y then pure (child + 1) else pure child
  else pure child

/-- Loop of `siftDown`; `root` is the loop variable. -/
def siftDown.loop {α : Type} (less : α → α → Bool) (hi first : Nat) :
    Nat → List α → Nat → Except Fault (List α)
  | fuel, rcv, root =>
    let child := 2 * root + 1
    if child ≥ hi then pure rcv
    else
      match fuel with
      | 0 => throw Fault.fuelExhausted
      | f + 1 => do
        let child ← siftDown.pick less rcv hi first child
        let r ← index rcv (first + root)
        let c ← index rcv (first + child)
        if !less r c then pure rcv
        else do
          let rcv ← swap rcv (first + root) (first + child)
          siftDown.loop less hi first f rcv child

/-- Source `siftDown`: implements the heap property on `rcv[lo, hi)`, `first`
being the offset of the root of the heap. -/
def siftDown {α : Type} (less : α → α → Bool) (rcv : List α) (lo hi first : Nat) :
    Except Fault (List α) :=
  siftDown.loop less hi first hi rcv lo

/-- First loop of `heapSort`:
`for i := (hi - 1) / 2; i >= 0; i-- { siftDown(rcv, less, i, hi, first) }`,
a recursion over `i` whose last iteration is `i = 0`. -/
def heapSort.build {α : Type} (less : α → α → Bool) (hi first : Nat) :
    Nat → List α → Except Fault (List α)
  | 0, rcv => siftDown less rcv 0 hi first
  | i + 1, rcv => do
    let rcv ← siftDown less rcv (i + 1) hi first
    heapSort.build less hi first i rcv

/-- Second loop of `heapSort`:
`for i := hi - 1; i >= 0; i-- { swap(rcv, first, first+i); siftDown(rcv, less, lo, i, first) }`,
a recursion over `i + 1` (no iteration is left at `0`). -/
def heapSort.pop {α : Type} (less : α → α → Bool) (lo first : Nat) :
    Nat → List α → Except Fault (List α)
  | 0, rcv => pure rcv
  | i + 1, rcv => do
    let rcv ← swap rcv first (first + i)
    let rcv ← siftDown less rcv lo i first
    heapSort.pop less lo first i rcv

/-- Source `heapSort`.  For `hi = 0` Go computes `(hi - 1) / 2 = 0` (division
truncates toward zero), which is also the value of the truncated subtraction
here. -/
def heapSort {α : Type} (less : α → α → Bool) (rcv : List α) (a b : Nat) :
    Except Fault (List α) := do
  let first := a
  let lo := 0
  let hi := b - a
  let rcv ← heapSort.build less hi first ((hi - 1) / 2) rcv
  heapSort.pop less lo first hi rcv

/-! ## Quicksort -/

/-- One step `if less(rcv[i], rcv[j]) { swap(rcv, i, j) }` of `medianOfThree`. -/
def medianOfThree.step {α : Type} (less : α → α → Bool) (rcv : List α) (i j : Nat) :
    Except Fault (List α) := do
  let x ← index rcv i
  let y ← index rcv j
  if less x y then swap rcv i j else pure rcv

/-- Source `medianOfThree`: moves the median of `rcv[a], rcv[b], rcv[c]` into
`rcv[a]`. -/
def medianOfThree {α : Type} (less : α → α → Bool) (rcv : List α) (a b c : Nat) :
    Except Fault (List α) := do
  let m0 := b
  let m1 := a
  let m2 := c
  let rcv ← medianOfThree.step less rcv m1 m0
  let rcv ← medianOfThree.step less rcv m2 m1
  medianOfThree.step less rcv m1 m0

/-- Loop of `swapRange`: `for i := 0; i < n; i++ { swap(rcv, a+i, b+i) }`. -/
def swapRange.loop {α : Type} (a b n : Nat) : Nat → Nat → List α → Except Fault (List α)
  | fuel, i, rcv =>
    if i < n then
      match fuel with
      | 0 => throw Fault.fuelExhausted
      | f + 1 => do
        let rcv ← swap rcv (a + i) (b + i)
        swapRange.loop a b n f (i + 1) rcv
    else pure rcv

/-- Source `swapRange`. -/
def swapRange {α : Type} (rcv : List α) (a b n : Nat) : Except Fault (List α) :=
  swapRange.loop a b n n 0 rcv

/-- First inner loop of `doPivot` (`for b < c`, scanning upward from `b`);
returns the slice and the cursors `a`, `b`. -/
def doPivot.scanUp {α : Type} (less : α → α → Bool) (pivot c : Nat) :
    Nat → List α → Nat → Nat → Except Fault (List α × Nat × Nat)
  | fuel, rcv, a, b =>
    if b < c then
      match fuel with
      | 0 => throw Fault.fuelExhausted
      | f + 1 => do
        let x ← index rcv b
        let p ← index rcv pivot
        if less x p then doPivot.scanUp less pivot c f rcv a (b + 1)
        else if !less p x then do
          let rcv ← swap rcv a b
          doPivot.scanUp less pivot c f rcv (a + 1) (b + 1)
        else pure (rcv, a, b)
    else pure (rcv, a, b)

/-- Second inner loop of `doPivot` (`for b < c`, scanning downward from `c`);
returns the slice and the cursors `c`, `d`. -/
def doPivot.scanDown {α : Type} (less : α → α → Bool) (pivot b : Nat) :
    Nat → List α → Nat → Nat → Except Fault (List α × Nat × Nat)
  | fuel, rcv, c, d =>
    if b < c then
      match fuel with
      | 0 => throw Fault.fuelExhausted
      | f + 1 => do
        let x ← index rcv (c - 1)
        let p ← index rcv pivot
        if less p x then doPivot.scanDown less pivot b f rcv (c - 1) d
        else if !less x p then do
          let rcv ← swap rcv (c - 1) (d - 1)
          doPivot.scanDown less pivot b f rcv (c - 1) (d - 1)
        else pure (rcv, c, d)
    else pure (rcv, c, d)

/-- Outer `for { ... }` loop of `doPivot`; returns the slice and the cursors
`a`, `b`, `c`, `d`. -/
def doPivot.loop {α : Type} (less : α → α → Bool) (pivot : Nat) :
    Nat → List α → Nat → Nat → Nat → Nat → Except Fault (List α × Nat × Nat × Nat × Nat)
  | 0, _, _, _, _, _ => throw Fault.fuelExhausted
  | f + 1, rcv, a, b, c, d => do
    let (rcv, a, b) ← doPivot.scanUp less pivot c (c - b) rcv a b
    let (rcv, c, d) ← doPivot.scanDown less pivot b (c - b) rcv c d
    if b ≥ c then pure (rcv, a, b, c, d)
    else do
      let rcv ← swap rcv b (c - 1)
      doPivot.loop less pivot f rcv a (b + 1) (c - 1) d

/-- The block `if hi-lo > 40 { ... }` of `doPivot`: Tukey's ninther, three
medians of three. -/
def doPivot.ninther {α : Type} (less : α → α → Bool) (rcv : List α) (lo hi m : Nat) :
    Except Fault (List α) :=
  if hi - lo > 40 then do
    let s := (hi - lo) / 8
    let rcv ← medianOfThree less rcv lo (lo + s) (lo + 2 * s)
    let rcv ← medianOfThree less rcv m (m - s) (m + s)
    medianOfThree less rcv (hi - 1) (hi - 1 - s) (hi - 1 - 2 * s)
  else pure rcv

/-- Source `doPivot`; returns the slice with `midlo` and `midhi`. -/
def doPivot {α : Type} (less : α → α → Bool) (rcv : List α) (lo hi : Nat) :
    Except Fault (List α × Nat × Nat) := do
  let m := lo + (hi - lo) / 2
  let rcv ← doPivot.ninther less rcv lo hi m
  let rcv ← medianOfThree less rcv lo m (hi - 1)
  let pivot := lo
  let (rcv, a, b, c, d) ← doPivot.loop less pivot (hi - lo) rcv (lo + 1) (lo + 1) hi hi
  let n := min (b - a) (a - lo)
  let rcv ← swapRange rcv lo (b - n) n
  let n := min (hi - d) (d - c)
  let rcv ← swapRange rcv c (hi - n) n
  pure (rcv, lo + b - a, hi - (d - c))

/-- Source `quickSort`.  The `for b-a > 7` loop and the recursive call both
run with the decremented `maxDepth`, so the function is a recursion over
`maxDepth`; the continuation of the loop with `a = mhi` (or `b = mlo`) is the
second call. -/
def quickSort {α : Type} (less : α → α → Bool) :
    List α → Nat → Nat → Nat → Except Fault (List α)
  | rcv, a, b, maxDepth =>
    if b - a > 7 then
      match maxDepth with
      | 0 => heapSort less rcv a b
      | maxDepth + 1 => do
        let (rcv, mlo, mhi) ← doPivot less rcv a b
        if mlo - a < b - mhi then do
          let rcv ← quickSort less rcv a mlo maxDepth
          quickSort less rcv mhi b maxDepth
        else do
          let rcv ← quickSort less rcv mhi b maxDepth
          quickSort less rcv a mlo maxDepth
    else if b - a > 1 then insertionSort less rcv a b
    else pure rcv

/-! ## The generated methods -/

/-- Depth loop of `SortBy`: `for i := n; i > 0; i >>= 1 { maxDepth++ }`. -/
def SortBy.depth : Nat → Nat → Nat → Except Fault Nat
  | fuel, i, maxDepth =>
    if i > 0 then
      match fuel with
      | 0 => throw Fault.fuelExhausted
      | f + 1 => SortBy.depth f (i >>> 1) (maxDepth + 1)
    else pure maxDepth

/-- Source `SortBy`: sorts a copy of `rcv`. -/
def SortBy {α : Type} (less : α → α → Bool) (rcv : List α) : Except Fault (List α) := do
  let result := rcv
  let n := result.length
  let maxDepth ← SortBy.depth n n 0
  let maxDepth := maxDepth * 2
  quickSort less result 0 n maxDepth

/-- Loop of `IsSortedBy`: `for i := n - 1; i > 0; i-- { ... }`, a recursion
over `i`. -/
def IsSortedBy.loop {α : Type} (less : α → α → Bool) (rcv : List α) :
    Nat → Except Fault Bool
  | 0 => pure true
  | i + 1 => do
    let x ← index rcv (i + 1)
    let y ← index rcv i
    if less x y then pure false else IsSortedBy.loop less rcv i

/-- Source `IsSortedBy`. -/
def IsSortedBy {α : Type} (less : α → α → Bool) (rcv : List α) : Except Fault Bool :=
  let n := rcv.length
  IsSortedBy.loop less rcv (n - 1)

/-- The comparator `greater` that `SortByDesc` and `IsSortedByDesc` build:
`a != b && !less(a, b)`. -/
def greater {α : Type} [DecidableEq α] (less : α → α → Bool) (a b : α) : Bool :=
  a ≠ b && !less a b

/-- Source `SortByDesc`. -/
def SortByDesc {α : Type} [DecidableEq α] (less : α → α → Bool) (rcv : List α) :
    Except Fault (List α) :=
  SortBy (greater less) rcv

/-- Source `IsSortedByDesc`. -/
def IsSortedByDesc {α : Type} [DecidableEq α] (less : α → α → Bool) (rcv : List α) :
    Except Fault Bool :=
  IsSortedBy (greater less) rcv

/-- Loop of `MaxBy`: `for i := 1; i < l; i++ { ... }`; returns `m`. -/
def MaxBy.loop {α : Type} [DecidableEq α] (less : α → α → Bool) (rcv : List α) (l : Nat) :
    Nat → Nat → Nat → Except Fault Nat
  | fuel, i, m =>
    if i < l then
      match fuel with
      | 0 => throw Fault.fuelExhausted
      | f + 1 => do
        let x ← index rcv i
        let y ← index rcv m
        if x ≠ y && !less x y then MaxBy.loop less rcv l f (i + 1) i
        else MaxBy.loop less rcv l f (i + 1) m
    else pure m

/-- Source `MaxBy`. -/
def MaxBy {α : Type} [DecidableEq α] (less : α → α → Bool) (rcv : List α) :
    Except Fault α :=
  let l := rcv.length
  if l = 0 then throw (Fault.error "cannot determine the MaxBy of an empty slice")
  else do
    let m ← MaxBy.loop less rcv l l 1 0
    index rcv m

/-- Loop of `MinBy`: `for i := 1; i < l; i++ { ... }`; returns `m`. -/
def MinBy.loop {α : Type} (less : α → α → Bool) (rcv : List α) (l : Nat) :
    Nat → Nat → Nat → Except Fault Nat
  | fuel, i, m =>
    if i < l then
      match fuel with
      | 0 => throw Fault.fuelExhausted
      | f + 1 => do
        let x ← index rcv i
        let y ← index rcv m
        if less x y then MinBy.loop less rcv l f (i + 1) i
        else MinBy.loop less rcv l f (i + 1) m
    else pure m

/-- Source `MinBy`. -/
def MinBy {α : Type} (less : α → α → Bool) (rcv : List α) : Except Fault α :=
  let l := rcv.length
  if l = 0 then throw (Fault.error "cannot determine the Min of an empty slice")
  else do
    let m ← MinBy.loop less rcv l l 1 0
    index rcv m

/-- Loop of `Max`: `for _, v := range rcv { if v > result { result = v } }`;
returns `result`. -/
def Max.loop {α : Type} [LinearOrder α] : List α → α → α
  | [], result => result
  | v :: rest, result => if v > result then Max.loop rest v else Max.loop rest result

/-- Source `Max`, generated for an ordered element type. -/
def Max {α : Type} [LinearOrder α] (rcv : List α) : Except Fault α :=
  let l := rcv.length
  if l = 0 then throw (Fault.error "cannot determine the Max of an empty slice")
  else do
    let result ← index rcv 0
    pure (Max.loop rcv result)

/-- Source `Any`: `for _, v := range rcv { if fn(v) { return true } }; return false`. -/
def Any {α : Type} (rcv : List α) (fn : α → Bool) : Bool :=
  match rcv with
  | [] => false
  | v :: rest => if fn v then true else Any rest fn

/-- Loop of `DistinctBy`: `for _, v := range rcv { ... }`, with the slice
`result` built so far. -/
def DistinctBy.loop {α : Type} (equal : α → α → Bool) : List α → List α → List α
  | [], result => result
  | v :: rest, result =>
    let eq := fun _app => equal v _app
    if !Any result eq then DistinctBy.loop equal rest (result ++ [v])
    else DistinctBy.loop equal rest result

/-- Source `DistinctBy`. -/
def DistinctBy {α : Type} (rcv : List α) (equal : α → α → Bool) : List α :=
  DistinctBy.loop equal rcv []

/-! ## Instrumentation of the sort driver -/

/-- The sub-range that `quickSort` hands to its recursive call after the
partition of `[a, b)` returned `(mlo, mhi)`. -/
def quickSort.recursed (a b mlo mhi : Nat) : Nat × Nat :=
  if mlo - a < b - mhi then (a, mlo) else (mhi, b)

/-- The sub-range on which the loop of `quickSort` goes on after the
partition of `[a, b)` returned `(mlo, mhi)`. -/
def quickSort.continued (a b mlo mhi : Nat) : Nat × Nat :=
  if mlo - a < b - mhi then (mhi, b) else (a, mlo)

/-- Source `quickSort` with two counters added to its result: the number of
partition steps (calls of `doPivot`) and the nesting depth of the recursive
calls of `quickSort` (a call made by the loop counts one level more than its
caller; the continuation of the loop stays at the level of its caller). -/
def quickSort.counted {α : Type} (less : α → α → Bool) :
    List α → Nat → Nat → Nat → Except Fault (List α × Nat × Nat)
  | rcv, a, b, maxDepth =>
    if b - a > 7 then
      match maxDepth with
      | 0 => do
        let rcv ← heapSort less rcv a b
        pure (rcv, 0, 0)
      | maxDepth + 1 => do
        let (rcv, mlo, mhi) ← doPivot less rcv a b
        if mlo - a < b - mhi then do
          let (rcv, p1, d1) ← quickSort.counted less rcv a mlo maxDepth
          let (rcv, p2, d2) ← quickSort.counted less rcv mhi b maxDepth
          pure (rcv, 1 + p1 + p2, max (d1 + 1) d2)
        else do
          let (rcv, p1, d1) ← quickSort.counted less rcv mhi b maxDepth
          let (rcv, p2, d2) ← quickSort.counted less rcv a mlo maxDepth
          pure (rcv, 1 + p1 + p2, max (d1 + 1) d2)
    else if b - a > 1 then do
      let rcv ← insertionSort less rcv a b
      pure (rcv, 0, 0)
    else pure (rcv, 0, 0)

/-- First inner loop of `doPivot` with its cursors recorded: the result of
`doPivot.scanUp` together with the pairs `(a, b)` at the head of every
iteration, the pair with which the loop is left last. -/
def doPivot.scanUpTraced {α : Type} (less : α → α → Bool) (pivot c : Nat) :
    Nat → List α → Nat → Nat → Except Fault ((List α × Nat × Nat) × List (Nat × Nat))
  | fuel, rcv, a, b =>
    if b < c then
      match fuel with
      | 0 => throw Fault.fuelExhausted
      | f + 1 => do
        let x ← index rcv b
        let p ← index rcv pivot
        if less x p then do
          let (res, t) ← doPivot.scanUpTraced less pivot c f rcv a (b + 1)
          pure (res, (a, b) :: t)
        else if !less p x then do
          let rcv ← swap rcv a b
          let (res, t) ← doPivot.scanUpTraced less pivot c f rcv (a + 1) (b + 1)
          pure (res, (a, b) :: t)
        else pure ((rcv, a, b), [(a, b)])
    else pure ((rcv, a, b), [(a, b)])

/-- Second inner loop of `doPivot` with its cursors recorded: the result of
`doPivot.scanDown` together with the pairs `(c, d)` at the head of every
iteration, the pair with which the loop is left last. -/
def doPivot.scanDownTraced {α : Type} (less : α → α → Bool) (pivot b : Nat) :
    Nat → List α → Nat → Nat → Except Fault ((List α × Nat × Nat) × List (Nat × Nat))
  | fuel, rcv, c, d =>
    if b < c then
      match fuel with
      | 0 => throw Fault.fuelExhausted
      | f + 1 => do
        let x ← index rcv (c - 1)
        let p ← index rcv pivot
        if less p x then do
          let (res, t) ← doPivot.scanDownTraced less pivot b f rcv (c - 1) d
          pure (res, (c, d) :: t)
        else if !less x p then do
          let rcv ← swap rcv (c - 1) (d - 1)
          let (res, t) ← doPivot.scanDownTraced less pivot b f rcv (c - 1) (d - 1)
          pure (res, (c, d) :: t)
        else pure ((rcv, c, d), [(c, d)])
    else pure ((rcv, c, d), [(c, d)])

/-- Outer loop of `doPivot` with its cursors recorded: the result of
`doPivot.loop` together with the cursors `(a, b, c, d)` at the head of every
iteration of the two inner loops, in the order of the run. -/
def doPivot.loopTraced {α : Type} (less : α → α → Bool) (pivot : Nat) :
    Nat → List α → Nat → Nat → Nat → Nat →
      Except Fault ((List α × Nat × Nat × Nat × Nat) × List (Nat × Nat × Nat × Nat))
  | 0, _, _, _, _, _ => throw Fault.fuelExhausted
  | f + 1, rcv, a, b, c, d => do
    let ((rcv, a1, b1), t1) ← doPivot.scanUpTraced less pivot c (c - b) rcv a b
    let ((rcv, c1, d1), t2) ← doPivot.scanDownTraced less pivot b1 (c - b1) rcv c d
    let t := t1.map (fun q => (q.1, q.2, c, d)) ++ t2.map (fun q => (a1, b1, q.1, q.2))
    if b1 ≥ c1 then pure ((rcv, a1, b1, c1, d1), t)
    else do
      let rcv ← swap rcv b1 (c1 - 1)
      let (res, t3) ← doPivot.loopTraced less pivot f rcv a1 (b1 + 1) (c1 - 1) d1
      pure (res, t ++ t3)

/-! ## Runs checked against a window

The sort support functions once more, with every index expression checked
against a window `[wa, wb)` of the slice instead of its bounds: a read or a
write at an index outside the window is the fault `Fault.indexOutOfRange`.
Apart from the two primitives the definitions repeat the ones above word for
word. -/

/-- Index expression `rcv[i]` checked against the window `[wa, wb)`. -/
def index.checked {α : Type} (wa wb : Nat) (rcv : List α) (i : Nat) : Except Fault α :=
  if wa ≤ i ∧ i < wb then index rcv i else throw Fault.indexOutOfRange

/-- Source `swap` with its two reads and two writes checked against the
window. -/
def swap.checked {α : Type} (wa wb : Nat) (rcv : List α) (a b : Nat) :
    Except Fault (List α) := do
  let x ← index.checked wa wb rcv a
  let y ← index.checked wa wb rcv b
  pure ((rcv.set a y).set b x)

/-- Inner loop of `insertionSort`, checked against the window. -/
def insertionSort.inner.checked {α : Type} (wa wb : Nat) (less : α → α → Bool) (a : Nat) :
    Nat → List α → Except Fault (List α)
  | 0, rcv => pure rcv
  | j + 1, rcv =>
    if j + 1 > a then do
      let x ← index.checked wa wb rcv (j + 1)
      let y ← index.checked wa wb rcv j
      if less x y then do
        let rcv ← swap.checked wa wb rcv (j + 1) j
        insertionSort.inner.checked wa wb less a j rcv
      else pure rcv
    else pure rcv

/-- Outer loop of `insertionSort`, checked against the window. -/
def insertionSort.outer.checked {α : Type} (wa wb : Nat) (less : α → α → Bool) (a b : Nat) :
    Nat → Nat → List α → Except Fault (List α)
  | fuel, i, rcv =>
    if i < b then
      match fuel with
      | 0 => throw Fault.fuelExhausted
      | f + 1 => do
        let rcv ← insertionSort.inner.checked wa wb less a i rcv
        insertionSort.outer.checked wa wb less a b f (i + 1) rcv
    else pure rcv

/-- Source `insertionSort`, checked against the window. -/
def insertionSort.checked {α : Type} (wa wb : Nat) (less : α → α → Bool) (rcv : List α)
    (a b : Nat) : Except Fault (List α) :=
  insertionSort.outer.checked wa wb less a b (b - a) (a + 1) rcv

/-- The step of `siftDown` that picks the greater child, checked against the
window. -/
def siftDown.pick.checked {α : Type} (wa wb : Nat) (less : α → α → Bool) (rcv : List α)
    (hi first child : Nat) : Except Fault Nat :=
  if child + 1 < hi then do
    let x ← index.checked wa wb rcv (first + child)
    let y ← index.checked wa wb rcv (first + child + 1)
    if less x y then pure (child + 1) else pure child
  else pure child

/-- Loop of `siftDown`, checked against the window. -/
def siftDown.loop.checked {α : Type} (wa wb : Nat) (less : α → α → Bool) (hi first : Nat) :
    Nat → List α → Nat → Except Fault (List α)
  | fuel, rcv, root =>
    let child := 2 * root + 1
    if child ≥ hi then pure rcv
    else
      match fuel with
      | 0 => throw Fault.fuelExhausted
      | f + 1 => do
        let child ← siftDown.pick.checked wa wb less rcv hi first child
        let r ← index.checked wa wb rcv (first + root)
        let c ← index.checked wa wb rcv (first + child)
        if !less r c then pure rcv
        else do
          let rcv ← swap.checked wa wb rcv (first + root) (first + child)
          siftDown.loop.checked wa wb less hi first f rcv child

/-- Source `siftDown`, checked against the window. -/
def siftDown.checked {α : Type} (wa wb : Nat) (less : α → α → Bool) (rcv : List α)
    (lo hi first : Nat) : Except Fault (List α) :=
  siftDown.loop.checked wa wb less hi first hi rcv lo

/-- First loop of `heapSort`, checked against the window. -/
def heapSort.build.checked {α : Type} (wa wb : Nat) (less : α → α → Bool) (hi first : Nat) :
    Nat → List α → Except Fault (List α)
  | 0, rcv => siftDown.checked wa wb less rcv 0 hi first
  | i + 1, rcv => do
    let rcv ← siftDown.checked wa wb less rcv (i + 1) hi first
    heapSort.build.checked wa wb less hi first i rcv

/-- Second loop of `heapSort`, checked against the window. -/
def heapSort.pop.checked {α : Type} (wa wb : Nat) (less : α → α → Bool) (lo first : Nat) :
    Nat → List α → Except Fault (List α)
  | 0, rcv => pure rcv
  | i + 1, rcv => do
    let rcv ← swap.checked wa wb rcv first (first + i)
    let rcv ← siftDown.checked wa wb less rcv lo i first
    heapSort.pop.checked wa wb less lo first i rcv

/-- Source `heapSort`, checked against the window. -/
def heapSort.checked {α : Type} (wa wb : Nat) (less : α → α → Bool) (rcv : List α)
    (a b : Nat) : Except Fault (List α) := do
  let first := a
  let lo := 0
  let hi := b - a
  let rcv ← heapSort.build.checked wa wb less hi first ((hi - 1) / 2) rcv
  heapSort.pop.checked wa wb less lo first hi rcv

/-- One step of `medianOfThree`, checked against the window. -/
def medianOfThree.step.checked {α : Type} (wa wb : Nat) (less : α → α → Bool)
    (rcv : List α) (i j : Nat) : Except Fault (List α) := do
  let x ← index.checked wa wb rcv i
  let y ← index.checked wa wb rcv j
  if less x y then swap.checked wa wb rcv i j else pure rcv

/-- Source `medianOfThree`, checked against the window. -/
def medianOfThree.checked {α : Type} (wa wb : Nat) (less : α → α → Bool) (rcv : List α)
    (a b c : Nat) : Except Fault (List α) := do
  let m0 := b
  let m1 := a
  let m2 := c
  let rcv ← medianOfThree.step.checked wa wb less rcv m1 m0
  let rcv ← medianOfThree.step.checked wa wb less rcv m2 m1
  medianOfThree.step.checked wa wb less rcv m1 m0

/-- Loop of `swapRange`, checked against the window. -/
def swapRange.loop.checked {α : Type} (wa wb : Nat) (a b n : Nat) :
    Nat → Nat → List α → Except Fault (List α)
  | fuel, i, rcv =>
    if i < n then
      match fuel with
      | 0 => throw Fault.fuelExhausted
      | f + 1 => do
        let rcv ← swap.checked wa wb rcv (a + i) (b + i)
        swapRange.loop.checked wa wb a b n f (i + 1) rcv
    else pure rcv

/-- Source `swapRange`, checked against the window. -/
def swapRange.checked {α : Type} (wa wb : Nat) (rcv : List α) (a b n : Nat) :
    Except Fault (List α) :=
  swapRange.loop.checked wa wb a b n n 0 rcv

/-- First inner loop of `doPivot`, checked against the window. -/
def doPivot.scanUp.checked {α : Type} (wa wb : Nat) (less : α → α → Bool) (pivot c : Nat) :
    Nat → List α → Nat → Nat → Except Fault (List α × Nat × Nat)
  | fuel, rcv, a, b =>
    if b < c then
      match fuel with
      | 0 => throw Fault.fuelExhausted
      | f + 1 => do
        let x ← index.checked wa wb rcv b
        let p ← index.checked wa wb rcv pivot
        if less x p then doPivot.scanUp.checked wa wb less pivot c f rcv a (b + 1)
        else if !less p x then do
          let rcv ← swap.checked wa wb rcv a b
          doPivot.scanUp.checked wa wb less pivot c f rcv (a + 1) (b + 1)
        else pure (rcv, a, b)
    else pure (rcv, a, b)

/-- Second inner loop of `doPivot`, checked against the window. -/
def doPivot.scanDown.checked {α : Type} (wa wb : Nat) (less : α → α → Bool)
    (pivot b : Nat) : Nat → List α → Nat → Nat → Except Fault (List α × Nat × Nat)
  | fuel, rcv, c, d =>
    if b < c then
      match fuel with
      | 0 => throw Fault.fuelExhausted
      | f + 1 => do
        let x ← index.checked wa wb rcv (c - 1)
        let p ← index.checked wa wb rcv pivot
        if less p x then doPivot.scanDown.checked wa wb less pivot b f rcv (c - 1) d
        else if !less x p then do
          let rcv ← swap.checked wa wb rcv (c - 1) (d - 1)
          doPivot.scanDown.checked wa wb less pivot b f rcv (c - 1) (d - 1)
        else pure (rcv, c, d)
    else pure (rcv, c, d)

/-- Outer loop of `doPivot`, checked against the window. -/
def doPivot.loop.checked {α : Type} (wa wb : Nat) (less : α → α → Bool) (pivot : Nat) :
    Nat → List α → Nat → Nat → Nat → Nat → Except Fault (List α × Nat × Nat × Nat × Nat)
  | 0, _, _, _, _, _ => throw Fault.fuelExhausted
  | f + 1, rcv, a, b, c, d => do
    let (rcv, a, b) ← doPivot.scanUp.checked wa wb less pivot c (c - b) rcv a b
    let (rcv, c, d) ← doPivot.scanDown.checked wa wb less pivot b (c - b) rcv c d
    if b ≥ c then pure (rcv, a, b, c, d)
    else do
      let rcv ← swap.checked wa wb rcv b (c - 1)
      doPivot.loop.checked wa wb less pivot f rcv a (b + 1) (c - 1) d

/-- Tukey's ninther of `doPivot`, checked against the window. -/
def doPivot.ninther.checked {α : Type} (wa wb : Nat) (less : α → α → Bool) (rcv : List α)
    (lo hi m : Nat) : Except Fault (List α) :=
  if hi - lo > 40 then do
    let s := (hi - lo) / 8
    let rcv ← medianOfThree.checked wa wb less rcv lo (lo + s) (lo + 2 * s)
    let rcv ← medianOfThree.checked wa wb less rcv m (m - s) (m + s)
    medianOfThree.checked wa wb less rcv (hi - 1) (hi - 1 - s) (hi - 1 - 2 * s)
  else pure rcv

/-- Source `doPivot`, checked against the window. -/
def doPivot.checked {α : Type} (wa wb : Nat) (less : α → α → Bool) (rcv : List α)
    (lo hi : Nat) : Except Fault (List α × Nat × Nat) := do
  let m := lo + (hi - lo) / 2
  let rcv ← doPivot.ninther.checked wa wb less rcv lo hi m
  let rcv ← medianOfThree.checked wa wb less rcv lo m (hi - 1)
  let pivot := lo
  let (rcv, a, b, c, d) ←
    doPivot.loop.checked wa wb less pivot (hi - lo) rcv (lo + 1) (lo + 1) hi hi
  let n := min (b - a) (a - lo)
  let rcv ← swapRange.checked wa wb rcv lo (b - n) n
  let n := min (hi - d) (d - c)
  let rcv ← swapRange.checked wa wb rcv c (hi - n) n
  pure (rcv, lo + b - a, hi - (d - c))

/-- Source `quickSort`, checked against the window. -/
def quickSort.checked {α : Type} (wa wb : Nat) (less : α → α → Bool) :
    List α → Nat → Nat → Nat → Except Fault (List α)
  | rcv, a, b, maxDepth =>
    if b - a > 7 then
      match maxDepth with
      | 0 => heapSort.checked wa wb less rcv a b
      | maxDepth + 1 => do
        let (rcv, mlo, mhi) ← doPivot.checked wa wb less rcv a b
        if mlo - a < b - mhi then do
          let rcv ← quickSort.checked wa wb less rcv a mlo maxDepth
          quickSort.checked wa wb less rcv mhi b maxDepth
        else do
          let rcv ← quickSort.checked wa wb less rcv mhi b maxDepth
          quickSort.checked wa wb less rcv a mlo maxDepth
    else if b - a > 1 then insertionSort.checked wa wb less rcv a b
    else pure rcv

/-! ## Specification vocabulary -/

/-- Equality of results is decidable, so closed runs can be evaluated. -/
instance instDecidableEqExcept {ε α : Type} [DecidableEq ε] [DecidableEq α] :
    DecidableEq (Except ε α)
  | Except.ok a, Except.ok b =>
    if h : a = b then isTrue (by rw [h]) else isFalse (fun e => h (by cases e; rfl))
  | Except.error a, Except.error b =>
    if h : a = b then isTrue (by rw [h]) else isFalse (fun e => h (by cases e; rfl))
  | Except.ok _, Except.error _ => isFalse (fun e => by cases e)
  | Except.error _, Except.ok _ => isFalse (fun e => by cases e)

/-- The comparator contract of the specification: a strict weak ordering. -/
structure StrictWeakOrder {α : Type} (less : α → α → Bool) : Prop where
  irrefl : ∀ a, less a a = false
  asymm : ∀ a b, less a b = true → less b a = false
  trans : ∀ a b c, less a b = true → less b c = true → less a c = true
  incomp_trans : ∀ a b c, less a b = false → less b a = false →
    less b c = false → less c b = false → less a c = false ∧ less c a = false

/-- What the sort needs of a comparator `lt` to order a slice by the
transitive relation `le`: a positive answer places the first argument before
the second, a negative answer the second before the first. -/
structure Compat {α : Type} (lt : α → α → Bool) (le : α → α → Prop) : Prop where
  of_lt : ∀ x y, lt x y = true → le x y
  of_not_lt : ∀ x y, lt x y = false → le y x
  trans : ∀ x y z, le x y → le y z → le x z

/-- What the partition needs of three zone predicates around a pivot value
`p`: the answers of the comparator against `p` place an element in the lower
zone `L`, the middle zone `E` or the upper zone `G`, and `p` itself belongs to
the middle zone. -/
structure Zones {α : Type} (lt : α → α → Bool) (p : α) (L E G : α → Prop) : Prop where
  low : ∀ x, lt x p = true → L x
  mid : ∀ x, lt x p = false → lt p x = false → E x
  high : ∀ x, lt p x = true → G x
  pivot : E p

/-- The slice `r` comes from `l` by swaps of positions inside `[a, b)`. -/
inductive Shuf {α : Type} (a b : Nat) : List α → List α → Prop
  | refl (l : List α) : Shuf a b l l
  | step {l m r : List α} {i j : Nat} : Shuf a b l m → a ≤ i → i < b → a ≤ j → j < b →
      swap m i j = Except.ok r → Shuf a b l r

/-- Every element at a position of `[a, b)` satisfies `P`. -/
def AllOn {α : Type} (P : α → Prop) (l : List α) (a b : Nat) : Prop :=
  ∀ k, a ≤ k → k < b → ∀ x, l[k]? = some x → P x

/-- The positions of `[a, b)` are ordered by `le`, pairwise. -/
def SortedOn {α : Type} (le : α → α → Prop) (l : List α) (a b : Nat) : Prop :=
  ∀ i j, a ≤ i → i < j → j < b → ∀ x y, l[i]? = some x → l[j]? = some y → le x y

/-- Heap property of the heap rooted at offset `first`, for the parents
`k ≥ lo` other than `skip`, and children below `hi`: no child exceeds its
parent. -/
def HeapOn {α : Type} (le : α → α → Prop) (l : List α) (first lo hi : Nat)
    (skip : Option Nat) : Prop :=
  ∀ k c, lo ≤ k → some k ≠ skip → c < hi → (c = 2 * k + 1 ∨ c = 2 * k + 2) →
    ∀ x y, l[first + k]? = some x → l[first + c]? = some y → le y x

/-- The elements of the range `[a, b)` of a slice, in order. -/
def slice {α : Type} (l : List α) (a b : Nat) : List α :=
  (l.drop a).take (b - a)

/-- The slice `r` comes from `l` by swaps of adjacent positions `j, j+1`
whose elements the comparator orders strictly the other way round
(`less(l[j+1], l[j])`). -/
inductive AdjSwaps {α : Type} (less : α → α → Bool) : List α → List α → Prop
  | refl (l : List α) : AdjSwaps less l l
  | step {l m r : List α} {j : Nat} {x y : α} : AdjSwaps less l m →
      m[j + 1]? = some x → m[j]? = some y → less x y = true →
      swap m (j + 1) j = Except.ok r → AdjSwaps less l r

/-- An example comparator with ties, used for concrete inputs: records
`(key, tag)` compared by `key` only. -/
def lessKey (a b : Nat × Nat) : Bool := decide (a.1 < b.1)

/-- The natural comparator `a < b` of a linearly ordered type. -/
def natural {α : Type} [LinearOrder α] (a b : α) : Bool := decide (a < b)

end Gen

namespace Gen

/-! ## Basic facts about runs -/

theorem ok_bind {ε α β : Type} (a : α) (f : α → Except ε β) :
    (Except.ok a >>= f) = f a := rfl

theorem pure_eq_ok {ε α : Type} (a : α) : (pure a : Except ε α) = Except.ok a := rfl

theorem index_ok {α : Type} {l : List α} {i : Nat} {x : α} (h : l[i]? = some x) :
    index l i = Except.ok x := by
  simp [index, h, pure, Except.pure]

theorem index_lt {α : Type} {l : List α} {i : Nat} (h : i < l.length) :
    ∃ x, l[i]? = some x ∧ index l i = Except.ok x :=
  ⟨l[i], List.getElem?_eq_getElem h, index_ok (List.getElem?_eq_getElem h)⟩

theorem swap_ok {α : Type} {l : List α} {i j : Nat} (hi : i < l.length) (hj : j < l.length) :
    ∃ r, swap l i j = Except.ok r ∧ r.length = l.length ∧
      ∀ k, r[k]? = if k = j then l[i]? else if k = i then l[j]? else l[k]? := by
  obtain ⟨x, hx, hx'⟩ := index_lt hi
  obtain ⟨y, hy, hy'⟩ := index_lt hj
  refine ⟨(l.set i y).set j x, ?_, by simp, ?_⟩
  · simp [swap, hx', hy', ok_bind, pure_eq_ok]
  · intro k
    by_cases hkj : k = j
    · subst hkj
      simp [hx, List.getElem?_set, hj]
    · by_cases hki : k = i
      · subst hki
        have : ¬ j = k := fun e => hkj e.symm
        simp [hkj, List.getElem?_set, this, hi, hy]
      · have h1 : ¬ j = k := fun e => hkj e.symm
        have h2 : ¬ i = k := fun e => hki e.symm
        simp [hkj, hki, List.getElem?_set, h1, h2]

theorem swap_inv {α : Type} {l r : List α} {i j : Nat} (h : swap l i j = Except.ok r) :
    i < l.length ∧ j < l.length := by
  unfold swap index at h
  by_cases hi : i < l.length
  · by_cases hj : j < l.length
    · exact ⟨hi, hj⟩
    · simp [List.getElem?_eq_none (Nat.le_of_not_lt hj), List.getElem?_eq_getElem hi,
        bind, Except.bind, pure, Except.pure, throw, throwThe, MonadExceptOf.throw] at h
  · simp [List.getElem?_eq_none (Nat.le_of_not_lt hi),
      bind, Except.bind, throw, throwThe, MonadExceptOf.throw] at h

theorem swap_spec {α : Type} {l r : List α} {i j : Nat} (h : swap l i j = Except.ok r) :
    r.length = l.length ∧
      ∀ k, r[k]? = if k = j then l[i]? else if k = i then l[j]? else l[k]? := by
  obtain ⟨hi, hj⟩ := swap_inv h
  obtain ⟨r', h', hlen, hget⟩ := swap_ok hi hj
  rw [h] at h'
  cases h'
  exact ⟨hlen, hget⟩

theorem cons_set_perm {α : Type} (h : α) : ∀ (t : List α) (j : Nat) (y : α),
    t[j]? = some y → List.Perm (y :: t.set j h) (h :: t)
  | [], j, y, e => by simp at e
  | z :: t, 0, y, e => by
    simp at e
    subst e
    simpa using List.Perm.swap h z t
  | z :: t, j + 1, y, e => by
    simp at e
    have ih := cons_set_perm h t j y e
    have h1 : List.Perm (y :: (z :: t).set (j + 1) h) (z :: y :: t.set j h) := by
      simpa using List.Perm.swap z y (t.set j h)
    exact h1.trans ((ih.cons z).trans (List.Perm.swap h z t))

theorem swap_perm {α : Type} {l r : List α} {i j : Nat} (h : swap l i j = Except.ok r) :
    List.Perm r l := by
  obtain ⟨hi, hj⟩ := swap_inv h
  obtain ⟨x, hx, hx'⟩ := index_lt hi
  obtain ⟨y, hy, hy'⟩ := index_lt hj
  have hr : r = (l.set i y).set j x := by
    simp [swap, hx', hy', ok_bind, pure_eq_ok] at h
    exact h.symm
  subst hr
  clear h hx' hy'
  induction l generalizing i j with
  | nil => simp at hi
  | cons z t ih =>
    cases i with
    | zero =>
      cases j with
      | zero =>
        simp at hx hy
        subst hx
        simp
      | succ j =>
        simp at hx hy
        subst hx
        simpa using cons_set_perm z t j y hy
    | succ i =>
      cases j with
      | zero =>
        simp at hx hy
        subst hy
        simpa using cons_set_perm z t i x hx
      | succ j =>
        simp at hx hy hi hj
        simpa using ih hi hj hx hy


/-! ## Swaps inside a range -/

theorem Shuf.trans {α : Type} {a b : Nat} {l m r : List α} (h1 : Shuf a b l m)
    (h2 : Shuf a b m r) : Shuf a b l r := by
  induction h2 with
  | refl => exact h1
  | step _ hai hib haj hjb hs ih => exact Shuf.step ih hai hib haj hjb hs

theorem Shuf.of_swap {α : Type} {a b : Nat} {l r : List α} {i j : Nat}
    (hai : a ≤ i) (hib : i < b) (haj : a ≤ j) (hjb : j < b) (hs : swap l i j = Except.ok r) :
    Shuf a b l r :=
  Shuf.step (Shuf.refl l) hai hib haj hjb hs

theorem Shuf.mono {α : Type} {a b a' b' : Nat} {l r : List α} (h : Shuf a b l r)
    (ha : a' ≤ a) (hb : b ≤ b') : Shuf a' b' l r := by
  induction h with
  | refl => exact Shuf.refl _
  | step _ hai hib haj hjb hs ih =>
    exact Shuf.step ih (Nat.le_trans ha hai) (Nat.lt_of_lt_of_le hib hb)
      (Nat.le_trans ha haj) (Nat.lt_of_lt_of_le hjb hb) hs

theorem Shuf.length_eq {α : Type} {a b : Nat} {l r : List α} (h : Shuf a b l r) :
    r.length = l.length := by
  induction h with
  | refl => rfl
  | step _ _ _ _ _ hs ih => rw [(swap_spec hs).1, ih]

theorem Shuf.perm {α : Type} {a b : Nat} {l r : List α} (h : Shuf a b l r) :
    List.Perm r l := by
  induction h with
  | refl => exact List.Perm.refl _
  | step _ _ _ _ _ hs ih => exact (swap_perm hs).trans ih

theorem Shuf.outside {α : Type} {a b : Nat} {l r : List α} (h : Shuf a b l r)
    (k : Nat) (hk : k < a ∨ b ≤ k) : r[k]? = l[k]? := by
  induction h with
  | refl => rfl
  | step _ hai hib haj hjb hs ih =>
    rw [(swap_spec hs).2 k, if_neg (by omega), if_neg (by omega), ih]

theorem Shuf.allOn {α : Type} {a b : Nat} {l r : List α} {P : α → Prop}
    (h : Shuf a b l r) (hP : AllOn P l a b) : AllOn P r a b := by
  induction h with
  | refl => exact hP
  | step _ hai hib haj hjb hs ih =>
    intro k hak hkb x hx
    rw [(swap_spec hs).2 k] at hx
    split_ifs at hx
    · exact ih _ hai hib x hx
    · exact ih _ haj hjb x hx
    · exact ih _ hak hkb x hx

theorem Shuf.allOn_of_subset {α : Type} {a b a' b' : Nat} {l r : List α} {P : α → Prop}
    (h : Shuf a b l r) (ha : a' ≤ a) (hb : b ≤ b') (hP : AllOn P l a' b') :
    AllOn P r a' b' :=
  (h.mono ha hb).allOn hP

theorem Shuf.allOn_of_disjoint {α : Type} {a b c d : Nat} {l r : List α} {P : α → Prop}
    (h : Shuf a b l r) (hd : d ≤ a ∨ b ≤ c) (hP : AllOn P l c d) : AllOn P r c d := by
  intro k hck hkd x hx
  rw [h.outside k (by omega)] at hx
  exact hP k hck hkd x hx

theorem Shuf.sortedOn_of_disjoint {α : Type} {a b c d : Nat} {l r : List α}
    {le : α → α → Prop} (h : Shuf a b l r) (hd : d ≤ a ∨ b ≤ c) (hS : SortedOn le l c d) :
    SortedOn le r c d := by
  intro i j hci hij hjd x y hx hy
  rw [h.outside i (by omega)] at hx
  rw [h.outside j (by omega)] at hy
  exact hS i j hci hij hjd x y hx hy

theorem sortedOn_glue {α : Type} {le : α → α → Prop}
    (htrans : ∀ x y z, le x y → le y z → le x z) {l : List α} {a mlo mhi b : Nat} {p : α}
    (h1 : SortedOn le l a mlo) (h3 : SortedOn le l mhi b)
    (hlo : AllOn (fun x => le x p) l a mlo)
    (hmid : AllOn (fun x => le x p ∧ le p x) l mlo mhi)
    (hhi : AllOn (fun x => le p x) l mhi b) : SortedOn le l a b := by
  intro i j hai hij hjb x y hx hy
  by_cases hj1 : j < mlo
  · exact h1 i j hai hij hj1 x y hx hy
  · by_cases hi3 : mhi ≤ i
    · exact h3 i j hi3 hij hjb x y hx hy
    · have hxp : le x p := by
        by_cases hi1 : i < mlo
        · exact hlo i hai hi1 x hx
        · exact (hmid i (by omega) (by omega) x hx).1
      have hpy : le p y := by
        by_cases hj3 : mhi ≤ j
        · exact hhi j hj3 hjb y hy
        · exact (hmid j (by omega) (by omega) y hy).2
      exact htrans _ _ _ hxp hpy


/-! ## Insertion sort -/

theorem insertionSort_inner_spec {α : Type} {lt : α → α → Bool} {le : α → α → Prop}
    (hc : Compat lt le) (a i : Nat) : ∀ (j : Nat) (l : List α), a ≤ j → j ≤ i → i < l.length →
    (∀ p q, a ≤ p → p < q → q ≤ i → q ≠ j →
      ∀ x y, l[p]? = some x → l[q]? = some y → le x y) →
    ∃ r, insertionSort.inner lt a j l = Except.ok r ∧ Shuf a (i + 1) l r ∧
      SortedOn le r a (i + 1) := by
  intro j
  induction j with
  | zero =>
    intro l _ _ _ inv
    refine ⟨l, rfl, Shuf.refl l, ?_⟩
    intro p q hap hpq hq x y hx hy
    exact inv p q hap hpq (by omega) (by omega) x y hx hy
  | succ j ih =>
    intro l haj hji hil inv
    rw [insertionSort.inner]
    by_cases hgt : j + 1 > a
    · obtain ⟨x, hx, hx'⟩ := index_lt (show j + 1 < l.length by omega)
      obtain ⟨y, hy, hy'⟩ := index_lt (show j < l.length by omega)
      simp only [hgt, if_true, hx', hy', ok_bind]
      by_cases hlt : lt x y = true
      · obtain ⟨l', hs, hlen, hget⟩ := swap_ok (show j + 1 < l.length by omega)
          (show j < l.length by omega)
        simp only [hlt, if_true, hs, ok_bind]
        have inv' : ∀ p q, a ≤ p → p < q → q ≤ i → q ≠ j →
            ∀ u v, l'[p]? = some u → l'[q]? = some v → le u v := by
          intro p q hap hpq hqi hqj u v hu hv
          rw [hget] at hu hv
          by_cases hq1 : q = j + 1
          · subst hq1
            rw [if_neg (by omega), if_pos rfl, hy] at hv
            cases hv
            by_cases hp1 : p = j
            · subst hp1
              rw [if_pos rfl, hx] at hu
              cases hu
              exact hc.of_lt _ _ hlt
            · rw [if_neg hp1, if_neg (by omega)] at hu
              exact inv p j hap (by omega) (by omega) (by omega) u y hu hy
          · rw [if_neg hqj, if_neg hq1] at hv
            by_cases hp1 : p = j
            · subst hp1
              rw [if_pos rfl, hx] at hu
              cases hu
              exact inv (p + 1) q (by omega) (by omega) hqi hq1 x v hx hv
            · by_cases hp2 : p = j + 1
              · subst hp2
                rw [if_neg hp1, if_pos rfl, hy] at hu
                cases hu
                exact inv j q (by omega) (by omega) hqi hq1 y v hy hv
              · rw [if_neg hp1, if_neg hp2] at hu
                exact inv p q hap hpq hqi hq1 u v hu hv
        obtain ⟨r, hr, hsh, hso⟩ := ih l' (by omega) (by omega) (by omega) inv'
        exact ⟨r, hr, (Shuf.of_swap (by omega) (by omega) (by omega) (by omega) hs).trans hsh,
          hso⟩
      · have hlt' : lt x y = false := by simpa using hlt
        simp only [hlt', Bool.false_eq_true, if_false, pure_eq_ok]
        refine ⟨l, rfl, Shuf.refl l, ?_⟩
        intro p q hap hpq hq u v hu hv
        by_cases hq1 : q = j + 1
        · subst hq1
          rw [hx] at hv
          cases hv
          by_cases hp1 : p = j
          · subst hp1
            rw [hy] at hu
            cases hu
            exact hc.of_not_lt _ _ hlt'
          · exact hc.trans _ _ _
              (inv p j hap (by omega) (by omega) (by omega) u y hu hy)
              (hc.of_not_lt _ _ hlt')
        · exact inv p q hap hpq (by omega) hq1 u v hu hv
    · simp only [hgt, if_false, pure_eq_ok]
      refine ⟨l, rfl, Shuf.refl l, ?_⟩
      intro p q hap hpq hq u v hu hv
      exact inv p q hap hpq (by omega) (by omega) u v hu hv

theorem sortedOn_mono {α : Type} {le : α → α → Prop} {l : List α} {a b a' b' : Nat}
    (h : SortedOn le l a b) (ha : a ≤ a') (hb : b' ≤ b) : SortedOn le l a' b' := by
  intro i j hai hij hjb x y hx hy
  exact h i j (by omega) hij (by omega) x y hx hy

theorem insertionSort_outer_spec {α : Type} {lt : α → α → Bool} {le : α → α → Prop}
    (hc : Compat lt le) (a b : Nat) : ∀ (fuel i : Nat) (l : List α), a < i → b ≤ l.length →
    b - i ≤ fuel → SortedOn le l a i →
    ∃ r, insertionSort.outer lt a b fuel i l = Except.ok r ∧ Shuf a b l r ∧
      SortedOn le r a b := by
  intro fuel
  induction fuel with
  | zero =>
    intro i l _ _ hf hs
    rw [insertionSort.outer, if_neg (by omega)]
    exact ⟨l, rfl, Shuf.refl l, sortedOn_mono hs (Nat.le_refl _) (by omega)⟩
  | succ f ih =>
    intro i l hai hbl hf hs
    rw [insertionSort.outer]
    by_cases hib : i < b
    · obtain ⟨r1, h1, hsh1, hso1⟩ := insertionSort_inner_spec hc a i i l (by omega)
        (Nat.le_refl _) (by omega) (by
          intro p q hap hpq hqi hq x y hx hy
          exact hs p q hap hpq (by omega) x y hx hy)
      obtain ⟨r, h2, hsh2, hso2⟩ := ih (i + 1) r1 (by omega)
        (by rw [hsh1.length_eq]; exact hbl) (by omega) hso1
      simp only [hib, if_true, h1, ok_bind]
      exact ⟨r, h2, (hsh1.mono (Nat.le_refl _) (by omega)).trans hsh2, hso2⟩
    · simp only [hib, if_false, pure_eq_ok]
      exact ⟨l, rfl, Shuf.refl l, sortedOn_mono hs (Nat.le_refl _) (by omega)⟩

theorem insertionSort_spec {α : Type} {lt : α → α → Bool} {le : α → α → Prop}
    (hc : Compat lt le) (l : List α) (a b : Nat) (hb : b ≤ l.length) :
    ∃ r, insertionSort lt l a b = Except.ok r ∧ Shuf a b l r ∧ SortedOn le r a b := by
  unfold insertionSort
  apply insertionSort_outer_spec hc a b (b - a) (a + 1) l (by omega) hb (by omega)
  intro i j hai hij hj
  omega


/-! ## Heap sort -/

theorem siftDown_pick_spec {α : Type} {lt : α → α → Bool} {le : α → α → Prop}
    (hc : Compat lt le) (l : List α) (hi first root : Nat) (hlen : first + hi ≤ l.length)
    (hch : 2 * root + 1 < hi) :
    ∃ m, siftDown.pick lt l hi first (2 * root + 1) = Except.ok m ∧
      (m = 2 * root + 1 ∨ m = 2 * root + 2) ∧ m < hi ∧
      ∀ c, c < hi → (c = 2 * root + 1 ∨ c = 2 * root + 2) →
        ∀ x y, l[first + m]? = some x → l[first + c]? = some y → le y x := by
  have hrefl : ∀ x : α, le x x := fun x => by
    cases h : lt x x
    · exact hc.of_not_lt _ _ h
    · exact hc.of_lt _ _ h
  unfold siftDown.pick
  by_cases h2 : 2 * root + 1 + 1 < hi
  · obtain ⟨x, hx, hx'⟩ := index_lt (show first + (2 * root + 1) < l.length by omega)
    obtain ⟨y, hy, hy'⟩ := index_lt (show first + (2 * root + 1) + 1 < l.length by omega)
    simp only [h2, if_true, hx', hy', ok_bind]
    by_cases hlt : lt x y = true
    · simp only [hlt, if_true, pure_eq_ok]
      refine ⟨2 * root + 1 + 1, rfl, Or.inr rfl, h2, ?_⟩
      intro c _ hc' u v hu hv
      rw [show first + (2 * root + 1 + 1) = first + (2 * root + 1) + 1 by omega, hy] at hu
      cases hu
      rcases hc' with rfl | rfl
      · rw [hx] at hv
        cases hv
        exact hc.of_lt _ _ hlt
      · rw [show first + (2 * root + 2) = first + (2 * root + 1) + 1 by omega, hy] at hv
        cases hv
        exact hrefl _
    · have hlt' : lt x y = false := by simpa using hlt
      simp only [hlt', Bool.false_eq_true, if_false, pure_eq_ok]
      refine ⟨2 * root + 1, rfl, Or.inl rfl, hch, ?_⟩
      intro c _ hc' u v hu hv
      rw [hx] at hu
      cases hu
      rcases hc' with rfl | rfl
      · rw [hx] at hv
        cases hv
        exact hrefl _
      · rw [show first + (2 * root + 2) = first + (2 * root + 1) + 1 by omega, hy] at hv
        cases hv
        exact hc.of_not_lt _ _ hlt'
  · obtain ⟨x, hx, _⟩ := index_lt (show first + (2 * root + 1) < l.length by omega)
    simp only [h2, if_false, pure_eq_ok]
    refine ⟨2 * root + 1, rfl, Or.inl rfl, hch, ?_⟩
    intro c hchi hc' u v hu hv
    rcases hc' with rfl | rfl
    · rw [hu] at hv
      cases hv
      exact hrefl _
    · omega

theorem heapOn_fill {α : Type} {le : α → α → Prop} {l : List α} {first lo hi root : Nat}
    (h : HeapOn le l first lo hi (some root))
    (hroot : ∀ c, c < hi → (c = 2 * root + 1 ∨ c = 2 * root + 2) →
      ∀ x y, l[first + root]? = some x → l[first + c]? = some y → le y x) :
    HeapOn le l first lo hi none := by
  intro k c hk _ hchi hck x y hx hy
  by_cases hkr : k = root
  · subst hkr
    exact hroot c hchi hck x y hx hy
  · exact h k c hk (by simpa using hkr) hchi hck x y hx hy

theorem siftDown_loop_spec {α : Type} {lt : α → α → Bool} {le : α → α → Prop}
    (hc : Compat lt le) (hi first lo : Nat) : ∀ (fuel : Nat) (l : List α) (root : Nat),
    lo ≤ root → first + hi ≤ l.length → hi ≤ fuel + root →
    HeapOn le l first lo hi (some root) →
    (∀ p c, lo ≤ p → (root = 2 * p + 1 ∨ root = 2 * p + 2) → c < hi →
      (c = 2 * root + 1 ∨ c = 2 * root + 2) →
      ∀ x y, l[first + p]? = some x → l[first + c]? = some y → le y x) →
    ∃ r, siftDown.loop lt hi first fuel l root = Except.ok r ∧
      Shuf (first + root) (first + hi) l r ∧ HeapOn le r first lo hi none := by
  intro fuel
  induction fuel with
  | zero =>
    intro l root _ _ hf hheap _
    rw [siftDown.loop]
    have h1 : 2 * root + 1 ≥ hi := by omega
    simp only [h1, if_true, pure_eq_ok]
    exact ⟨l, rfl, Shuf.refl l, heapOn_fill hheap (by intro c h1 h2; omega)⟩
  | succ f ih =>
    intro l root hlo hlen hf hheap hbr
    rw [siftDown.loop]
    by_cases h1 : 2 * root + 1 ≥ hi
    · simp only [h1, if_true, pure_eq_ok]
      exact ⟨l, rfl, Shuf.refl l, heapOn_fill hheap (by intro c h1 h2; omega)⟩
    · obtain ⟨m, hm, hmc, hmhi, hmax⟩ := siftDown_pick_spec hc l hi first root hlen (by omega)
      obtain ⟨x, hx, hx'⟩ := index_lt (show first + root < l.length by omega)
      obtain ⟨y, hy, hy'⟩ := index_lt (show first + m < l.length by omega)
      simp only [h1, if_false, hm, hx', hy', ok_bind]
      by_cases hlt : lt x y = true
      · obtain ⟨l', hs, hlen', hget⟩ := swap_ok (show first + root < l.length by omega)
          (show first + m < l.length by omega)
        simp only [hlt, Bool.not_true, Bool.false_eq_true, if_false, hs, ok_bind]
        have hheap' : HeapOn le l' first lo hi (some m) := by
          intro k c hk hkm hchi hck u v hu hv
          have hkm' : k ≠ m := fun e => hkm (by rw [e])
          rw [hget] at hu hv
          rw [if_neg (by omega)] at hu
          by_cases hkr : k = root
          · subst hkr
            rw [if_pos rfl, hy] at hu
            cases hu
            by_cases hcm : c = m
            · subst hcm
              rw [if_pos rfl, hx] at hv
              cases hv
              exact hc.of_lt _ _ hlt
            · rw [if_neg (by omega), if_neg (by omega)] at hv
              exact hmax c hchi hck y v hy hv
          · rw [if_neg (by omega)] at hu
            rw [if_neg (by omega)] at hv
            by_cases hcr : c = root
            · subst hcr
              rw [if_pos rfl, hy] at hv
              cases hv
              exact hbr k m (by omega) hck hmhi hmc u y hu hy
            · rw [if_neg (by omega)] at hv
              exact hheap k c hk (by simpa using hkr) hchi hck u v hu hv
        have hbr' : ∀ p c, lo ≤ p → (m = 2 * p + 1 ∨ m = 2 * p + 2) → c < hi →
            (c = 2 * m + 1 ∨ c = 2 * m + 2) →
            ∀ u v, l'[first + p]? = some u → l'[first + c]? = some v → le v u := by
          intro p c _ hmp hchi hcm u v hu hv
          have hpr : p = root := by omega
          subst hpr
          rw [hget] at hu hv
          rw [if_neg (by omega), if_pos rfl, hy] at hu
          cases hu
          rw [if_neg (by omega), if_neg (by omega)] at hv
          exact hheap m c (by omega) (by simp; omega) hchi hcm y v hy hv
        obtain ⟨r, hr, hsh, hh⟩ := ih l' m (by omega) (by omega) (by omega) hheap' hbr'
        refine ⟨r, hr, ?_, hh⟩
        exact (Shuf.of_swap (Nat.le_refl _) (by omega) (by omega) (by omega) hs).trans
          (hsh.mono (by omega) (Nat.le_refl _))
      · have hlt' : lt x y = false := by simpa using hlt
        simp only [hlt', Bool.not_false, if_true, pure_eq_ok]
        refine ⟨l, rfl, Shuf.refl l, heapOn_fill hheap ?_⟩
        intro c hchi hcc u v hu hv
        rw [hx] at hu
        cases hu
        exact hc.trans _ _ _ (hmax c hchi hcc y v hy hv) (hc.of_not_lt _ _ hlt')


theorem Compat.refl {α : Type} {lt : α → α → Bool} {le : α → α → Prop}
    (hc : Compat lt le) (x : α) : le x x := by
  cases h : lt x x
  · exact hc.of_not_lt _ _ h
  · exact hc.of_lt _ _ h

theorem siftDown_spec {α : Type} {lt : α → α → Bool} {le : α → α → Prop}
    (hc : Compat lt le) (l : List α) (lo hi first : Nat) (hlen : first + hi ≤ l.length)
    (hheap : HeapOn le l first lo hi (some lo)) :
    ∃ r, siftDown lt l lo hi first = Except.ok r ∧
      Shuf (first + lo) (first + hi) l r ∧ HeapOn le r first lo hi none := by
  unfold siftDown
  apply siftDown_loop_spec hc hi first lo hi l lo (Nat.le_refl _) hlen (by omega) hheap
  intro p c hp hr
  omega

theorem heapOn_step {α : Type} {le : α → α → Prop} {l : List α} {first i hi : Nat}
    (h : HeapOn le l first (i + 1) hi none) : HeapOn le l first i hi (some i) := by
  intro k c hk hki hchi hck x y hx hy
  have : k ≠ i := fun e => hki (by rw [e])
  exact h k c (by omega) (by simp) hchi hck x y hx hy

theorem heapSort_build_spec {α : Type} {lt : α → α → Bool} {le : α → α → Prop}
    (hc : Compat lt le) (hi first : Nat) : ∀ (i : Nat) (l : List α),
    first + hi ≤ l.length → HeapOn le l first (i + 1) hi none →
    ∃ r, heapSort.build lt hi first i l = Except.ok r ∧
      Shuf first (first + hi) l r ∧ HeapOn le r first 0 hi none := by
  intro i
  induction i with
  | zero =>
    intro l hlen hheap
    rw [heapSort.build]
    obtain ⟨r, hr, hsh, hh⟩ := siftDown_spec hc l 0 hi first hlen (heapOn_step hheap)
    exact ⟨r, hr, hsh, hh⟩
  | succ i ih =>
    intro l hlen hheap
    rw [heapSort.build]
    obtain ⟨r1, hr1, hsh1, hh1⟩ := siftDown_spec hc l (i + 1) hi first hlen (heapOn_step hheap)
    obtain ⟨r, hr, hsh, hh⟩ := ih r1 (by rw [hsh1.length_eq]; exact hlen) hh1
    simp only [hr1, ok_bind]
    exact ⟨r, hr, (hsh1.mono (by omega) (Nat.le_refl _)).trans hsh, hh⟩

theorem heap_root_max {α : Type} {lt : α → α → Bool} {le : α → α → Prop}
    (hc : Compat lt le) {l : List α} {first n : Nat} (hlen : first + n ≤ l.length)
    (hheap : HeapOn le l first 0 n none) :
    ∀ k, k < n → ∀ x y, l[first]? = some x → l[first + k]? = some y → le y x := by
  intro k
  induction k using Nat.strong_induction_on with
  | _ k ih =>
    intro hk x y hx hy
    by_cases h0 : k = 0
    · subst h0
      rw [Nat.add_zero, hx] at hy
      cases hy
      exact hc.refl _
    · obtain ⟨z, hz, _⟩ := index_lt (show first + (k - 1) / 2 < l.length by omega)
      have h1 := ih ((k - 1) / 2) (by omega) (by omega) x z hx hz
      have h2 := hheap ((k - 1) / 2) k (Nat.zero_le _) (by simp) hk (by omega) z y hz hy
      exact hc.trans _ _ _ h2 h1

theorem heapSort_pop_spec {α : Type} {lt : α → α → Bool} {le : α → α → Prop}
    (hc : Compat lt le) (hi first : Nat) : ∀ (n : Nat) (l : List α),
    n ≤ hi → first + hi ≤ l.length → HeapOn le l first 0 n none →
    SortedOn le l (first + n) (first + hi) →
    (∀ q, n ≤ q → q < hi → ∀ y, l[first + q]? = some y →
      AllOn (fun x => le x y) l first (first + n)) →
    ∃ r, heapSort.pop lt 0 first n l = Except.ok r ∧
      Shuf first (first + hi) l r ∧ SortedOn le r first (first + hi) := by
  intro n
  induction n with
  | zero =>
    intro l _ _ _ hso _
    exact ⟨l, rfl, Shuf.refl l, hso⟩
  | succ n ih =>
    intro l hn hlen hheap hso hall
    rw [heapSort.pop]
    obtain ⟨l1, hs, hlen1, hget⟩ := swap_ok (show first < l.length by omega)
      (show first + n < l.length by omega)
    obtain ⟨M, hM, _⟩ := index_lt (show first < l.length by omega)
    have hmax := heap_root_max hc (show first + (n + 1) ≤ l.length by omega) hheap
    have hheap1 : HeapOn le l1 first 0 n (some 0) := by
      intro k c _ hk0 hcn hck x y hx hy
      have hk0' : k ≠ 0 := fun e => hk0 (by rw [e])
      rw [hget, if_neg (by omega), if_neg (by omega)] at hx hy
      exact hheap k c (Nat.zero_le _) (by simp) (by omega) hck x y hx hy
    obtain ⟨l2, h2, hsh2, hheap2⟩ := siftDown_spec hc l1 0 n first (by omega) hheap1
    rw [Nat.add_zero] at hsh2
    have hso1 : SortedOn le l1 (first + n) (first + hi) := by
      intro i j hi' hij hj x y hx hy
      rw [hget] at hx hy
      rw [if_neg (by omega), if_neg (by omega)] at hy
      by_cases hin : i = first + n
      · rw [if_pos hin, hM] at hx
        cases hx
        have := hall (j - first) (by omega) (by omega) y
          (by rw [show first + (j - first) = j by omega]; exact hy)
        exact this first (Nat.le_refl _) (by omega) _ hM
      · rw [if_neg hin, if_neg (by omega)] at hx
        exact hso i j (by omega) hij hj x y hx hy
    have hall1 : ∀ q, n ≤ q → q < hi → ∀ y, l1[first + q]? = some y →
        AllOn (fun x => le x y) l1 first (first + n) := by
      intro q hq hqhi y hy k hk1 hk2 x hx
      rw [hget] at hx hy
      rw [if_neg (by omega)] at hx
      have hx' : ∃ k', k' < n + 1 ∧ l[first + k']? = some x := by
        by_cases hkf : k = first
        · rw [if_pos hkf] at hx
          exact ⟨n, by omega, hx⟩
        · rw [if_neg hkf] at hx
          exact ⟨k - first, by omega, by rw [show first + (k - first) = k by omega]; exact hx⟩
      obtain ⟨k', hk', hxk⟩ := hx'
      by_cases hqn : q = n
      · subst hqn
        rw [if_pos rfl, hM] at hy
        cases hy
        exact hmax k' hk' _ x hM hxk
      · rw [if_neg (by omega), if_neg (by omega)] at hy
        exact hall q (by omega) hqhi y hy (first + k') (by omega) (by omega) x hxk
    obtain ⟨r, hr, hsh, hsor⟩ := ih l2 (by omega) (by rw [hsh2.length_eq]; omega) hheap2
      (hsh2.sortedOn_of_disjoint (Or.inr (Nat.le_refl _)) hso1)
      (by
        intro q hq hqhi y hy
        rw [hsh2.outside (first + q) (by omega)] at hy
        exact hsh2.allOn (hall1 q hq hqhi y hy))
    simp only [hs, h2, ok_bind]
    refine ⟨r, hr, ?_, hsor⟩
    exact ((Shuf.of_swap (Nat.le_refl _) (by omega) (by omega) (by omega) hs).trans
      (hsh2.mono (Nat.le_refl _) (by omega))).trans hsh

theorem heapSort_spec {α : Type} {lt : α → α → Bool} {le : α → α → Prop}
    (hc : Compat lt le) (l : List α) (a b : Nat) (hab : a ≤ b) (hb : b ≤ l.length) :
    ∃ r, heapSort lt l a b = Except.ok r ∧ Shuf a b l r ∧ SortedOn le r a b := by
  unfold heapSort
  obtain ⟨r1, h1, hsh1, hh1⟩ := heapSort_build_spec hc (b - a) a ((b - a - 1) / 2) l
    (by omega) (by intro k c hk _ hchi hck; omega)
  obtain ⟨r, h2, hsh2, hso⟩ := heapSort_pop_spec hc (b - a) a (b - a) r1 (Nat.le_refl _)
    (by rw [hsh1.length_eq]; omega) hh1 (by intro i j hi hij hj; omega)
    (by intro q hq hqhi; omega)
  simp only [h1, ok_bind]
  rw [show a + (b - a) = b by omega] at hsh1 hsh2 hso
  exact ⟨r, h2, hsh1.trans hsh2, hso⟩


/-! ## Pivot selection and partition -/

theorem medianOfThree_step_spec {α : Type} (lt : α → α → Bool) (l : List α) {lo hi i j : Nat}
    (hi1 : lo ≤ i) (hi2 : i < hi) (hj1 : lo ≤ j) (hj2 : j < hi) (hlen : hi ≤ l.length) :
    ∃ r, medianOfThree.step lt l i j = Except.ok r ∧ Shuf lo hi l r := by
  unfold medianOfThree.step
  obtain ⟨x, _, hx'⟩ := index_lt (show i < l.length by omega)
  obtain ⟨y, _, hy'⟩ := index_lt (show j < l.length by omega)
  simp only [hx', hy', ok_bind]
  by_cases hlt : lt x y = true
  · obtain ⟨r, hs, _, _⟩ := swap_ok (show i < l.length by omega) (show j < l.length by omega)
    simp only [hlt, if_true]
    exact ⟨r, hs, Shuf.of_swap hi1 hi2 hj1 hj2 hs⟩
  · simp only [hlt, if_false, pure_eq_ok]
    exact ⟨l, rfl, Shuf.refl l⟩

theorem medianOfThree_spec {α : Type} (lt : α → α → Bool) (l : List α) (lo hi a b c : Nat)
    (ha1 : lo ≤ a) (ha2 : a < hi) (hb1 : lo ≤ b) (hb2 : b < hi) (hc1 : lo ≤ c) (hc2 : c < hi)
    (hlen : hi ≤ l.length) :
    ∃ r, medianOfThree lt l a b c = Except.ok r ∧ Shuf lo hi l r := by
  unfold medianOfThree
  obtain ⟨r1, h1, s1⟩ := medianOfThree_step_spec lt l ha1 ha2 hb1 hb2 hlen
  obtain ⟨r2, h2, s2⟩ := medianOfThree_step_spec lt r1 hc1 hc2 ha1 ha2
    (by rw [s1.length_eq]; exact hlen)
  obtain ⟨r3, h3, s3⟩ := medianOfThree_step_spec lt r2 ha1 ha2 hb1 hb2
    (by rw [s2.length_eq, s1.length_eq]; exact hlen)
  simp only [h1, h2, ok_bind]
  exact ⟨r3, h3, (s1.trans s2).trans s3⟩

theorem swapRange_loop_spec {α : Type} (l : List α) {lo hi : Nat} (a b n : Nat)
    (hlo : lo ≤ a) (hab : a + n ≤ b) (hbn : b + n ≤ hi) (hlen : hi ≤ l.length) :
    ∀ (fuel i : Nat) (m : List α), i ≤ n → n ≤ fuel + i → m.length = l.length →
    (∀ k, m[k]? = if a ≤ k ∧ k < a + i then l[k - a + b]?
      else if b ≤ k ∧ k < b + i then l[k - b + a]? else l[k]?) →
    ∃ r, swapRange.loop a b n fuel i m = Except.ok r ∧ Shuf lo hi m r ∧
      ∀ k, r[k]? = if a ≤ k ∧ k < a + n then l[k - a + b]?
        else if b ≤ k ∧ k < b + n then l[k - b + a]? else l[k]? := by
  intro fuel
  induction fuel with
  | zero =>
    intro i m hin hf _ hm
    rw [swapRange.loop, if_neg (by omega)]
    have : i = n := by omega
    subst this
    exact ⟨m, rfl, Shuf.refl m, hm⟩
  | succ f ih =>
    intro i m hin hf hml hm
    rw [swapRange.loop]
    by_cases hlt : i < n
    · obtain ⟨m', hs, hlen', hget⟩ := swap_ok (show a + i < m.length by omega)
        (show b + i < m.length by omega)
      have hm' : ∀ k, m'[k]? = if a ≤ k ∧ k < a + (i + 1) then l[k - a + b]?
          else if b ≤ k ∧ k < b + (i + 1) then l[k - b + a]? else l[k]? := by
        intro k
        rw [hget]
        simp only [hm]
        split_ifs <;> first | rfl | (exfalso; omega) | (congr 1; omega)
      obtain ⟨r, hr, hsh, hrk⟩ := ih (i + 1) m' (by omega) (by omega) (by omega) hm'
      simp only [hlt, if_true, hs, ok_bind]
      exact ⟨r, hr, (Shuf.of_swap (by omega) (by omega) (by omega) (by omega) hs).trans hsh,
        hrk⟩
    · have : i = n := by omega
      subst this
      simp only [hlt, if_false, pure_eq_ok]
      exact ⟨m, rfl, Shuf.refl m, hm⟩

theorem swapRange_spec {α : Type} (l : List α) (lo hi : Nat) (a b n : Nat)
    (hlo : lo ≤ a) (hab : a + n ≤ b) (hbn : b + n ≤ hi) (hlen : hi ≤ l.length) :
    ∃ r, swapRange l a b n = Except.ok r ∧ Shuf lo hi l r ∧
      ∀ k, r[k]? = if a ≤ k ∧ k < a + n then l[k - a + b]?
        else if b ≤ k ∧ k < b + n then l[k - b + a]? else l[k]? := by
  unfold swapRange
  apply swapRange_loop_spec l a b n hlo hab hbn hlen n 0 l (Nat.zero_le _) (by omega) rfl
  intro k
  rw [if_neg (by omega), if_neg (by omega)]


theorem doPivot_scanUp_spec {α : Type} {lt : α → α → Bool} {le : α → α → Prop}
    (hc : Compat lt le) (lo c : Nat) (p : α) : ∀ (fuel : Nat) (l : List α) (a b : Nat),
    lo < a → a ≤ b → b ≤ c → c ≤ l.length → c - b ≤ fuel → l[lo]? = some p →
    AllOn (fun x => le x p ∧ le p x) l lo a → AllOn (fun x => le x p) l a b →
    ∃ r a' b', doPivot.scanUp lt lo c fuel l a b = Except.ok (r, a', b') ∧ Shuf a b' l r ∧
      a ≤ a' ∧ a' ≤ b' ∧ b ≤ b' ∧ b' ≤ c ∧
      AllOn (fun x => le x p ∧ le p x) r lo a' ∧ AllOn (fun x => le x p) r a' b' ∧
      (b' = c ∨ ∃ x, r[b']? = some x ∧ lt p x = true) := by
  intro fuel
  induction fuel with
  | zero =>
    intro l a b _ hab hbc _ hf _ hE hL
    rw [doPivot.scanUp, if_neg (by omega)]
    exact ⟨l, a, b, rfl, Shuf.refl l, Nat.le_refl _, hab, Nat.le_refl _, hbc, hE, hL,
      Or.inl (by omega)⟩
  | succ f ih =>
    intro l a b hlo hab hbc hlen hf hp hE hL
    rw [doPivot.scanUp]
    by_cases hlt : b < c
    · obtain ⟨x, hx, hx'⟩ := index_lt (show b < l.length by omega)
      simp only [hlt, if_true, hx', index_ok hp, ok_bind]
      by_cases h1 : lt x p = true
      · have hL' : AllOn (fun x => le x p) l a (b + 1) := by
          intro k hk1 hk2 u hu
          by_cases hkb : k = b
          · subst hkb
            rw [hx] at hu
            cases hu
            exact hc.of_lt _ _ h1
          · exact hL k hk1 (by omega) u hu
        obtain ⟨r, a', b', hr, hsh, h2, h3, h4, h5, h6, h7, h8⟩ :=
          ih l a (b + 1) hlo (by omega) (by omega) hlen (by omega) hp hE hL'
        simp only [h1, if_true]
        exact ⟨r, a', b', hr, hsh, h2, h3, by omega, h5, h6, h7, h8⟩
      · have h1' : lt x p = false := by simpa using h1
        by_cases h2 : lt p x = true
        · simp only [h1', h2, Bool.false_eq_true, if_false, Bool.not_true, pure_eq_ok]
          exact ⟨l, a, b, rfl, Shuf.refl l, Nat.le_refl _, hab, Nat.le_refl _, hbc, hE, hL,
            Or.inr ⟨x, hx, h2⟩⟩
        · have h2' : lt p x = false := by simpa using h2
          obtain ⟨l', hs, hlen', hget⟩ := swap_ok (show a < l.length by omega)
            (show b < l.length by omega)
          simp only [h1', h2', Bool.false_eq_true, if_false, Bool.not_false, if_true, hs,
            ok_bind]
          have hxE : le x p ∧ le p x := ⟨hc.of_not_lt _ _ h2', hc.of_not_lt _ _ h1'⟩
          have hp' : l'[lo]? = some p := by
            rw [hget, if_neg (by omega), if_neg (by omega)]
            exact hp
          have hE' : AllOn (fun x => le x p ∧ le p x) l' lo (a + 1) := by
            intro k hk1 hk2 u hu
            rw [hget] at hu
            by_cases hka : k = a
            · by_cases hkb : k = b
              · rw [if_pos hkb, show a = b by omega, hx] at hu
                cases hu
                exact hxE
              · rw [if_neg hkb, if_pos hka, hx] at hu
                cases hu
                exact hxE
            · rw [if_neg (by omega), if_neg hka] at hu
              exact hE k hk1 (by omega) u hu
          have hL' : AllOn (fun x => le x p) l' (a + 1) (b + 1) := by
            intro k hk1 hk2 u hu
            rw [hget] at hu
            by_cases hkb : k = b
            · rw [if_pos hkb] at hu
              exact hL a (Nat.le_refl _) (by omega) u hu
            · rw [if_neg hkb, if_neg (by omega)] at hu
              exact hL k (by omega) (by omega) u hu
          obtain ⟨r, a', b', hr, hsh, h3, h4, h5, h6, h7, h8, h9⟩ :=
            ih l' (a + 1) (b + 1) (by omega) (by omega) (by omega) (by omega) (by omega)
              hp' hE' hL'
          refine ⟨r, a', b', hr, ?_, by omega, h4, by omega, h6, h7, h8, h9⟩
          exact (Shuf.of_swap (Nat.le_refl _) (by omega) (by omega) (by omega) hs).trans
            (hsh.mono (by omega) (Nat.le_refl _))
    · simp only [hlt, if_false, pure_eq_ok]
      exact ⟨l, a, b, rfl, Shuf.refl l, Nat.le_refl _, hab, Nat.le_refl _, hbc, hE, hL,
        Or.inl (by omega)⟩


theorem doPivot_scanDown_spec {α : Type} {lt : α → α → Bool} {le : α → α → Prop}
    (hc : Compat lt le) (lo b hi : Nat) (p : α) : ∀ (fuel : Nat) (l : List α) (c d : Nat),
    lo < b → b ≤ c → c ≤ d → d ≤ hi → hi ≤ l.length → c - b ≤ fuel → l[lo]? = some p →
    AllOn (fun x => le p x) l c d → AllOn (fun x => le x p ∧ le p x) l d hi →
    ∃ r c' d', doPivot.scanDown lt lo b fuel l c d = Except.ok (r, c', d') ∧ Shuf c' d l r ∧
      b ≤ c' ∧ c' ≤ c ∧ c' ≤ d' ∧ d' ≤ d ∧
      AllOn (fun x => le p x) r c' d' ∧ AllOn (fun x => le x p ∧ le p x) r d' hi ∧
      (c' = b ∨ ∃ y, r[c' - 1]? = some y ∧ lt p y = false ∧ lt y p = true) := by
  intro fuel
  induction fuel with
  | zero =>
    intro l c d _ hbc hcd hdh _ hf _ hG hE
    rw [doPivot.scanDown, if_neg (by omega)]
    exact ⟨l, c, d, rfl, Shuf.refl l, hbc, Nat.le_refl _, hcd, Nat.le_refl _, hG, hE,
      Or.inl (by omega)⟩
  | succ f ih =>
    intro l c d hlo hbc hcd hdh hlen hf hp hG hE
    rw [doPivot.scanDown]
    by_cases hlt : b < c
    · obtain ⟨x, hx, hx'⟩ := index_lt (show c - 1 < l.length by omega)
      simp only [hlt, if_true, hx', index_ok hp, ok_bind]
      by_cases h1 : lt p x = true
      · have hG' : AllOn (fun x => le p x) l (c - 1) d := by
          intro k hk1 hk2 u hu
          by_cases hkc : k = c - 1
          · subst hkc
            rw [hx] at hu
            cases hu
            exact hc.of_lt _ _ h1
          · exact hG k (by omega) hk2 u hu
        obtain ⟨r, c', d', hr, hsh, h2, h3, h4, h5, h6, h7, h8⟩ :=
          ih l (c - 1) d hlo (by omega) (by omega) hdh hlen (by omega) hp hG' hE
        simp only [h1, if_true]
        exact ⟨r, c', d', hr, hsh, h2, by omega, h4, h5, h6, h7, h8⟩
      · have h1' : lt p x = false := by simpa using h1
        by_cases h2 : lt x p = true
        · simp only [h1', h2, Bool.false_eq_true, if_false, Bool.not_true, pure_eq_ok]
          exact ⟨l, c, d, rfl, Shuf.refl l, hbc, Nat.le_refl _, hcd, Nat.le_refl _, hG, hE,
            Or.inr ⟨x, hx, h1', h2⟩⟩
        · have h2' : lt x p = false := by simpa using h2
          obtain ⟨l', hs, hlen', hget⟩ := swap_ok (show c - 1 < l.length by omega)
            (show d - 1 < l.length by omega)
          simp only [h1', h2', Bool.false_eq_true, if_false, Bool.not_false, if_true, hs,
            ok_bind]
          have hxE : le x p ∧ le p x := ⟨hc.of_not_lt _ _ h1', hc.of_not_lt _ _ h2'⟩
          have hp' : l'[lo]? = some p := by
            rw [hget, if_neg (by omega), if_neg (by omega)]
            exact hp
          have hG' : AllOn (fun x => le p x) l' (c - 1) (d - 1) := by
            intro k hk1 hk2 u hu
            rw [hget, if_neg (by omega)] at hu
            by_cases hkc : k = c - 1
            · rw [if_pos hkc] at hu
              exact hG (d - 1) (by omega) (by omega) u hu
            · rw [if_neg hkc] at hu
              exact hG k (by omega) (by omega) u hu
          have hE' : AllOn (fun x => le x p ∧ le p x) l' (d - 1) hi := by
            intro k hk1 hk2 u hu
            rw [hget] at hu
            by_cases hkd : k = d - 1
            · rw [if_pos hkd, hx] at hu
              cases hu
              exact hxE
            · rw [if_neg hkd, if_neg (by omega)] at hu
              exact hE k (by omega) hk2 u hu
          obtain ⟨r, c', d', hr, hsh, h3, h4, h5, h6, h7, h8, h9⟩ :=
            ih l' (c - 1) (d - 1) hlo (by omega) (by omega) (by omega) (by omega) (by omega)
              hp' hG' hE'
          refine ⟨r, c', d', hr, ?_, h3, by omega, h5, by omega, h7, h8, h9⟩
          exact (Shuf.of_swap (by omega) (by omega) (by omega) (by omega) hs).trans
            (hsh.mono (Nat.le_refl _) (by omega))
    · simp only [hlt, if_false, pure_eq_ok]
      exact ⟨l, c, d, rfl, Shuf.refl l, hbc, Nat.le_refl _, hcd, Nat.le_refl _, hG, hE,
        Or.inl (by omega)⟩

theorem doPivot_loop_spec {α : Type} {lt : α → α → Bool} {le : α → α → Prop}
    (hc : Compat lt le) (lo hi : Nat) (p : α) :
    ∀ (fuel : Nat) (l : List α) (a b c d : Nat),
    lo < a → a ≤ b → b ≤ c → c ≤ d → d ≤ hi → hi ≤ l.length → c - b + 1 ≤ 2 * fuel →
    l[lo]? = some p →
    AllOn (fun x => le x p ∧ le p x) l lo a → AllOn (fun x => le x p) l a b →
    AllOn (fun x => le p x) l c d → AllOn (fun x => le x p ∧ le p x) l d hi →
    ∃ r a' b' c' d', doPivot.loop lt lo fuel l a b c d = Except.ok (r, a', b', c', d') ∧
      Shuf (lo + 1) hi l r ∧ lo < a' ∧ a' ≤ b' ∧ b' = c' ∧ c' ≤ d' ∧ d' ≤ hi ∧
      AllOn (fun x => le x p ∧ le p x) r lo a' ∧ AllOn (fun x => le x p) r a' b' ∧
      AllOn (fun x => le p x) r c' d' ∧ AllOn (fun x => le x p ∧ le p x) r d' hi := by
  intro fuel
  induction fuel with
  | zero =>
    intro l a b c d _ _ _ _ _ _ hf
    omega
  | succ f ih =>
    intro l a b c d hlo hab hbc hcd hdh hlen hf hp hE1 hL hG hE2
    rw [doPivot.loop]
    obtain ⟨l1, a1, b1, h1, hsh1, ha1, hab1, hb1, hbc1, hE1', hL', hstop1⟩ :=
      doPivot_scanUp_spec hc lo c p (c - b) l a b hlo hab hbc (by omega) (Nat.le_refl _) hp
        hE1 hL
    have hlen1 : l1.length = l.length := hsh1.length_eq
    have hp1 : l1[lo]? = some p := by rw [hsh1.outside lo (by omega)]; exact hp
    obtain ⟨l2, c1, d1, h2, hsh2, hbc2, hc1, hcd1, hd1, hG', hE2', hstop2⟩ :=
      doPivot_scanDown_spec hc lo b1 hi p (c - b1) l1 c d (by omega) hbc1 hcd hdh
        (by omega) (Nat.le_refl _) hp1
        (hsh1.allOn_of_disjoint (Or.inr hbc1) hG)
        (hsh1.allOn_of_disjoint (Or.inr (by omega)) hE2)
    have hlen2 : l2.length = l1.length := hsh2.length_eq
    have hp2 : l2[lo]? = some p := by rw [hsh2.outside lo (by omega)]; exact hp1
    have hE1'' := hsh2.allOn_of_disjoint (Or.inl (by omega)) hE1'
    have hL'' := hsh2.allOn_of_disjoint (Or.inl hbc2) hL'
    simp only [h1, h2, ok_bind]
    by_cases hge : b1 ≥ c1
    · simp only [hge, if_true, pure_eq_ok]
      exact ⟨l2, a1, b1, c1, d1, rfl,
        (hsh1.mono (by omega) (by omega)).trans (hsh2.mono (by omega) (by omega)),
        by omega, hab1, by omega, hcd1, by omega, hE1'', hL'', hG', hE2'⟩
    · obtain ⟨x, hx, hpx⟩ : ∃ x, l1[b1]? = some x ∧ lt p x = true := by
        rcases hstop1 with h | h
        · omega
        · exact h
      obtain ⟨y, hy, hpy, hyp⟩ : ∃ y, l2[c1 - 1]? = some y ∧ lt p y = false ∧ lt y p = true := by
        rcases hstop2 with h | h
        · omega
        · exact h
      have hx2 : l2[b1]? = some x := by rw [hsh2.outside b1 (by omega)]; exact hx
      have hne : b1 ≠ c1 - 1 := by
        intro e
        rw [e, hy] at hx2
        cases hx2
        rw [hpx] at hpy
        cases hpy
      obtain ⟨l3, hs, hlen3, hget⟩ := swap_ok (show b1 < l2.length by omega)
        (show c1 - 1 < l2.length by omega)
      have hp3 : l3[lo]? = some p := by
        rw [hget, if_neg (by omega), if_neg (by omega)]
        exact hp2
      have hE13 : AllOn (fun x => le x p ∧ le p x) l3 lo a1 := by
        intro k hk1 hk2 u hu
        rw [hget, if_neg (by omega), if_neg (by omega)] at hu
        exact hE1'' k hk1 hk2 u hu
      have hL3 : AllOn (fun x => le x p) l3 a1 (b1 + 1) := by
        intro k hk1 hk2 u hu
        rw [hget, if_neg (by omega)] at hu
        by_cases hkb : k = b1
        · rw [if_pos hkb, hy] at hu
          cases hu
          exact hc.of_lt _ _ hyp
        · rw [if_neg hkb] at hu
          exact hL'' k hk1 (by omega) u hu
      have hG3 : AllOn (fun x => le p x) l3 (c1 - 1) d1 := by
        intro k hk1 hk2 u hu
        rw [hget] at hu
        by_cases hkc : k = c1 - 1
        · rw [if_pos hkc, hx2] at hu
          cases hu
          exact hc.of_lt _ _ hpx
        · rw [if_neg hkc, if_neg (by omega)] at hu
          exact hG' k (by omega) hk2 u hu
      have hE23 : AllOn (fun x => le x p ∧ le p x) l3 d1 hi := by
        intro k hk1 hk2 u hu
        rw [hget, if_neg (by omega), if_neg (by omega)] at hu
        exact hE2' k hk1 hk2 u hu
      obtain ⟨r, a', b', c', d', hr, hsh, q1, q2, q3, q4, q5, q6, q7, q8, q9⟩ :=
        ih l3 a1 (b1 + 1) (c1 - 1) d1 (by omega) (by omega) (by omega) (by omega) (by omega)
          (by omega) (by omega) hp3 hE13 hL3 hG3 hE23
      simp only [hge, if_false, hs, ok_bind]
      refine ⟨r, a', b', c', d', hr, ?_, q1, q2, q3, q4, q5, q6, q7, q8, q9⟩
      exact (((hsh1.mono (by omega) (by omega)).trans (hsh2.mono (by omega) (by omega))).trans
        (Shuf.of_swap (by omega) (by omega) (by omega) (by omega) hs)).trans hsh



theorem doPivot_ninther_spec {α : Type} (lt : α → α → Bool) (l : List α) (lo hi : Nat)
    (hlen : hi ≤ l.length) :
    ∃ r, doPivot.ninther lt l lo hi (lo + (hi - lo) / 2) = Except.ok r ∧ Shuf lo hi l r := by
  unfold doPivot.ninther
  by_cases h40 : hi - lo > 40
  · obtain ⟨r1, h1, s1⟩ := medianOfThree_spec lt l lo hi lo
      (lo + (hi - lo) / 8) (lo + 2 * ((hi - lo) / 8))
      (by omega) (by omega) (by omega) (by omega) (by omega) (by omega) hlen
    obtain ⟨r2, h2, s2⟩ := medianOfThree_spec lt r1 lo hi
      (lo + (hi - lo) / 2) (lo + (hi - lo) / 2 - (hi - lo) / 8)
      (lo + (hi - lo) / 2 + (hi - lo) / 8)
      (by omega) (by omega) (by omega) (by omega) (by omega) (by omega)
      (by rw [s1.length_eq]; exact hlen)
    obtain ⟨r3, h3, s3⟩ := medianOfThree_spec lt r2 lo hi
      (hi - 1) (hi - 1 - (hi - lo) / 8) (hi - 1 - 2 * ((hi - lo) / 8))
      (by omega) (by omega) (by omega) (by omega) (by omega) (by omega)
      (by rw [s2.length_eq, s1.length_eq]; exact hlen)
    simp only [h40, if_true, h1, h2, ok_bind]
    exact ⟨r3, h3, (s1.trans s2).trans s3⟩
  · simp only [h40, if_false, pure_eq_ok]
    exact ⟨l, rfl, Shuf.refl l⟩

theorem doPivot_spec {α : Type} {lt : α → α → Bool} {le : α → α → Prop}
    (hc : Compat lt le) (l : List α) (lo hi : Nat) (hlt : lo < hi) (hlen : hi ≤ l.length) :
    ∃ r mlo mhi p, doPivot lt l lo hi = Except.ok (r, mlo, mhi) ∧ Shuf lo hi l r ∧
      lo ≤ mlo ∧ mlo < mhi ∧ mhi ≤ hi ∧
      AllOn (fun x => le x p) r lo mlo ∧ AllOn (fun x => le x p ∧ le p x) r mlo mhi ∧
      AllOn (fun x => le p x) r mhi hi := by
  unfold doPivot
  obtain ⟨l0, h0, s0⟩ := doPivot_ninther_spec lt l lo hi hlen
  obtain ⟨l1, h1, s1⟩ := medianOfThree_spec lt l0 lo hi lo
    (lo + (hi - lo) / 2) (hi - 1)
    (Nat.le_refl _) hlt (by omega) (by omega) (by omega) (by omega)
    (by rw [s0.length_eq]; exact hlen)
  have hlen1 : l1.length = l.length := by rw [s1.length_eq, s0.length_eq]
  obtain ⟨p, hp, _⟩ := index_lt (show lo < l1.length by omega)
  obtain ⟨l2, a, b, c, d, h2, s2, ha, hab, hbc, hcd, hdh, hE1, hL, hG, hE2⟩ :=
    doPivot_loop_spec hc lo hi p (hi - lo) l1 (lo + 1) (lo + 1) hi hi (by omega)
      (Nat.le_refl _) (by omega) (Nat.le_refl _) (Nat.le_refl _) (by omega) (by omega) hp
      (by
        intro k hk1 hk2 u hu
        have : k = lo := by omega
        subst this
        rw [hp] at hu
        cases hu
        exact ⟨hc.refl _, hc.refl _⟩)
      (by intro k hk1 hk2; omega) (by intro k hk1 hk2; omega) (by intro k hk1 hk2; omega)
  have hlen2 : l2.length = l.length := by rw [s2.length_eq, hlen1]
  subst hbc
  obtain ⟨n1, hn1⟩ : ∃ n1, n1 = min (b - a) (a - lo) := ⟨_, rfl⟩
  obtain ⟨n2, hn2⟩ : ∃ n2, n2 = min (hi - d) (d - b) := ⟨_, rfl⟩
  obtain ⟨l3, h3, s3, hget3⟩ := swapRange_spec l2 lo hi lo (b - n1) n1
    (Nat.le_refl _) (by omega) (by omega) (by omega)
  obtain ⟨l4, h4, s4, hget4⟩ := swapRange_spec l3 lo hi b (hi - n2) n2
    (by omega) (by omega) (by omega) (by rw [s3.length_eq]; omega)
  simp only [h0, h1, h2, ok_bind, ← hn1, ← hn2, h3, h4, pure_eq_ok]
  refine ⟨l4, lo + b - a, hi - (d - b), p, rfl,
    (((s0.trans s1).trans (s2.mono (by omega) (Nat.le_refl _))).trans s3).trans s4,
    by omega, by omega, by omega, ?_, ?_, ?_⟩
  · intro k hk1 hk2 u hu
    rw [hget4, if_neg (by omega), if_neg (by omega), hget3] at hu
    split_ifs at hu
    · exact hL _ (by omega) (by omega) u hu
    · omega
    · exact hL _ (by omega) (by omega) u hu
  · intro k hk1 hk2 u hu
    rw [hget4] at hu
    split_ifs at hu
    · rw [hget3, if_neg (by omega), if_neg (by omega)] at hu
      exact hE2 _ (by omega) (by omega) u hu
    · omega
    · rw [hget3] at hu
      split_ifs at hu
      · omega
      · exact hE1 _ (by omega) (by omega) u hu
      · by_cases hkb : k < b
        · exact hE1 _ (by omega) (by omega) u hu
        · exact hE2 _ (by omega) (by omega) u hu
  · intro k hk1 hk2 u hu
    rw [hget4] at hu
    split_ifs at hu
    · omega
    · rw [hget3, if_neg (by omega), if_neg (by omega)] at hu
      exact hG _ (by omega) (by omega) u hu
    · rw [hget3, if_neg (by omega), if_neg (by omega)] at hu
      exact hG _ (by omega) (by omega) u hu


/-! ## The sort driver -/

theorem quickSort_spec {α : Type} {lt : α → α → Bool} {le : α → α → Prop}
    (hc : Compat lt le) : ∀ (maxDepth : Nat) (l : List α) (a b : Nat),
    a ≤ b → b ≤ l.length →
    ∃ r, quickSort lt l a b maxDepth = Except.ok r ∧ Shuf a b l r ∧ SortedOn le r a b := by
  intro maxDepth
  induction maxDepth with
  | zero =>
    intro l a b hab hb
    rw [quickSort]
    by_cases h7 : b - a > 7
    · simp only [h7, if_true]
      exact heapSort_spec hc l a b hab hb
    · simp only [h7, if_false]
      by_cases h1 : b - a > 1
      · simp only [h1, if_true]
        exact insertionSort_spec hc l a b hb
      · simp only [h1, if_false, pure_eq_ok]
        exact ⟨l, rfl, Shuf.refl l, by intro i j hi hij hj; omega⟩
  | succ d ih =>
    intro l a b hab hb
    rw [quickSort]
    by_cases h7 : b - a > 7
    · obtain ⟨l1, mlo, mhi, p, h1, s1, hm1, hm2, hm3, hL, hE, hG⟩ :=
        doPivot_spec hc l a b (by omega) hb
      have hlen1 : l1.length = l.length := s1.length_eq
      simp only [h7, if_true, h1, ok_bind]
      by_cases hsm : mlo - a < b - mhi
      · obtain ⟨l2, h2, s2, so2⟩ := ih l1 a mlo hm1 (by omega)
        obtain ⟨l3, h3, s3, so3⟩ := ih l2 mhi b hm3 (by rw [s2.length_eq]; omega)
        simp only [hsm, if_true, h2, ok_bind]
        refine ⟨l3, h3, (s1.trans (s2.mono (Nat.le_refl _) (by omega))).trans
          (s3.mono (by omega) (Nat.le_refl _)), ?_⟩
        exact sortedOn_glue hc.trans
          (s3.sortedOn_of_disjoint (Or.inl (by omega)) so2) so3
          (s3.allOn_of_disjoint (Or.inl (by omega)) (s2.allOn hL))
          (s3.allOn_of_disjoint (Or.inl (by omega))
            (s2.allOn_of_disjoint (Or.inr (by omega)) hE))
          (s3.allOn (s2.allOn_of_disjoint (Or.inr (by omega)) hG))
      · obtain ⟨l2, h2, s2, so2⟩ := ih l1 mhi b hm3 (by omega)
        obtain ⟨l3, h3, s3, so3⟩ := ih l2 a mlo hm1 (by rw [s2.length_eq]; omega)
        simp only [hsm, if_false, h2, ok_bind]
        refine ⟨l3, h3, (s1.trans (s2.mono (by omega) (Nat.le_refl _))).trans
          (s3.mono (Nat.le_refl _) (by omega)), ?_⟩
        exact sortedOn_glue hc.trans so3
          (s3.sortedOn_of_disjoint (Or.inr (by omega)) so2)
          (s3.allOn (s2.allOn_of_disjoint (Or.inl (by omega)) hL))
          (s3.allOn_of_disjoint (Or.inr (by omega))
            (s2.allOn_of_disjoint (Or.inl (by omega)) hE))
          (s3.allOn_of_disjoint (Or.inr (by omega)) (s2.allOn hG))
    · simp only [h7, if_false]
      by_cases h1 : b - a > 1
      · simp only [h1, if_true]
        exact insertionSort_spec hc l a b hb
      · simp only [h1, if_false, pure_eq_ok]
        exact ⟨l, rfl, Shuf.refl l, by intro i j hi hij hj; omega⟩

theorem SortBy_depth_total : ∀ (fuel i maxDepth : Nat), i ≤ fuel →
    ∃ k, SortBy.depth fuel i maxDepth = Except.ok k := by
  intro fuel
  induction fuel with
  | zero =>
    intro i maxDepth hi
    rw [SortBy.depth, if_neg (by omega)]
    exact ⟨maxDepth, rfl⟩
  | succ f ih =>
    intro i maxDepth hi
    rw [SortBy.depth]
    by_cases h0 : i > 0
    · simp only [h0, if_true]
      apply ih
      rw [Nat.shiftRight_eq_div_pow]
      omega
    · simp only [h0, if_false, pure_eq_ok]
      exact ⟨maxDepth, rfl⟩

theorem SortBy_spec {α : Type} {lt : α → α → Bool} {le : α → α → Prop}
    (hc : Compat lt le) (l : List α) :
    ∃ r, SortBy lt l = Except.ok r ∧ Shuf 0 l.length l r ∧ SortedOn le r 0 l.length := by
  unfold SortBy
  obtain ⟨k, hk⟩ := SortBy_depth_total l.length l.length 0 (Nat.le_refl _)
  simp only [hk, ok_bind]
  exact quickSort_spec hc (k * 2) l 0 l.length (Nat.zero_le _) (Nat.le_refl _)


/-! ## Comparators -/

theorem StrictWeakOrder.not_lt_trans {α : Type} {less : α → α → Bool}
    (h : StrictWeakOrder less) {x y z : α} (hxy : less x y = false) (hyz : less y z = false) :
    less x z = false := by
  cases hxz : less x z
  · rfl
  · exfalso
    cases hyx : less y x
    · cases hzy : less z y
      · have := (h.incomp_trans x y z hxy hyx hyz hzy).1
        rw [hxz] at this
        cases this
      · have := h.trans x z y hxz hzy
        rw [hxy] at this
        cases this
    · have := h.trans y x z hyx hxz
      rw [hyz] at this
      cases this

theorem compat_of_strictWeakOrder {α : Type} {less : α → α → Bool}
    (h : StrictWeakOrder less) : Compat less (fun x y => less y x = false) where
  of_lt := fun x y hxy => h.asymm x y hxy
  of_not_lt := fun _ _ hxy => hxy
  trans := fun _ _ _ hxy hyz => h.not_lt_trans hyz hxy

theorem compat_trivial {α : Type} (lt : α → α → Bool) : Compat lt (fun _ _ => True) where
  of_lt := fun _ _ _ => trivial
  of_not_lt := fun _ _ _ => trivial
  trans := fun _ _ _ _ _ => trivial

theorem compat_greater {α : Type} [DecidableEq α] {less : α → α → Bool}
    (h : StrictWeakOrder less) : Compat (greater less) (fun x y => less x y = false) where
  of_lt := fun x y hxy => by
    unfold greater at hxy
    simp at hxy
    exact hxy.2
  of_not_lt := fun x y hxy => by
    unfold greater at hxy
    by_cases hEq : x = y
    · subst hEq
      exact h.irrefl x
    · simp [hEq] at hxy
      exact h.asymm x y hxy
  trans := fun _ _ _ hxy hyz => h.not_lt_trans hxy hyz

/-! ## Sortedness check -/

theorem IsSortedBy_loop_spec {α : Type} (less : α → α → Bool) (l : List α) :
    ∀ i, i < l.length ∨ i = 0 →
    ∃ b, IsSortedBy.loop less l i = Except.ok b ∧
      (b = true ↔ ∀ k, 0 < k → k ≤ i → ∀ x y, l[k]? = some x → l[k - 1]? = some y →
        less x y = false) := by
  intro i
  induction i with
  | zero =>
    intro _
    exact ⟨true, rfl, by simp; intro k hk1 hk2; omega⟩
  | succ i ih =>
    intro hi
    have hi' : i + 1 < l.length := by omega
    rw [IsSortedBy.loop]
    obtain ⟨x, hx, hx'⟩ := index_lt hi'
    obtain ⟨y, hy, hy'⟩ := index_lt (show i < l.length by omega)
    simp only [hx', hy', ok_bind]
    by_cases hlt : less x y = true
    · simp only [hlt, if_true, pure_eq_ok]
      refine ⟨false, rfl, ?_⟩
      constructor
      · intro h
        cases h
      · intro h
        have := h (i + 1) (by omega) (Nat.le_refl _) x y hx (by simpa using hy)
        rw [hlt] at this
        cases this
    · have hlt' : less x y = false := by simpa using hlt
      obtain ⟨b, hb, hiff⟩ := ih (Or.inl (by omega))
      simp only [hlt', Bool.false_eq_true, if_false]
      refine ⟨b, hb, ?_⟩
      rw [hiff]
      constructor
      · intro h k hk1 hk2 u v hu hv
        by_cases hk : k = i + 1
        · subst hk
          rw [hx] at hu
          simp at hv
          rw [hy] at hv
          cases hu
          cases hv
          exact hlt'
        · exact h k hk1 (by omega) u v hu hv
      · intro h k hk1 hk2 u v hu hv
        exact h k hk1 (by omega) u v hu hv

theorem IsSortedBy_spec {α : Type} (less : α → α → Bool) (l : List α) :
    ∃ b, IsSortedBy less l = Except.ok b ∧
      (b = true ↔ ∀ k, 0 < k → k < l.length → ∀ x y, l[k]? = some x → l[k - 1]? = some y →
        less x y = false) := by
  unfold IsSortedBy
  obtain ⟨b, hb, hiff⟩ := IsSortedBy_loop_spec less l (l.length - 1) (by omega)
  refine ⟨b, hb, ?_⟩
  rw [hiff]
  constructor
  · intro h k hk1 hk2
    exact h k hk1 (by omega)
  · intro h k hk1 hk2 x y hx hy
    by_cases hk : k < l.length
    · exact h k hk1 hk x y hx hy
    · rw [List.getElem?_eq_none (by omega)] at hx
      cases hx

theorem IsSortedBy_of_sortedOn {α : Type} {less : α → α → Bool} {l : List α}
    (h : SortedOn (fun x y => less y x = false) l 0 l.length) :
    IsSortedBy less l = Except.ok true := by
  obtain ⟨b, hb, hiff⟩ := IsSortedBy_spec less l
  have : b = true := by
    rw [hiff]
    intro k hk1 hk2 x y hx hy
    exact h (k - 1) k (Nat.zero_le _) (by omega) hk2 y x hy hx
  rw [hb, this]


/-! ## Selection -/

theorem MinBy_loop_inv {α : Type} (less : α → α → Bool) (rcv : List α)
    (Inv : Nat → Nat → Prop)
    (hstep : ∀ i m x y, i < rcv.length → m < rcv.length → Inv i m → rcv[i]? = some x →
      rcv[m]? = some y →
      (less x y = true → Inv (i + 1) i) ∧ (less x y = false → Inv (i + 1) m)) :
    ∀ (fuel i m : Nat), rcv.length ≤ fuel + i → i ≤ rcv.length → m < rcv.length → Inv i m →
    ∃ m', MinBy.loop less rcv rcv.length fuel i m = Except.ok m' ∧ m' < rcv.length ∧
      Inv rcv.length m' := by
  intro fuel
  induction fuel with
  | zero =>
    intro i m hf hi hm hinv
    rw [MinBy.loop, if_neg (by omega)]
    have : i = rcv.length := by omega
    subst this
    exact ⟨m, rfl, hm, hinv⟩
  | succ f ih =>
    intro i m hf hi hm hinv
    rw [MinBy.loop]
    by_cases hlt : i < rcv.length
    · obtain ⟨x, hx, hx'⟩ := index_lt hlt
      obtain ⟨y, hy, hy'⟩ := index_lt hm
      have hs := hstep i m x y hlt hm hinv hx hy
      simp only [hlt, if_true, hx', hy', ok_bind]
      by_cases hc : less x y = true
      · simp only [hc, if_true]
        exact ih (i + 1) i (by omega) (by omega) hlt (hs.1 hc)
      · have hc' : less x y = false := by simpa using hc
        simp only [hc', Bool.false_eq_true, if_false]
        exact ih (i + 1) m (by omega) (by omega) hm (hs.2 hc')
    · have : i = rcv.length := by omega
      subst this
      simp only [hlt, if_false, pure_eq_ok]
      exact ⟨m, rfl, hm, hinv⟩

theorem MaxBy_loop_inv {α : Type} [DecidableEq α] (less : α → α → Bool) (rcv : List α)
    (Inv : Nat → Nat → Prop)
    (hstep : ∀ i m x y, i < rcv.length → m < rcv.length → Inv i m → rcv[i]? = some x →
      rcv[m]? = some y →
      ((x ≠ y ∧ less x y = false) → Inv (i + 1) i) ∧
      (¬ (x ≠ y ∧ less x y = false) → Inv (i + 1) m)) :
    ∀ (fuel i m : Nat), rcv.length ≤ fuel + i → i ≤ rcv.length → m < rcv.length → Inv i m →
    ∃ m', MaxBy.loop less rcv rcv.length fuel i m = Except.ok m' ∧ m' < rcv.length ∧
      Inv rcv.length m' := by
  intro fuel
  induction fuel with
  | zero =>
    intro i m hf hi hm hinv
    rw [MaxBy.loop, if_neg (by omega)]
    have : i = rcv.length := by omega
    subst this
    exact ⟨m, rfl, hm, hinv⟩
  | succ f ih =>
    intro i m hf hi hm hinv
    rw [MaxBy.loop]
    by_cases hlt : i < rcv.length
    · obtain ⟨x, hx, hx'⟩ := index_lt hlt
      obtain ⟨y, hy, hy'⟩ := index_lt hm
      have hs := hstep i m x y hlt hm hinv hx hy
      simp only [hlt, if_true, hx', hy', ok_bind]
      by_cases hc : x ≠ y ∧ less x y = false
      · have hb : (decide (x ≠ y) && !less x y) = true := by simp [hc.1, hc.2]
        simp only [hb, if_true]
        exact ih (i + 1) i (by omega) (by omega) hlt (hs.1 hc)
      · have hb : (decide (x ≠ y) && !less x y) = false := by
          by_cases hxy : x = y
          · simp [hxy]
          · have : less x y = true := by
              cases h : less x y
              · exact absurd ⟨hxy, h⟩ hc
              · rfl
            simp [this]
        simp only [hb, Bool.false_eq_true, if_false]
        exact ih (i + 1) m (by omega) (by omega) hm (hs.2 hc)
    · have : i = rcv.length := by omega
      subst this
      simp only [hlt, if_false, pure_eq_ok]
      exact ⟨m, rfl, hm, hinv⟩

theorem MinBy_run {α : Type} (less : α → α → Bool) (rcv : List α) (hne : rcv ≠ [])
    (Inv : Nat → Nat → Prop) (h0 : Inv 1 0)
    (hstep : ∀ i m x y, i < rcv.length → m < rcv.length → Inv i m → rcv[i]? = some x →
      rcv[m]? = some y →
      (less x y = true → Inv (i + 1) i) ∧ (less x y = false → Inv (i + 1) m)) :
    ∃ m v, m < rcv.length ∧ rcv[m]? = some v ∧ MinBy less rcv = Except.ok v ∧
      Inv rcv.length m := by
  have hpos : 0 < rcv.length := List.length_pos.mpr hne
  obtain ⟨m, hm, hml, hinv⟩ := MinBy_loop_inv less rcv Inv hstep rcv.length 1 0 (by omega)
    (by omega) hpos h0
  obtain ⟨v, hv, hv'⟩ := index_lt hml
  refine ⟨m, v, hml, hv, ?_, hinv⟩
  unfold MinBy
  simp only [show ¬ rcv.length = 0 by omega, if_false, hm, ok_bind, hv']

theorem MaxBy_run {α : Type} [DecidableEq α] (less : α → α → Bool) (rcv : List α)
    (hne : rcv ≠ []) (Inv : Nat → Nat → Prop) (h0 : Inv 1 0)
    (hstep : ∀ i m x y, i < rcv.length → m < rcv.length → Inv i m → rcv[i]? = some x →
      rcv[m]? = some y →
      ((x ≠ y ∧ less x y = false) → Inv (i + 1) i) ∧
      (¬ (x ≠ y ∧ less x y = false) → Inv (i + 1) m)) :
    ∃ m v, m < rcv.length ∧ rcv[m]? = some v ∧ MaxBy less rcv = Except.ok v ∧
      Inv rcv.length m := by
  have hpos : 0 < rcv.length := List.length_pos.mpr hne
  obtain ⟨m, hm, hml, hinv⟩ := MaxBy_loop_inv less rcv Inv hstep rcv.length 1 0 (by omega)
    (by omega) hpos h0
  obtain ⟨v, hv, hv'⟩ := index_lt hml
  refine ⟨m, v, hml, hv, ?_, hinv⟩
  unfold MaxBy
  simp only [show ¬ rcv.length = 0 by omega, if_false, hm, ok_bind, hv']


theorem lessKey_strictWeakOrder : StrictWeakOrder lessKey where
  irrefl := fun a => by simp [lessKey]
  asymm := fun a b h => by
    simp only [lessKey, decide_eq_true_eq, decide_eq_false_iff_not] at *
    omega
  trans := fun a b c h1 h2 => by
    simp only [lessKey, decide_eq_true_eq] at *
    omega
  incomp_trans := fun a b c h1 h2 h3 h4 => by
    simp only [lessKey, decide_eq_false_iff_not] at *
    omega

theorem natural_strictWeakOrder {α : Type} [LinearOrder α] :
    StrictWeakOrder (natural : α → α → Bool) where
  irrefl := fun a => by simp [natural]
  asymm := fun a b h => by
    simp only [natural, decide_eq_true_eq, decide_eq_false_iff_not, not_lt] at *
    exact le_of_lt h
  trans := fun a b c h1 h2 => by
    simp only [natural, decide_eq_true_eq] at *
    exact lt_trans h1 h2
  incomp_trans := fun a b c h1 h2 h3 h4 => by
    simp only [natural, decide_eq_false_iff_not, not_lt] at *
    exact ⟨le_trans h3 h1, le_trans h2 h4⟩

theorem exists_pos_of_mem {α : Type} {l : List α} {x : α} (h : x ∈ l) :
    ∃ k, k < l.length ∧ l[k]? = some x := by
  obtain ⟨k, hk, hx⟩ := List.getElem_of_mem h
  exact ⟨k, hk, by rw [List.getElem?_eq_getElem hk, hx]⟩

theorem mem_of_pos {α : Type} {l : List α} {x : α} {k : Nat} (h : l[k]? = some x) :
    x ∈ l := by
  obtain ⟨hk, hx⟩ := List.getElem?_eq_some.mp h
  rw [← hx]
  exact List.getElem_mem hk

/-- C6: for a non-empty slice and a strict weak ordering, `MaxBy` returns
without error a value equal to `s[i]`, where `i` is the largest index whose
element no element of `s` exceeds: the result is maximal, and every later
position holds an element that some element of `s` exceeds. -/
theorem MaxBy_last_maximal {α : Type} [DecidableEq α] (less : α → α → Bool)
    (hswo : StrictWeakOrder less) (s : List α) (hne : s ≠ []) :
    ∃ i v, i < s.length ∧ s[i]? = some v ∧ MaxBy less s = Except.ok v ∧
      (∀ x ∈ s, less v x = false) ∧
      (∀ j w, i < j → s[j]? = some w → ∃ x ∈ s, less w x = true) := by
  obtain ⟨m, v, hm, hv, hrun, j, hj, hjm, hmax, hlater⟩ := MaxBy_run less s hne
    (fun i m => ∃ j, j < i ∧ s[j]? = s[m]? ∧
      (∀ k u v, k < i → s[k]? = some u → s[j]? = some v → less v u = false) ∧
      (∀ k u v, j < k → k < i → s[k]? = some u → s[j]? = some v → less u v = true))
    ⟨0, by omega, rfl, by
      intro k u v hk hu hv
      have : k = 0 := by omega
      subst this
      rw [hu] at hv
      cases hv
      exact hswo.irrefl _, by
      intro k u v h1 h2
      omega⟩
    (by
      intro i m x y hi hm ⟨j, hj, hjm, hmax, hlater⟩ hx hy
      constructor
      · intro ⟨_, hxy⟩
        refine ⟨i, by omega, rfl, ?_, by intro k u v h1 h2; omega⟩
        intro k u v hk hu hv
        rw [hx] at hv
        cases hv
        by_cases hki : k = i
        · subst hki
          rw [hx] at hu
          cases hu
          exact hswo.irrefl _
        · exact hswo.not_lt_trans hxy (hmax k u y (by omega) hu (by rw [hjm]; exact hy))
      · intro hn
        by_cases hxy : x = y
        · subst hxy
          refine ⟨i, by omega, by rw [hx, hy], ?_, by intro k u v h1 h2; omega⟩
          intro k u v hk hu hv
          rw [hx] at hv
          cases hv
          by_cases hki : k = i
          · subst hki
            rw [hx] at hu
            cases hu
            exact hswo.irrefl _
          · exact hmax k u x (by omega) hu (by rw [hjm]; exact hy)
        · have hlt : less x y = true := by
            cases h : less x y
            · exact absurd ⟨hxy, h⟩ hn
            · rfl
          refine ⟨j, by omega, hjm, ?_, ?_⟩
          · intro k u v hk hu hv
            by_cases hki : k = i
            · subst hki
              rw [hx] at hu
              cases hu
              rw [hjm, hy] at hv
              cases hv
              exact hswo.asymm _ _ hlt
            · exact hmax k u v (by omega) hu hv
          · intro k u v h1 h2 hu hv
            by_cases hki : k = i
            · subst hki
              rw [hx] at hu
              cases hu
              rw [hjm, hy] at hv
              cases hv
              exact hlt
            · exact hlater k u v h1 (by omega) hu hv)
  refine ⟨j, v, hj, by rw [hjm]; exact hv, hrun, ?_, ?_⟩
  · intro x hx
    obtain ⟨k, hk, hxk⟩ := exists_pos_of_mem hx
    exact hmax k x v hk hxk (by rw [hjm]; exact hv)
  · intro jj w hjj hw
    have hjj' : jj < s.length := (List.getElem?_eq_some.mp hw).1
    exact ⟨v, mem_of_pos hv, hlater jj w v hjj hjj' hw (by rw [hjm]; exact hv)⟩

theorem MaxBy_last_maximal_witness :
    StrictWeakOrder lessKey ∧
    MaxBy lessKey [(1, 0), (3, 1), (3, 2), (2, 3)] = Except.ok (3, 2) ∧
    ∃ i v, i < [(1, 0), (3, 1), (3, 2), (2, 3)].length ∧
      [(1, 0), (3, 1), (3, 2), (2, 3)][i]? = some v ∧
      MaxBy lessKey [(1, 0), (3, 1), (3, 2), (2, 3)] = Except.ok v ∧
      (∀ x ∈ [(1, 0), (3, 1), (3, 2), (2, 3)], lessKey v x = false) ∧
      (∀ j w, i < j → [(1, 0), (3, 1), (3, 2), (2, 3)][j]? = some w →
        ∃ x ∈ [(1, 0), (3, 1), (3, 2), (2, 3)], lessKey w x = true) :=
  ⟨lessKey_strictWeakOrder, by decide,
    MaxBy_last_maximal lessKey lessKey_strictWeakOrder [(1, 0), (3, 1), (3, 2), (2, 3)]
      (by decide)⟩

/-- C7: for a non-empty slice and a strict weak ordering, `MinBy` returns
without error the element `s[i]`, where `i` is the smallest index whose
element exceeds no element of `s`: the result is minimal, and every earlier
position holds an element that exceeds some element of `s`. -/
theorem MinBy_first_minimal {α : Type} (less : α → α → Bool)
    (hswo : StrictWeakOrder less) (s : List α) (hne : s ≠ []) :
    ∃ i v, i < s.length ∧ s[i]? = some v ∧ MinBy less s = Except.ok v ∧
      (∀ x ∈ s, less x v = false) ∧
      (∀ j w, j < i → s[j]? = some w → ∃ x ∈ s, less x w = true) := by
  obtain ⟨m, v, hm, hv, hrun, _, hmin, hearlier⟩ := MinBy_run less s hne
    (fun i m => m < i ∧
      (∀ k u v, k < i → s[k]? = some u → s[m]? = some v → less u v = false) ∧
      (∀ k u v, k < m → s[k]? = some u → s[m]? = some v → less v u = true))
    ⟨by omega, by
      intro k u v hk hu hv
      have : k = 0 := by omega
      subst this
      rw [hu] at hv
      cases hv
      exact hswo.irrefl _, by
      intro k u v h1
      omega⟩
    (by
      intro i m x y hi hm ⟨hmi, hmin, hearlier⟩ hx hy
      constructor
      · intro hxy
        refine ⟨by omega, ?_, ?_⟩
        · intro k u v hk hu hv
          rw [hx] at hv
          cases hv
          by_cases hki : k = i
          · subst hki
            rw [hx] at hu
            cases hu
            exact hswo.irrefl _
          · have huy := hmin k u y (by omega) hu hy
            cases hux : less u x
            · rfl
            · have := hswo.trans u x y hux hxy
              rw [huy] at this
              cases this
        · intro k u v hk hu hv
          rw [hx] at hv
          cases hv
          have huy := hmin k u y (by omega) hu hy
          cases hxu : less x u
          · have := hswo.not_lt_trans hxu huy
            rw [hxy] at this
            cases this
          · rfl
      · intro hxy
        refine ⟨by omega, ?_, hearlier⟩
        intro k u v hk hu hv
        by_cases hki : k = i
        · subst hki
          rw [hx] at hu
          cases hu
          rw [hy] at hv
          cases hv
          exact hxy
        · exact hmin k u v (by omega) hu hv)
  refine ⟨m, v, hm, hv, hrun, ?_, ?_⟩
  · intro x hx
    obtain ⟨k, hk, hxk⟩ := exists_pos_of_mem hx
    exact hmin k x v hk hxk hv
  · intro j w hj hw
    exact ⟨v, mem_of_pos hv, hearlier j w v hj hw hv⟩

theorem MinBy_first_minimal_witness :
    StrictWeakOrder lessKey ∧
    MinBy lessKey [(2, 0), (1, 1), (1, 2), (3, 3)] = Except.ok (1, 1) ∧
    ∃ i v, i < [(2, 0), (1, 1), (1, 2), (3, 3)].length ∧
      [(2, 0), (1, 1), (1, 2), (3, 3)][i]? = some v ∧
      MinBy lessKey [(2, 0), (1, 1), (1, 2), (3, 3)] = Except.ok v ∧
      (∀ x ∈ [(2, 0), (1, 1), (1, 2), (3, 3)], lessKey x v = false) ∧
      (∀ j w, j < i → [(2, 0), (1, 1), (1, 2), (3, 3)][j]? = some w →
        ∃ x ∈ [(2, 0), (1, 1), (1, 2), (3, 3)], lessKey x w = true) :=
  ⟨lessKey_strictWeakOrder, by decide,
    MinBy_first_minimal lessKey lessKey_strictWeakOrder [(2, 0), (1, 1), (1, 2), (3, 3)]
      (by decide)⟩


/-- C8: for every comparator, `MaxBy` and `MinBy` return an error exactly on
the empty slice (the empty-slice error of the method), and on a non-empty
slice they return an element of the slice. -/
theorem MaxBy_MinBy_error_iff_empty {α : Type} [DecidableEq α] (less : α → α → Bool)
    (s : List α) :
    ((∃ e, MaxBy less s = Except.error e) ↔ s = []) ∧
    ((∃ e, MinBy less s = Except.error e) ↔ s = []) ∧
    (s = [] → MaxBy less s =
        Except.error (Fault.error "cannot determine the MaxBy of an empty slice") ∧
      MinBy less s =
        Except.error (Fault.error "cannot determine the Min of an empty slice")) ∧
    (s ≠ [] → (∃ v, v ∈ s ∧ MaxBy less s = Except.ok v) ∧
      (∃ v, v ∈ s ∧ MinBy less s = Except.ok v)) := by
  have hempty : s = [] → MaxBy less s =
        Except.error (Fault.error "cannot determine the MaxBy of an empty slice") ∧
      MinBy less s =
        Except.error (Fault.error "cannot determine the Min of an empty slice") := by
    intro h
    subst h
    exact ⟨rfl, rfl⟩
  have hne : s ≠ [] → (∃ v, v ∈ s ∧ MaxBy less s = Except.ok v) ∧
      (∃ v, v ∈ s ∧ MinBy less s = Except.ok v) := by
    intro h
    obtain ⟨m, v, _, hv, hrun, _⟩ := MaxBy_run less s h (fun _ _ => True) trivial
      (fun _ _ _ _ _ _ _ _ _ => ⟨fun _ => trivial, fun _ => trivial⟩)
    obtain ⟨m', v', _, hv', hrun', _⟩ := MinBy_run less s h (fun _ _ => True) trivial
      (fun _ _ _ _ _ _ _ _ _ => ⟨fun _ => trivial, fun _ => trivial⟩)
    exact ⟨⟨v, mem_of_pos hv, hrun⟩, ⟨v', mem_of_pos hv', hrun'⟩⟩
  refine ⟨⟨?_, fun h => ⟨_, (hempty h).1⟩⟩, ⟨?_, fun h => ⟨_, (hempty h).2⟩⟩, hempty, hne⟩
  · intro ⟨e, he⟩
    by_contra h
    obtain ⟨v, _, hv⟩ := (hne h).1
    rw [hv] at he
    cases he
  · intro ⟨e, he⟩
    by_contra h
    obtain ⟨v, _, hv⟩ := (hne h).2
    rw [hv] at he
    cases he

theorem MaxBy_MinBy_error_iff_empty_witness :
    MaxBy lessKey [] =
      Except.error (Fault.error "cannot determine the MaxBy of an empty slice") ∧
    MinBy lessKey [] =
      Except.error (Fault.error "cannot determine the Min of an empty slice") ∧
    (∃ v, v ∈ [(1, 0), (1, 1)] ∧ MaxBy (fun _ _ => true) [(1, 0), (1, 1)] = Except.ok v) ∧
    (∃ v, v ∈ [(1, 0), (1, 1)] ∧ MinBy (fun _ _ => true) [(1, 0), (1, 1)] = Except.ok v) :=
  ⟨((MaxBy_MinBy_error_iff_empty lessKey []).2.2.1 rfl).1,
    ((MaxBy_MinBy_error_iff_empty lessKey []).2.2.1 rfl).2,
    ((MaxBy_MinBy_error_iff_empty (fun _ _ => true) [(1, 0), (1, 1)]).2.2.2 (by decide)).1,
    ((MaxBy_MinBy_error_iff_empty (fun _ _ => true) [(1, 0), (1, 1)]).2.2.2 (by decide)).2⟩

/-- C9: for every comparator, `IsSortedBy` returns a boolean, and it returns
`true` exactly when no index `0 < i < len(s)` has `less(s[i], s[i-1])`; so it
returns `true` on every slice of length 0 or 1, `true` on `[1,2,2,3]` and
`false` on `[1,3,2]` under `a < b`. -/
theorem IsSortedBy_iff_no_inversion {α : Type} (less : α → α → Bool) (s : List α) :
    (∃ b, IsSortedBy less s = Except.ok b) ∧
    (IsSortedBy less s = Except.ok true ↔
      ¬ ∃ i x y, 0 < i ∧ i < s.length ∧ s[i]? = some x ∧ s[i - 1]? = some y ∧
        less x y = true) ∧
    (IsSortedBy less s = Except.ok false ↔
      ∃ i x y, 0 < i ∧ i < s.length ∧ s[i]? = some x ∧ s[i - 1]? = some y ∧
        less x y = true) ∧
    (s.length ≤ 1 → IsSortedBy less s = Except.ok true) ∧
    IsSortedBy (natural : Int → Int → Bool) [1, 2, 2, 3] = Except.ok true ∧
    IsSortedBy (natural : Int → Int → Bool) [1, 3, 2] = Except.ok false := by
  obtain ⟨b, hb, hiff⟩ := IsSortedBy_spec less s
  have key : b = true ↔ ¬ ∃ i x y, 0 < i ∧ i < s.length ∧ s[i]? = some x ∧
      s[i - 1]? = some y ∧ less x y = true := by
    rw [hiff]
    constructor
    · intro h ⟨i, x, y, h1, h2, hx, hy, hlt⟩
      rw [h i h1 h2 x y hx hy] at hlt
      cases hlt
    · intro h k hk1 hk2 x y hx hy
      cases hlt : less x y
      · rfl
      · exact absurd ⟨k, x, y, hk1, hk2, hx, hy, hlt⟩ h
  refine ⟨⟨b, hb⟩, ?_, ?_, ?_, by decide, by decide⟩
  · rw [hb, ← key]
    constructor
    · intro h
      cases h
      rfl
    · intro h
      rw [h]
  · rw [hb]
    constructor
    · intro h
      cases h
      by_contra hcon
      have := key.mpr hcon
      cases this
    · intro h
      cases hbt : b
      · rfl
      · exact absurd h (key.mp hbt)
  · intro hlen
    rw [hb]
    have : b = true := by
      rw [key]
      intro ⟨i, _, _, h1, h2, _⟩
      omega
    rw [this]

theorem IsSortedBy_iff_no_inversion_witness :
    IsSortedBy lessKey [(1, 0)] = Except.ok true ∧
    IsSortedBy lessKey [(1, 0), (1, 1), (0, 2)] = Except.ok false :=
  ⟨(IsSortedBy_iff_no_inversion lessKey [(1, 0)]).2.2.2.1 (by decide),
    (IsSortedBy_iff_no_inversion lessKey [(1, 0), (1, 1), (0, 2)]).2.2.1.mpr
      ⟨2, (0, 2), (1, 1), by decide, by decide, by decide, by decide, by decide⟩⟩


/-! ## Sorted permutations -/

theorem sortedOn_iff_pairwise {α : Type} {le : α → α → Prop} {l : List α} :
    SortedOn le l 0 l.length ↔ List.Pairwise le l := by
  rw [List.pairwise_iff_getElem]
  constructor
  · intro h i j hi hj hij
    exact h i j (Nat.zero_le _) hij hj _ _ (List.getElem?_eq_getElem hi)
      (List.getElem?_eq_getElem hj)
  · intro h i j _ hij hj x y hx hy
    obtain ⟨hi', hx'⟩ := List.getElem?_eq_some.mp hx
    obtain ⟨hj', hy'⟩ := List.getElem?_eq_some.mp hy
    rw [← hx', ← hy']
    exact h i j hi' hj' hij

theorem countP_ge_of_head {α : Type} (P : α → Bool) (l : List α) (i : Nat) (hi : i < l.length)
    (h : ∀ k, k ≤ i → ∀ u, l[k]? = some u → P u = true) : i + 1 ≤ l.countP P := by
  have hsplit : l.countP P = (l.take (i + 1)).countP P + (l.drop (i + 1)).countP P := by
    rw [← List.countP_append, List.take_append_drop]
  have hall : (l.take (i + 1)).countP P = (l.take (i + 1)).length := by
    rw [List.countP_eq_length]
    intro u hu
    obtain ⟨k, hk, huk⟩ := exists_pos_of_mem hu
    rw [List.length_take] at hk
    rw [List.getElem?_take_of_lt (by omega)] at huk
    exact h k (by omega) u huk
  rw [hsplit, hall, List.length_take]
  omega

theorem countP_le_of_tail {α : Type} (P : α → Bool) (l : List α) (i : Nat)
    (h : ∀ k, i ≤ k → ∀ u, l[k]? = some u → P u = false) : l.countP P ≤ i := by
  have hsplit : l.countP P = (l.take i).countP P + (l.drop i).countP P := by
    rw [← List.countP_append, List.take_append_drop]
  have hnone : (l.drop i).countP P = 0 := by
    rw [List.countP_eq_zero]
    intro u hu
    obtain ⟨k, _, huk⟩ := exists_pos_of_mem hu
    rw [List.getElem?_drop] at huk
    rw [h (i + k) (by omega) u huk]
    simp
  have hle : (l.take i).countP P ≤ (l.take i).length := List.countP_le_length _
  rw [hsplit, hnone]
  rw [List.length_take] at hle
  omega

theorem sorted_perm_not_lt {α : Type} {less : α → α → Bool} (hswo : StrictWeakOrder less)
    {r1 r2 : List α} (hp : List.Perm r1 r2)
    (h1 : SortedOn (fun x y => less y x = false) r1 0 r1.length)
    (h2 : SortedOn (fun x y => less y x = false) r2 0 r2.length) :
    ∀ (i : Nat) (x y : α), r1[i]? = some x → r2[i]? = some y → less x y = false := by
  intro i x y hx hy
  cases hxy : less x y
  · rfl
  · exfalso
    have hi1 : i < r1.length := (List.getElem?_eq_some.mp hx).1
    have hge := countP_ge_of_head (fun z => !less x z) r1 i hi1 (by
      intro k hk u hu
      by_cases hki : k = i
      · subst hki
        rw [hx] at hu
        cases hu
        simp [hswo.irrefl]
      · have := h1 k i (Nat.zero_le _) (by omega) hi1 u x hu hx
        simp [this])
    have hle := countP_le_of_tail (fun z => !less x z) r2 i (by
      intro k hk u hu
      have hyu : less u y = false := by
        by_cases hki : k = i
        · subst hki
          rw [hy] at hu
          cases hu
          exact hswo.irrefl _
        · exact h2 i k (Nat.zero_le _) (by omega) (List.getElem?_eq_some.mp hu).1 y u hy hu
      cases hxu : less x u
      · have := hswo.not_lt_trans hxu hyu
        rw [hxy] at this
        cases this
      · simp [hxu])
    rw [hp.countP_eq] at hge
    omega

/-! ## Insertion sort of a sorted range -/

theorem insertionSort_inner_of_sorted {α : Type} (less : α → α → Bool) (a : Nat) (l : List α)
    (j : Nat) (hj : j < l.length)
    (h : a < j → ∀ x y, l[j]? = some x → l[j - 1]? = some y → less x y = false) :
    insertionSort.inner less a j l = Except.ok l := by
  cases j with
  | zero => rfl
  | succ j =>
    rw [insertionSort.inner]
    by_cases hgt : j + 1 > a
    · obtain ⟨x, hx, hx'⟩ := index_lt hj
      obtain ⟨y, hy, hy'⟩ := index_lt (show j < l.length by omega)
      have := h hgt x y hx (by simpa using hy)
      simp only [hgt, if_true, hx', hy', ok_bind, this, Bool.false_eq_true, if_false,
        pure_eq_ok]
    · simp only [hgt, if_false, pure_eq_ok]

theorem insertionSort_outer_of_sorted {α : Type} (less : α → α → Bool) (a b : Nat)
    (l : List α) (hb : b ≤ l.length)
    (h : SortedOn (fun x y => less y x = false) l a b) :
    ∀ (fuel i : Nat), b ≤ fuel + i → insertionSort.outer less a b fuel i l = Except.ok l := by
  intro fuel
  induction fuel with
  | zero =>
    intro i hf
    rw [insertionSort.outer, if_neg (by omega)]
    rfl
  | succ f ih =>
    intro i hf
    rw [insertionSort.outer]
    by_cases hib : i < b
    · have h1 := insertionSort_inner_of_sorted less a l i (by omega) (by
        intro hai x y hx hy
        exact h (i - 1) i (by omega) (by omega) hib y x hy hx)
      simp only [hib, if_true, h1, ok_bind]
      exact ih (i + 1) (by omega)
    · simp only [hib, if_false, pure_eq_ok]

theorem quickSort_of_sorted_short {α : Type} (less : α → α → Bool) (l : List α) (a b : Nat)
    (hb : b ≤ l.length) (h7 : b - a ≤ 7)
    (h : SortedOn (fun x y => less y x = false) l a b) (maxDepth : Nat) :
    quickSort less l a b maxDepth = Except.ok l := by
  have hins : insertionSort less l a b = Except.ok l := by
    unfold insertionSort
    exact insertionSort_outer_of_sorted less a b l hb h (b - a) (a + 1) (by omega)
  cases maxDepth with
  | zero =>
    rw [quickSort, if_neg (by omega)]
    by_cases h1 : b - a > 1
    · simp only [h1, if_true, hins]
    · simp only [h1, if_false, pure_eq_ok]
  | succ d =>
    rw [quickSort, if_neg (by omega)]
    by_cases h1 : b - a > 1
    · simp only [h1, if_true, hins]
    · simp only [h1, if_false, pure_eq_ok]

theorem SortBy_of_sorted_short {α : Type} (less : α → α → Bool) (l : List α)
    (h7 : l.length ≤ 7) (h : SortedOn (fun x y => less y x = false) l 0 l.length) :
    SortBy less l = Except.ok l := by
  unfold SortBy
  obtain ⟨k, hk⟩ := SortBy_depth_total l.length l.length 0 (Nat.le_refl _)
  simp only [hk, ok_bind]
  exact quickSort_of_sorted_short less l 0 l.length (Nat.le_refl _) (by omega) h (k * 2)


/-! ## The claims about `SortBy` -/

theorem SortBy_run {α : Type} {lt : α → α → Bool} {le : α → α → Prop}
    (hc : Compat lt le) (s : List α) :
    ∃ r, SortBy lt s = Except.ok r ∧ List.Perm r s ∧ r.length = s.length ∧
      SortedOn le r 0 r.length := by
  obtain ⟨r, hr, hsh, hso⟩ := SortBy_spec hc s
  refine ⟨r, hr, hsh.perm, hsh.length_eq, ?_⟩
  rw [hsh.length_eq]
  exact hso

/-- C1: for every slice and every strict weak ordering, `SortBy` returns a
slice on which `IsSortedBy` answers `true`: no adjacent pair `(i, i+1)` of the
result has `less(r[i+1], r[i])`. -/
theorem SortBy_sorted {α : Type} (less : α → α → Bool) (hswo : StrictWeakOrder less)
    (s : List α) :
    ∃ r, SortBy less s = Except.ok r ∧ IsSortedBy less r = Except.ok true ∧
      (SortBy less s >>= IsSortedBy less) = Except.ok true ∧
      ∀ (i : Nat) (x y : α), r[i]? = some x → r[i + 1]? = some y → less y x = false := by
  obtain ⟨r, hr, _, _, hso⟩ := SortBy_run (compat_of_strictWeakOrder hswo) s
  have hsorted := IsSortedBy_of_sortedOn hso
  refine ⟨r, hr, hsorted, by rw [hr, ok_bind, hsorted], ?_⟩
  intro i x y hx hy
  exact hso i (i + 1) (Nat.zero_le _) (by omega) (List.getElem?_eq_some.mp hy).1 x y hx hy

theorem SortBy_sorted_witness :
    StrictWeakOrder lessKey ∧
    SortBy lessKey [(1, 0), (1, 1), (1, 2), (1, 3), (1, 4), (0, 5), (0, 6), (0, 7)] =
      Except.ok [(0, 5), (0, 6), (0, 7), (1, 3), (1, 0), (1, 4), (1, 1), (1, 2)] ∧
    ∃ r, SortBy lessKey [(1, 0), (1, 1), (1, 2), (1, 3), (1, 4), (0, 5), (0, 6), (0, 7)] =
        Except.ok r ∧ IsSortedBy lessKey r = Except.ok true ∧
      (SortBy lessKey [(1, 0), (1, 1), (1, 2), (1, 3), (1, 4), (0, 5), (0, 6), (0, 7)] >>=
        IsSortedBy lessKey) = Except.ok true ∧
      ∀ (i : Nat) (x y : Nat × Nat), r[i]? = some x → r[i + 1]? = some y →
        lessKey y x = false :=
  ⟨lessKey_strictWeakOrder, by decide!,
    SortBy_sorted lessKey lessKey_strictWeakOrder
      [(1, 0), (1, 1), (1, 2), (1, 3), (1, 4), (0, 5), (0, 6), (0, 7)]⟩

/-- C2: for every slice and every comparator, a strict weak ordering or not,
`SortBy` returns a permutation of the slice: the same length and the same
multiset of elements. -/
theorem SortBy_perm {α : Type} (less : α → α → Bool) (s : List α) :
    ∃ r, SortBy less s = Except.ok r ∧ List.Perm r s ∧ r.length = s.length ∧
      (r : Multiset α) = (s : Multiset α) := by
  obtain ⟨r, hr, hp, hlen, _⟩ := SortBy_run (compat_trivial less) s
  exact ⟨r, hr, hp, hlen, Multiset.coe_eq_coe.mpr hp⟩

/-- C3, as stated, fails: under the strict weak ordering that compares records
by their key, sorting the result of a sort once more reorders equivalent
records. -/
theorem SortBy_not_idempotent :
    StrictWeakOrder lessKey ∧
    SortBy lessKey [(1, 0), (1, 1), (1, 2), (1, 3), (1, 4), (0, 5), (0, 6), (0, 7)] =
      Except.ok [(0, 5), (0, 6), (0, 7), (1, 3), (1, 0), (1, 4), (1, 1), (1, 2)] ∧
    SortBy lessKey [(0, 5), (0, 6), (0, 7), (1, 3), (1, 0), (1, 4), (1, 1), (1, 2)] =
      Except.ok [(0, 7), (0, 6), (0, 5), (1, 1), (1, 2), (1, 0), (1, 3), (1, 4)] ∧
    (SortBy lessKey [(1, 0), (1, 1), (1, 2), (1, 3), (1, 4), (0, 5), (0, 6), (0, 7)] >>=
        SortBy lessKey) ≠
      SortBy lessKey [(1, 0), (1, 1), (1, 2), (1, 3), (1, 4), (0, 5), (0, 6), (0, 7)] :=
  ⟨lessKey_strictWeakOrder, by decide!, by decide!, by decide!⟩

/-- C3, amended: for every slice and every strict weak ordering, sorting the
result of `SortBy` once more returns a slice that is position by position
equivalent to it (neither element less than the other); the two are
element-wise equal when the slice has at most 7 elements, or when `less`
leaves no two distinct elements of the slice equivalent. -/
theorem SortBy_idempotent_up_to_equivalence {α : Type} (less : α → α → Bool)
    (hswo : StrictWeakOrder less) (s : List α) :
    ∃ r r2, SortBy less s = Except.ok r ∧ SortBy less r = Except.ok r2 ∧
      r2.length = r.length ∧
      (∀ (i : Nat) (x y : α), r[i]? = some x → r2[i]? = some y →
        less x y = false ∧ less y x = false) ∧
      (s.length ≤ 7 → r2 = r) ∧
      ((∀ x ∈ s, ∀ y ∈ s, less x y = false → less y x = false → x = y) → r2 = r) := by
  obtain ⟨r, hr, hp, hlen, hso⟩ := SortBy_run (compat_of_strictWeakOrder hswo) s
  obtain ⟨r2, hr2, hp2, hlen2, hso2⟩ := SortBy_run (compat_of_strictWeakOrder hswo) r
  have hpt : ∀ (i : Nat) (x y : α), r[i]? = some x → r2[i]? = some y →
      less x y = false ∧ less y x = false := fun i x y hx hy =>
    ⟨sorted_perm_not_lt hswo hp2.symm hso hso2 i x y hx hy,
      sorted_perm_not_lt hswo hp2 hso2 hso i y x hy hx⟩
  refine ⟨r, r2, hr, hr2, hlen2, hpt, ?_, ?_⟩
  · intro h7
    have := SortBy_of_sorted_short less r (by omega) hso
    rw [this] at hr2
    cases hr2
    rfl
  · intro hanti
    apply List.ext_getElem?
    intro i
    by_cases hi : i < r.length
    · obtain ⟨x, hx, _⟩ := index_lt hi
      obtain ⟨y, hy, _⟩ := index_lt (show i < r2.length by omega)
      have hxs : x ∈ s := hp.subset (mem_of_pos hx)
      have hys : y ∈ s := hp.subset (hp2.subset (mem_of_pos hy))
      have := hpt i x y hx hy
      rw [hx, hy, hanti x hxs y hys this.1 this.2]
    · rw [List.getElem?_eq_none (by omega), List.getElem?_eq_none (by omega)]

theorem SortBy_idempotent_up_to_equivalence_witness :
    StrictWeakOrder lessKey ∧
    (∃ r r2, SortBy lessKey [(1, 0), (1, 1), (1, 2), (1, 3), (1, 4), (0, 5), (0, 6), (0, 7)] =
        Except.ok r ∧ SortBy lessKey r = Except.ok r2 ∧ r2.length = r.length ∧
      (∀ (i : Nat) (x y : Nat × Nat), r[i]? = some x → r2[i]? = some y →
        lessKey x y = false ∧ lessKey y x = false) ∧
      ([(1, 0), (1, 1), (1, 2), (1, 3), (1, 4), (0, 5), (0, 6), (0, 7)].length ≤ 7 →
        r2 = r) ∧
      ((∀ x ∈ [(1, 0), (1, 1), (1, 2), (1, 3), (1, 4), (0, 5), (0, 6), (0, 7)],
          ∀ y ∈ [(1, 0), (1, 1), (1, 2), (1, 3), (1, 4), (0, 5), (0, 6), (0, 7)],
          lessKey x y = false → lessKey y x = false → x = y) → r2 = r)) ∧
    (SortBy lessKey [(2, 0), (1, 1), (2, 2), (1, 3), (1, 4), (2, 5), (0, 6)] >>=
        SortBy lessKey) =
      SortBy lessKey [(2, 0), (1, 1), (2, 2), (1, 3), (1, 4), (2, 5), (0, 6)] ∧
    (SortBy lessKey [(4, 0), (8, 1), (3, 2), (7, 3), (0, 4), (6, 5), (1, 6), (5, 7), (2, 8)] >>=
        SortBy lessKey) =
      SortBy lessKey [(4, 0), (8, 1), (3, 2), (7, 3), (0, 4), (6, 5), (1, 6), (5, 7), (2, 8)] :=
  ⟨lessKey_strictWeakOrder,
    SortBy_idempotent_up_to_equivalence lessKey lessKey_strictWeakOrder
      [(1, 0), (1, 1), (1, 2), (1, 3), (1, 4), (0, 5), (0, 6), (0, 7)],
    by
      obtain ⟨r, r2, h1, h2, _, _, h5, _⟩ :=
        SortBy_idempotent_up_to_equivalence lessKey lessKey_strictWeakOrder
          [(2, 0), (1, 1), (2, 2), (1, 3), (1, 4), (2, 5), (0, 6)]
      rw [h1, ok_bind, h2, h5 (by decide)],
    by
      obtain ⟨r, r2, h1, h2, _, _, _, h6⟩ :=
        SortBy_idempotent_up_to_equivalence lessKey lessKey_strictWeakOrder
          [(4, 0), (8, 1), (3, 2), (7, 3), (0, 4), (6, 5), (1, 6), (5, 7), (2, 8)]
      rw [h1, ok_bind, h2, h6 (by decide)]⟩


/-- C4: for a linearly ordered element type and `less = (a < b)`, `SortBy`
returns the reference ascending sort of the slice, the one non-decreasing
arrangement of its elements; so `SortBy([3,1,2]) = [1,2,3]` and
`SortBy([2,1,2,1]) = [1,1,2,2]`. -/
theorem SortBy_natural_eq_reference {α : Type} [LinearOrder α] (s : List α) :
    SortBy natural s = Except.ok (s.insertionSort (fun a b => a ≤ b)) ∧
    (∀ r : List α, List.Perm r s → List.Sorted (fun a b => a ≤ b) r →
      SortBy natural s = Except.ok r) ∧
    SortBy (natural : Int → Int → Bool) [3, 1, 2] = Except.ok [1, 2, 3] ∧
    SortBy (natural : Int → Int → Bool) [2, 1, 2, 1] = Except.ok [1, 1, 2, 2] := by
  obtain ⟨r, hr, hp, _, hso⟩ := SortBy_run (compat_of_strictWeakOrder
    (natural_strictWeakOrder (α := α))) s
  have hsorted : List.Sorted (fun a b : α => a ≤ b) r := by
    have h := sortedOn_iff_pairwise.mp hso
    refine List.Pairwise.imp ?_ h
    intro a b hab
    simpa [natural] using hab
  have huniq : ∀ r' : List α, List.Perm r' s → List.Sorted (fun a b => a ≤ b) r' →
      SortBy natural s = Except.ok r' := by
    intro r' hp' hs'
    rw [hr, List.eq_of_perm_of_sorted (hp.trans hp'.symm) hsorted hs']
  exact ⟨huniq _ (List.perm_insertionSort _ s) (List.sorted_insertionSort _ s), huniq,
    by decide, by decide⟩

theorem SortBy_natural_eq_reference_witness :
    SortBy (natural : Int → Int → Bool) [5, -3, 9, 0, 5, 7, -3, 2, 8, 1] =
      Except.ok [-3, -3, 0, 1, 2, 5, 5, 7, 8, 9] :=
  (SortBy_natural_eq_reference [5, -3, 9, 0, 5, 7, -3, 2, 8, 1]).2.1
    [-3, -3, 0, 1, 2, 5, 5, 7, 8, 9] (by decide) (by decide)

theorem SortBy_perm_witness :
    SortBy (fun _ _ => true) [(3 : Nat), 1, 2, 3, 1, 2, 3, 1, 2, 0] =
      Except.ok [3, 0, 1, 3, 2, 1, 2, 1, 2, 3] ∧
    ∃ r, SortBy (fun _ _ => true) [(3 : Nat), 1, 2, 3, 1, 2, 3, 1, 2, 0] = Except.ok r ∧
      List.Perm r [3, 1, 2, 3, 1, 2, 3, 1, 2, 0] ∧
      r.length = [(3 : Nat), 1, 2, 3, 1, 2, 3, 1, 2, 0].length ∧
      (r : Multiset Nat) = ([3, 1, 2, 3, 1, 2, 3, 1, 2, 0] : Multiset Nat) :=
  ⟨by decide!, SortBy_perm (fun _ _ => true) [(3 : Nat), 1, 2, 3, 1, 2, 3, 1, 2, 0]⟩

/-- C5: `SortBy` never fails.  For every slice and every comparator given as a
function it returns a slice; the empty and the one-element slice come back
unchanged; and `quickSort`, `doPivot`, `heapSort`, `siftDown` and
`insertionSort` return on every range inside the slice. -/
theorem SortBy_total {α : Type} (less : α → α → Bool) (s : List α) :
    (∃ r, SortBy less s = Except.ok r) ∧
    SortBy less ([] : List α) = Except.ok [] ∧
    (∀ x : α, SortBy less [x] = Except.ok [x]) ∧
    (∀ a b maxDepth : Nat, a ≤ b → b ≤ s.length →
      ∃ r, quickSort less s a b maxDepth = Except.ok r) ∧
    (∀ lo hi : Nat, lo < hi → hi ≤ s.length → ∃ r, doPivot less s lo hi = Except.ok r) ∧
    (∀ a b : Nat, a ≤ b → b ≤ s.length → ∃ r, heapSort less s a b = Except.ok r) ∧
    (∀ lo hi first : Nat, first + hi ≤ s.length →
      ∃ r, siftDown less s lo hi first = Except.ok r) ∧
    (∀ a b : Nat, b ≤ s.length → ∃ r, insertionSort less s a b = Except.ok r) := by
  have hc := compat_trivial less
  refine ⟨?_, ?_, ?_, ?_, ?_, ?_, ?_, ?_⟩
  · obtain ⟨r, hr, _⟩ := SortBy_spec hc s
    exact ⟨r, hr⟩
  · obtain ⟨r, hr, hsh, _⟩ := SortBy_spec hc ([] : List α)
    rw [hr, List.perm_nil.mp hsh.perm]
  · intro x
    obtain ⟨r, hr, hsh, _⟩ := SortBy_spec hc [x]
    rw [hr, List.perm_singleton.mp hsh.perm]
  · intro a b d hab hb
    obtain ⟨r, hr, _⟩ := quickSort_spec hc d s a b hab hb
    exact ⟨r, hr⟩
  · intro lo hi hlt hb
    obtain ⟨r, mlo, mhi, _, hr, _⟩ := doPivot_spec hc s lo hi hlt hb
    exact ⟨_, hr⟩
  · intro a b hab hb
    obtain ⟨r, hr, _⟩ := heapSort_spec hc s a b hab hb
    exact ⟨r, hr⟩
  · intro lo hi first hlen
    obtain ⟨r, hr, _⟩ := siftDown_spec hc s lo hi first hlen
      (fun _ _ _ _ _ _ _ _ _ _ => trivial)
    exact ⟨r, hr⟩
  · intro a b hb
    obtain ⟨r, hr, _⟩ := insertionSort_spec hc s a b hb
    exact ⟨r, hr⟩

theorem SortBy_total_witness :
    (∃ r, SortBy (fun _ _ => true) [(3 : Nat), 1, 2, 3, 1, 2, 3, 1, 2, 0] = Except.ok r) ∧
    (∃ r, quickSort (fun _ _ => true) [(3 : Nat), 1, 2, 3, 1, 2, 3, 1, 2, 0] 1 10 0 =
      Except.ok r) ∧
    (∃ r, doPivot (fun _ _ => true) [(3 : Nat), 1, 2, 3, 1, 2, 3, 1, 2, 0] 1 10 =
      Except.ok r) :=
  ⟨(SortBy_total (fun _ _ => true) [(3 : Nat), 1, 2, 3, 1, 2, 3, 1, 2, 0]).1,
    (SortBy_total (fun _ _ => true) [(3 : Nat), 1, 2, 3, 1, 2, 3, 1, 2, 0]).2.2.2.1 1 10 0
      (by decide) (by decide),
    (SortBy_total (fun _ _ => true) [(3 : Nat), 1, 2, 3, 1, 2, 3, 1, 2, 0]).2.2.2.2.1 1 10
      (by decide) (by decide)⟩

/-- C10: for every slice and every strict weak ordering, `SortByDesc` returns
an arrangement of the slice in descending order: no adjacent pair `(i, i+1)`
of the result has `less(r[i], r[i+1])`.  This holds although the comparator
`greater` that it hands to `SortBy` answers `true` both ways on distinct
equivalent elements. -/
theorem SortByDesc_descending {α : Type} [DecidableEq α] (less : α → α → Bool)
    (hswo : StrictWeakOrder less) (s : List α) :
    ∃ r, SortByDesc less s = Except.ok r ∧ List.Perm r s ∧
      (∀ (i : Nat) (x y : α), r[i]? = some x → r[i + 1]? = some y → less x y = false) ∧
      (∀ a b : α, a ≠ b → less a b = false → less b a = false →
        greater less a b = true ∧ greater less b a = true) := by
  obtain ⟨r, hr, hp, _, hso⟩ := SortBy_run (compat_greater hswo) s
  refine ⟨r, hr, hp, ?_, ?_⟩
  · intro i x y hx hy
    exact hso i (i + 1) (Nat.zero_le _) (by omega) (List.getElem?_eq_some.mp hy).1 x y hx hy
  · intro a b hab h1 h2
    have hba : b ≠ a := fun e => hab e.symm
    simp [greater, hab, hba, h1, h2]

theorem SortByDesc_descending_witness :
    StrictWeakOrder lessKey ∧
    SortByDesc lessKey
        [(0, 0), (0, 1), (0, 2), (0, 3), (1, 4), (1, 5), (1, 6), (1, 7), (0, 8), (1, 9)] =
      Except.ok
        [(1, 5), (1, 7), (1, 6), (1, 9), (1, 4), (0, 3), (0, 2), (0, 1), (0, 8), (0, 0)] ∧
    ∃ r, SortByDesc lessKey
        [(0, 0), (0, 1), (0, 2), (0, 3), (1, 4), (1, 5), (1, 6), (1, 7), (0, 8), (1, 9)] =
        Except.ok r ∧
      List.Perm r
        [(0, 0), (0, 1), (0, 2), (0, 3), (1, 4), (1, 5), (1, 6), (1, 7), (0, 8), (1, 9)] ∧
      (∀ (i : Nat) (x y : Nat × Nat), r[i]? = some x → r[i + 1]? = some y →
        lessKey x y = false) ∧
      (∀ a b : Nat × Nat, a ≠ b → lessKey a b = false → lessKey b a = false →
        greater lessKey a b = true ∧ greater lessKey b a = true) :=
  ⟨lessKey_strictWeakOrder, by decide!,
    SortByDesc_descending lessKey lessKey_strictWeakOrder
      [(0, 0), (0, 1), (0, 2), (0, 3), (1, 4), (1, 5), (1, 6), (1, 7), (0, 8), (1, 9)]⟩


/-! ## Ranges as lists -/

theorem take_eq_of_outside {α : Type} {l r : List α} (a : Nat)
    (h : ∀ k, k < a → r[k]? = l[k]?) : r.take a = l.take a := by
  apply List.ext_getElem?
  intro k
  rw [List.getElem?_take, List.getElem?_take]
  by_cases hk : k < a
  · rw [if_pos hk, if_pos hk, h k hk]
  · rw [if_neg hk, if_neg hk]

theorem drop_eq_of_outside {α : Type} {l r : List α} (b : Nat)
    (h : ∀ k, b ≤ k → r[k]? = l[k]?) : r.drop b = l.drop b := by
  apply List.ext_getElem?
  intro k
  rw [List.getElem?_drop, List.getElem?_drop]
  exact h (b + k) (by omega)

theorem split_slice {α : Type} (l : List α) (a b : Nat) :
    l = l.take a ++ (slice l a b ++ l.drop (a + (b - a))) := by
  unfold slice
  rw [← List.drop_drop, List.take_append_drop, List.take_append_drop]

theorem Shuf.frame {α : Type} {a b : Nat} {l r : List α} (h : Shuf a b l r) :
    r.take a = l.take a ∧ r.drop b = l.drop b := by
  refine ⟨take_eq_of_outside a (fun k hk => h.outside k (Or.inl hk)),
    drop_eq_of_outside b (fun k hk => h.outside k (Or.inr hk))⟩

theorem Shuf.slice_perm {α : Type} {a b : Nat} {l r : List α} (h : Shuf a b l r)
    (hab : a ≤ b) : List.Perm (slice r a b) (slice l a b) := by
  have hp := h.perm
  obtain ⟨ht, hd⟩ := h.frame
  rw [split_slice r a b, split_slice l a b, ht, show a + (b - a) = b by omega, hd] at hp
  exact (List.perm_append_right_iff _).mp ((List.perm_append_left_iff _).mp hp)

theorem getElem?_slice {α : Type} (l : List α) (a b k : Nat) :
    (slice l a b)[k]? = if k < b - a then l[a + k]? else none := by
  unfold slice
  rw [List.getElem?_take, List.getElem?_drop]


/-! ## Claims about the two fallback sorts -/

theorem adjacent_of_sortedOn {α : Type} {less : α → α → Bool} {r : List α} {a b : Nat}
    (h : SortedOn (fun x y => less y x = false) r a b) :
    ∀ i, a < i → i < b → ∀ x y, r[i]? = some x → r[i - 1]? = some y → less x y = false := by
  intro i hai hib x y hx hy
  exact h (i - 1) i (by omega) (by omega) hib y x hy hx

theorem insertionSort_of_short {α : Type} (less : α → α → Bool) (l : List α) (a b : Nat)
    (h : b - a ≤ 1) : insertionSort less l a b = Except.ok l := by
  unfold insertionSort
  cases b - a with
  | zero =>
    rw [insertionSort.outer, if_neg (by omega)]
    rfl
  | succ f =>
    rw [insertionSort.outer, if_neg (by omega)]
    rfl

theorem quickSort_of_short {α : Type} (less : α → α → Bool) (l : List α) (a b maxDepth : Nat)
    (h7 : b - a ≤ 7) : quickSort less l a b maxDepth = insertionSort less l a b := by
  have key : (if b - a > 1 then insertionSort less l a b else pure l) =
      insertionSort less l a b := by
    by_cases h1 : b - a > 1
    · rw [if_pos h1]
    · rw [if_neg h1, insertionSort_of_short less l a b (by omega)]
      rfl
  cases maxDepth with
  | zero => rw [quickSort, if_neg (by omega), key]
  | succ d => rw [quickSort, if_neg (by omega), key]

theorem SortBy_of_short {α : Type} (less : α → α → Bool) (l : List α) (h7 : l.length ≤ 7) :
    SortBy less l = insertionSort less l 0 l.length := by
  unfold SortBy
  obtain ⟨k, hk⟩ := SortBy_depth_total l.length l.length 0 (Nat.le_refl _)
  simp only [hk, ok_bind]
  exact quickSort_of_short less l 0 l.length (k * 2) (by omega)

/-- C18: for every range `[a, b)` inside the slice, of any length, and every
strict weak ordering, `heapSort` leaves the range a permutation of its
contents with no adjacent inversion and leaves every element outside the
range unchanged; its first loop establishes the max-heap property over the
whole range (no child is greater than its parent under `less`). -/
theorem heapSort_sorts_range {α : Type} (less : α → α → Bool) (hswo : StrictWeakOrder less)
    (l : List α) (a b : Nat) (hab : a ≤ b) (hb : b ≤ l.length) :
    ∃ h r, heapSort.build less (b - a) a ((b - a - 1) / 2) l = Except.ok h ∧
      heapSort.pop less 0 a (b - a) h = Except.ok r ∧
      heapSort less l a b = Except.ok r ∧
      (∀ k c, c < b - a → (c = 2 * k + 1 ∨ c = 2 * k + 2) →
        ∀ x y, h[a + k]? = some x → h[a + c]? = some y → less x y = false) ∧
      List.Perm (slice h a b) (slice l a b) ∧
      r.length = l.length ∧
      List.Perm (slice r a b) (slice l a b) ∧
      (∀ i, a < i → i < b → ∀ x y, r[i]? = some x → r[i - 1]? = some y → less x y = false) ∧
      (∀ k, k < a ∨ b ≤ k → r[k]? = l[k]?) := by
  have hc := compat_of_strictWeakOrder hswo
  obtain ⟨h, h1, hsh1, hh1⟩ := heapSort_build_spec hc (b - a) a ((b - a - 1) / 2) l
    (by omega) (by intro k c hk _ hchi hck; omega)
  obtain ⟨r, h2, hsh2, hso⟩ := heapSort_pop_spec hc (b - a) a (b - a) h (Nat.le_refl _)
    (by rw [hsh1.length_eq]; omega) hh1 (by intro i j hi hij hj; omega)
    (by intro q hq hqhi; omega)
  rw [show a + (b - a) = b by omega] at hsh1 hsh2 hso
  have hsh := hsh1.trans hsh2
  refine ⟨h, r, h1, h2, ?_, ?_, hsh1.slice_perm hab, hsh.length_eq, hsh.slice_perm hab,
    adjacent_of_sortedOn hso, fun k hk => hsh.outside k hk⟩
  · unfold heapSort
    simp only [h1, ok_bind]
    exact h2
  · intro k c hc1 hc2 x y hx hy
    exact hh1 k c (Nat.zero_le _) (by simp) hc1 hc2 x y hx hy

theorem heapSort_sorts_range_witness :
    StrictWeakOrder lessKey ∧
    heapSort lessKey [(9, 0), (2, 1), (1, 2), (2, 3), (0, 4), (1, 5), (7, 6)] 1 6 =
      Except.ok [(9, 0), (0, 4), (1, 5), (1, 2), (2, 3), (2, 1), (7, 6)] ∧
    ∃ h r, heapSort.build lessKey (6 - 1) 1 ((6 - 1 - 1) / 2)
        [(9, 0), (2, 1), (1, 2), (2, 3), (0, 4), (1, 5), (7, 6)] = Except.ok h ∧
      heapSort.pop lessKey 0 1 (6 - 1) h = Except.ok r ∧
      heapSort lessKey [(9, 0), (2, 1), (1, 2), (2, 3), (0, 4), (1, 5), (7, 6)] 1 6 =
        Except.ok r ∧
      (∀ k c, c < 6 - 1 → (c = 2 * k + 1 ∨ c = 2 * k + 2) →
        ∀ x y, h[1 + k]? = some x → h[1 + c]? = some y → lessKey x y = false) ∧
      List.Perm (slice h 1 6)
        (slice [(9, 0), (2, 1), (1, 2), (2, 3), (0, 4), (1, 5), (7, 6)] 1 6) ∧
      r.length = [(9, 0), (2, 1), (1, 2), (2, 3), (0, 4), (1, 5), (7, 6)].length ∧
      List.Perm (slice r 1 6)
        (slice [(9, 0), (2, 1), (1, 2), (2, 3), (0, 4), (1, 5), (7, 6)] 1 6) ∧
      (∀ i, 1 < i → i < 6 → ∀ x y, r[i]? = some x → r[i - 1]? = some y →
        lessKey x y = false) ∧
      (∀ k, k < 1 ∨ 6 ≤ k →
        r[k]? = [(9, 0), (2, 1), (1, 2), (2, 3), (0, 4), (1, 5), (7, 6)][k]?) :=
  ⟨lessKey_strictWeakOrder, by decide!,
    heapSort_sorts_range lessKey lessKey_strictWeakOrder
      [(9, 0), (2, 1), (1, 2), (2, 3), (0, 4), (1, 5), (7, 6)] 1 6 (by decide) (by decide)⟩

/-- C19: for every range `[a, b)` inside the slice and every strict weak
ordering, `insertionSort` leaves the range a permutation of its contents with
no adjacent inversion and leaves every element outside the range unchanged;
and on a slice of at most 7 elements `SortBy` returns what `insertionSort`
returns on the whole slice. -/
theorem insertionSort_sorts_range {α : Type} (less : α → α → Bool)
    (hswo : StrictWeakOrder less) (l : List α) (a b : Nat) (hab : a ≤ b)
    (hb : b ≤ l.length) :
    (∃ r, insertionSort less l a b = Except.ok r ∧ r.length = l.length ∧
      List.Perm (slice r a b) (slice l a b) ∧
      (∀ i, a < i → i < b → ∀ x y, r[i]? = some x → r[i - 1]? = some y → less x y = false) ∧
      (∀ k, k < a ∨ b ≤ k → r[k]? = l[k]?)) ∧
    (l.length ≤ 7 → SortBy less l = insertionSort less l 0 l.length) := by
  obtain ⟨r, hr, hsh, hso⟩ := insertionSort_spec (compat_of_strictWeakOrder hswo) l a b hb
  exact ⟨⟨r, hr, hsh.length_eq, hsh.slice_perm hab, adjacent_of_sortedOn hso,
    fun k hk => hsh.outside k hk⟩, SortBy_of_short less l⟩

theorem insertionSort_sorts_range_witness :
    StrictWeakOrder lessKey ∧
    insertionSort lessKey [(9, 0), (2, 1), (1, 2), (2, 3), (0, 4), (1, 5), (7, 6)] 1 6 =
      Except.ok [(9, 0), (0, 4), (1, 2), (1, 5), (2, 1), (2, 3), (7, 6)] ∧
    SortBy lessKey [(9, 0), (2, 1), (1, 2), (2, 3), (0, 4), (1, 5), (7, 6)] =
      Except.ok [(0, 4), (1, 2), (1, 5), (2, 1), (2, 3), (7, 6), (9, 0)] ∧
    (∃ r, insertionSort lessKey [(9, 0), (2, 1), (1, 2), (2, 3), (0, 4), (1, 5), (7, 6)] 1 6 =
        Except.ok r ∧
      r.length = [(9, 0), (2, 1), (1, 2), (2, 3), (0, 4), (1, 5), (7, 6)].length ∧
      List.Perm (slice r 1 6)
        (slice [(9, 0), (2, 1), (1, 2), (2, 3), (0, 4), (1, 5), (7, 6)] 1 6) ∧
      (∀ i, 1 < i → i < 6 → ∀ x y, r[i]? = some x → r[i - 1]? = some y →
        lessKey x y = false) ∧
      (∀ k, k < 1 ∨ 6 ≤ k →
        r[k]? = [(9, 0), (2, 1), (1, 2), (2, 3), (0, 4), (1, 5), (7, 6)][k]?)) ∧
    SortBy lessKey [(9, 0), (2, 1), (1, 2), (2, 3), (0, 4), (1, 5), (7, 6)] =
      insertionSort lessKey [(9, 0), (2, 1), (1, 2), (2, 3), (0, 4), (1, 5), (7, 6)] 0
        [(9, 0), (2, 1), (1, 2), (2, 3), (0, 4), (1, 5), (7, 6)].length :=
  ⟨lessKey_strictWeakOrder, by decide!, by decide!,
    (insertionSort_sorts_range lessKey lessKey_strictWeakOrder
      [(9, 0), (2, 1), (1, 2), (2, 3), (0, 4), (1, 5), (7, 6)] 1 6 (by decide) (by decide)).1,
    (insertionSort_sorts_range lessKey lessKey_strictWeakOrder
      [(9, 0), (2, 1), (1, 2), (2, 3), (0, 4), (1, 5), (7, 6)] 1 6 (by decide) (by decide)).2
      (by decide)⟩


/-! ## Descending sortedness check -/

theorem IsSortedByDesc_spec {α : Type} [DecidableEq α] (less : α → α → Bool) (l : List α) :
    ∃ b, IsSortedByDesc less l = Except.ok b ∧
      (b = true ↔ ∀ k, 0 < k → k < l.length → ∀ x y, l[k]? = some x → l[k - 1]? = some y →
        x = y ∨ less x y = true) := by
  obtain ⟨b, hb, hiff⟩ := IsSortedBy_spec (greater less) l
  refine ⟨b, hb, ?_⟩
  rw [hiff]
  constructor
  · intro h k hk1 hk2 x y hx hy
    have := h k hk1 hk2 x y hx hy
    by_cases hxy : x = y
    · exact Or.inl hxy
    · simp [greater, hxy] at this
      exact Or.inr this
  · intro h k hk1 hk2 x y hx hy
    rcases h k hk1 hk2 x y hx hy with hxy | hlt
    · simp [greater, hxy]
    · simp [greater, hlt]

/-- C11, the code at the failing input: on two distinct records with the same
key, a slice that is in descending order (no index has
`less(s[i], s[i+1])`), `IsSortedByDesc` answers `false`; it also answers
`false` on what `SortByDesc` returns for that slice. -/
theorem IsSortedByDesc_rejects_equivalent_neighbours :
    StrictWeakOrder lessKey ∧
    (∀ (i : Nat) (x y : Nat × Nat), [(1, 0), (1, 1)][i]? = some x →
      [(1, 0), (1, 1)][i + 1]? = some y → lessKey x y = false) ∧
    IsSortedByDesc lessKey [(1, 0), (1, 1)] = Except.ok false ∧
    SortByDesc lessKey [(1, 0), (1, 1)] = Except.ok [(1, 1), (1, 0)] ∧
    (SortByDesc lessKey [(1, 0), (1, 1)] >>= IsSortedByDesc lessKey) = Except.ok false ∧
    IsSortedBy lessKey [(1, 0), (1, 1)] = Except.ok true := by
  refine ⟨lessKey_strictWeakOrder, ?_, by decide, by decide, by decide, by decide⟩
  intro i x y hx hy
  have hi : i + 1 < [((1 : Nat), (0 : Nat)), (1, 1)].length := (List.getElem?_eq_some.mp hy).1
  have hi0 : i = 0 := by simp at hi; omega
  subst hi0
  simp at hx hy
  subst hx hy
  decide

/-! ## The depth budget -/

theorem SortBy_depth_spec : ∀ (fuel i acc : Nat), i ≤ fuel →
    ∃ k, SortBy.depth fuel i acc = Except.ok (acc + k) ∧ i < 2 ^ k ∧
      (k = 0 ∨ 2 ^ (k - 1) ≤ i) := by
  intro fuel
  induction fuel with
  | zero =>
    intro i acc hi
    rw [SortBy.depth, if_neg (by omega)]
    exact ⟨0, rfl, by simp; omega, Or.inl rfl⟩
  | succ f ih =>
    intro i acc hi
    rw [SortBy.depth]
    by_cases h0 : i > 0
    · obtain ⟨k, hk, h1, h2⟩ := ih (i >>> 1) (acc + 1) (by
        rw [Nat.shiftRight_eq_div_pow]
        omega)
      rw [Nat.shiftRight_eq_div_pow, Nat.pow_one] at h1 h2
      simp only [h0, if_true, hk]
      refine ⟨k + 1, by rw [Nat.add_assoc, Nat.add_comm 1 k], ?_, Or.inr ?_⟩
      · rw [Nat.pow_succ]
        omega
      · rw [Nat.add_sub_cancel]
        rcases h2 with h2 | h2
        · subst h2
          simp
          omega
        · have : 2 ^ k = 2 ^ (k - 1) * 2 := by
            cases k with
            | zero => simp at h1; omega
            | succ k' => rw [Nat.add_sub_cancel, Nat.pow_succ]
          omega
    · simp only [h0, if_false, pure_eq_ok]
      exact ⟨0, rfl, by simp; omega, Or.inl rfl⟩

theorem clog_of_bits {n k : Nat} (h1 : n < 2 ^ k) (h2 : k = 0 ∨ 2 ^ (k - 1) ≤ n) :
    Nat.clog 2 (n + 1) = k := by
  apply Nat.le_antisymm
  · exact (Nat.le_pow_iff_clog_le (by decide)).mp (by omega)
  · rcases h2 with h2 | h2
    · omega
    · by_contra hlt
      have hle : Nat.clog 2 (n + 1) ≤ k - 1 := by omega
      have := (Nat.le_pow_iff_clog_le (b := 2) (by decide)).mpr hle
      omega

/-- C17: for every length `n` the depth loop of `SortBy` counts the binary
digits of `n`, the number `ceil(log2(n+1))`: the least `k` with `n < 2^k`
(`0` for `n = 0`); and `SortBy` passes `2 * k` to `quickSort` as the depth
budget. -/
theorem SortBy_depth_budget (n : Nat) :
    SortBy.depth n n 0 = Except.ok (Nat.clog 2 (n + 1)) ∧
    n < 2 ^ Nat.clog 2 (n + 1) ∧
    (∀ j, n < 2 ^ j → Nat.clog 2 (n + 1) ≤ j) ∧
    (n = 0 → Nat.clog 2 (n + 1) = 0) ∧
    (∀ (α : Type) (less : α → α → Bool) (s : List α), s.length = n →
      SortBy less s = quickSort less s 0 n (2 * Nat.clog 2 (n + 1))) := by
  obtain ⟨k, hk, h1, h2⟩ := SortBy_depth_spec n n 0 (Nat.le_refl _)
  have hkc := clog_of_bits h1 h2
  rw [Nat.zero_add] at hk
  rw [hkc]
  refine ⟨hk, h1, ?_, ?_, ?_⟩
  · intro j hj
    rw [← hkc]
    exact (Nat.le_pow_iff_clog_le (by decide)).mp (by omega)
  · intro h0
    rcases h2 with h2 | h2
    · exact h2
    · subst h0
      have : 0 < 2 ^ (k - 1) := Nat.two_pow_pos (k - 1)
      omega
  · intro α less s hs
    unfold SortBy
    subst hs
    simp only [hk, ok_bind, Nat.mul_comm]

theorem SortBy_depth_budget_witness :
    SortBy.depth 1000 1000 0 = Except.ok 10 ∧
    Nat.clog 2 (1000 + 1) = 10 ∧
    SortBy natural [(3 : Int), 1, 2] = quickSort natural [(3 : Int), 1, 2] 0 3 (2 * 2) :=
  ⟨by decide!, by
      have h := (SortBy_depth_budget 1000).1
      have e : SortBy.depth 1000 1000 0 = Except.ok 10 := by decide!
      rw [e] at h
      exact (Except.ok.inj h).symm, by
      have h := (SortBy_depth_budget 3).2.2.2.2 Int natural [3, 1, 2] rfl
      have e := (SortBy_depth_budget 3).1
      have e3 : SortBy.depth 3 3 0 = Except.ok 2 := by decide
      rw [e3] at e
      rw [← Except.ok.inj e] at h
      exact h⟩


/-! ## Natural-ordering maximum -/

theorem Max_loop_spec {α : Type} [LinearOrder α] : ∀ (l : List α) (result : α),
    result ≤ Max.loop l result ∧ (∀ x ∈ l, x ≤ Max.loop l result) ∧
      (Max.loop l result = result ∨ Max.loop l result ∈ l) := by
  intro l
  induction l with
  | nil =>
    intro result
    exact ⟨le_refl _, by simp, Or.inl rfl⟩
  | cons v rest ih =>
    intro result
    rw [Max.loop]
    by_cases hgt : v > result
    · obtain ⟨h1, h2, h3⟩ := ih v
      simp only [hgt, if_true]
      refine ⟨le_trans (le_of_lt hgt) h1, ?_, ?_⟩
      · intro x hx
        rcases List.mem_cons.mp hx with rfl | hx
        · exact h1
        · exact h2 x hx
      · rcases h3 with h3 | h3
        · exact Or.inr (by rw [h3]; exact List.mem_cons_self _ _)
        · exact Or.inr (List.mem_cons_of_mem _ h3)
    · obtain ⟨h1, h2, h3⟩ := ih result
      simp only [hgt, if_false]
      refine ⟨h1, ?_, ?_⟩
      · intro x hx
        rcases List.mem_cons.mp hx with rfl | hx
        · exact le_trans (not_lt.mp hgt) h1
        · exact h2 x hx
      · rcases h3 with h3 | h3
        · exact Or.inl h3
        · exact Or.inr (List.mem_cons_of_mem _ h3)

theorem Max_run {α : Type} [LinearOrder α] (s : List α) (hne : s ≠ []) :
    ∃ v, Max s = Except.ok v ∧ v ∈ s ∧ ∀ x ∈ s, x ≤ v := by
  have hpos : 0 < s.length := List.length_pos.mpr hne
  obtain ⟨x0, hx0, hx0'⟩ := index_lt hpos
  obtain ⟨h1, h2, h3⟩ := Max_loop_spec s x0
  refine ⟨Max.loop s x0, ?_, ?_, h2⟩
  · unfold Max
    simp only [show ¬ s.length = 0 by omega, if_false, hx0', ok_bind, pure_eq_ok]
  · rcases h3 with h3 | h3
    · rw [h3]
      exact mem_of_pos hx0
    · exact h3

theorem MaxBy_maximal {α : Type} [DecidableEq α] (less : α → α → Bool)
    (hswo : StrictWeakOrder less) (s : List α) (hne : s ≠ []) :
    ∃ v, MaxBy less s = Except.ok v ∧ v ∈ s ∧ ∀ x ∈ s, less v x = false := by
  obtain ⟨m, v, hm, hv, hrun, hmax⟩ := MaxBy_run less s hne
    (fun i m => ∀ k u v, k < i → s[k]? = some u → s[m]? = some v → less v u = false)
    (by
      intro k u v hk hu hv
      have : k = 0 := by omega
      subst this
      rw [hu] at hv
      cases hv
      exact hswo.irrefl _)
    (by
      intro i m x y hi hm hinv hx hy
      constructor
      · intro ⟨_, hxy⟩ k u v hk hu hv
        rw [hx] at hv
        cases hv
        by_cases hki : k = i
        · subst hki
          rw [hx] at hu
          cases hu
          exact hswo.irrefl _
        · exact hswo.not_lt_trans hxy (hinv k u y (by omega) hu hy)
      · intro hn k u v hk hu hv
        by_cases hki : k = i
        · subst hki
          rw [hx] at hu
          cases hu
          rw [hy] at hv
          cases hv
          by_cases hxy : x = y
          · subst hxy
            exact hswo.irrefl _
          · cases h : less x y
            · exact absurd ⟨hxy, h⟩ hn
            · exact hswo.asymm _ _ h
        · exact hinv k u v (by omega) hu hv)
  refine ⟨v, hrun, mem_of_pos hv, ?_⟩
  intro x hx
  obtain ⟨k, hk, hxk⟩ := exists_pos_of_mem hx
  exact hmax k x v hk hxk hv

/-- C13: for a linearly ordered element type, `Max` returns an error exactly
on the empty slice, and otherwise the value at the first index whose element
is at least every element of the slice (the maximum, first occurrence); for
`less = (a < b)`, `MaxBy` returns an equal value. -/
theorem Max_first_maximum {α : Type} [LinearOrder α] (s : List α) :
    ((∃ e, Max s = Except.error e) ↔ s = []) ∧
    (s = [] → Max s =
      Except.error (Fault.error "cannot determine the Max of an empty slice")) ∧
    (s ≠ [] → ∃ i v, i < s.length ∧ s[i]? = some v ∧ Max s = Except.ok v ∧
      (∀ x ∈ s, x ≤ v) ∧
      (∀ j w, j < i → s[j]? = some w → ∃ x ∈ s, ¬ x ≤ w) ∧
      MaxBy natural s = Except.ok v) := by
  have hempty : s = [] → Max s =
      Except.error (Fault.error "cannot determine the Max of an empty slice") := by
    intro h
    subst h
    rfl
  have hne : s ≠ [] → ∃ i v, i < s.length ∧ s[i]? = some v ∧ Max s = Except.ok v ∧
      (∀ x ∈ s, x ≤ v) ∧
      (∀ j w, j < i → s[j]? = some w → ∃ x ∈ s, ¬ x ≤ w) ∧
      MaxBy natural s = Except.ok v := by
    intro h
    obtain ⟨v, hv, hmem, hmax⟩ := Max_run s h
    obtain ⟨v', hv', hmem', hmax'⟩ := MaxBy_maximal natural natural_strictWeakOrder s h
    have hvv : v' = v := by
      apply le_antisymm (hmax v' hmem')
      have := hmax' v hmem
      simpa [natural] using this
    have hex : ∃ k : Nat, s[k]? = some v := by
      obtain ⟨k, _, hk⟩ := exists_pos_of_mem hmem
      exact ⟨k, hk⟩
    refine ⟨Nat.find hex, v, (List.getElem?_eq_some.mp (Nat.find_spec hex)).1,
      Nat.find_spec hex, hv, hmax, ?_, by rw [hv', hvv]⟩
    intro j w hj hw
    refine ⟨v, hmem, ?_⟩
    intro hle
    have hwv : w = v := le_antisymm (hmax w (mem_of_pos hw)) hle
    rw [hwv] at hw
    exact Nat.find_min hex hj hw
  refine ⟨⟨?_, fun h => ⟨_, hempty h⟩⟩, hempty, hne⟩
  intro ⟨e, he⟩
  by_contra h
  obtain ⟨_, v, _, _, hv, _⟩ := hne h
  rw [hv] at he
  cases he

theorem Max_first_maximum_witness :
    Max [(1 : Int), 3, 3, 2] = Except.ok 3 ∧
    MaxBy natural [(1 : Int), 3, 3, 2] = Except.ok 3 ∧
    ∃ i v, i < [(1 : Int), 3, 3, 2].length ∧ [(1 : Int), 3, 3, 2][i]? = some v ∧
      Max [(1 : Int), 3, 3, 2] = Except.ok v ∧
      (∀ x ∈ [(1 : Int), 3, 3, 2], x ≤ v) ∧
      (∀ j w, j < i → [(1 : Int), 3, 3, 2][j]? = some w →
        ∃ x ∈ [(1 : Int), 3, 3, 2], ¬ x ≤ w) ∧
      MaxBy natural [(1 : Int), 3, 3, 2] = Except.ok v :=
  ⟨by decide, by decide, (Max_first_maximum [(1 : Int), 3, 3, 2]).2.2 (by decide)⟩


/-! ## Distinct elements -/

theorem Any_iff {α : Type} (fn : α → Bool) : ∀ l : List α,
    Any l fn = true ↔ ∃ w ∈ l, fn w = true := by
  intro l
  induction l with
  | nil => simp [Any]
  | cons v rest ih =>
    rw [Any]
    by_cases hv : fn v = true
    · simp [hv]
    · have hv' : fn v = false := by simpa using hv
      simp only [hv', Bool.false_eq_true, if_false, ih, List.mem_cons]
      constructor
      · intro ⟨w, hw, hfw⟩
        exact ⟨w, Or.inr hw, hfw⟩
      · intro ⟨w, hw, hfw⟩
        rcases hw with rfl | hw
        · rw [hv'] at hfw
          cases hfw
        · exact ⟨w, hw, hfw⟩

theorem DistinctBy_loop_sublist {α : Type} (equal : α → α → Bool) :
    ∀ rest result : List α, ∃ t, List.Sublist t rest ∧
      DistinctBy.loop equal rest result = result ++ t := by
  intro rest
  induction rest with
  | nil =>
    intro result
    exact ⟨[], List.Sublist.refl _, by simp [DistinctBy.loop]⟩
  | cons v rest ih =>
    intro result
    rw [DistinctBy.loop]
    by_cases hany : Any result (fun _app => equal v _app) = true
    · obtain ⟨t, ht, he⟩ := ih result
      simp only [hany, Bool.not_true, Bool.false_eq_true, if_false]
      exact ⟨t, ht.cons v, he⟩
    · have hany' : Any result (fun _app => equal v _app) = false := by simpa using hany
      obtain ⟨t, ht, he⟩ := ih (result ++ [v])
      simp only [hany', Bool.not_false, if_true]
      refine ⟨v :: t, ht.cons₂ v, ?_⟩
      rw [he]
      simp

theorem DistinctBy_loop_spec {α : Type} (equal : α → α → Bool) (s : List α) :
    ∀ (rest done result : List α) (is : List Nat), s = done ++ rest →
    List.Pairwise (fun i j => i < j) is → (∀ i ∈ is, i < done.length) →
    result.map some = is.map (fun i => s[i]?) →
    List.Pairwise (fun x y => equal y x = false) result →
    (∀ (k : Nat) (v : α), k < done.length → s[k]? = some v →
      k ∈ is ∨ ∃ j ∈ is, j < k ∧ ∃ w, s[j]? = some w ∧ equal v w = true) →
    ∃ is' : List Nat, List.Pairwise (fun i j => i < j) is' ∧
      (DistinctBy.loop equal rest result).map some = is'.map (fun i => s[i]?) ∧
      List.Pairwise (fun x y => equal y x = false) (DistinctBy.loop equal rest result) ∧
      (∀ (k : Nat) (v : α), s[k]? = some v →
        k ∈ is' ∨ ∃ j ∈ is', j < k ∧ ∃ w, s[j]? = some w ∧ equal v w = true) := by
  intro rest
  induction rest with
  | nil =>
    intro done result is hs hlt _ hmap huniq hcov
    rw [List.append_nil] at hs
    subst hs
    refine ⟨is, hlt, hmap, huniq, ?_⟩
    intro k v hk
    exact hcov k v (List.getElem?_eq_some.mp hk).1 hk
  | cons v rest ih =>
    intro done result is hs hlt hbound hmap huniq hcov
    have hv : s[done.length]? = some v := by
      rw [hs, List.getElem?_append_right (Nat.le_refl _)]
      simp
    have hs' : s = (done ++ [v]) ++ rest := by
      rw [hs]
      simp
    rw [DistinctBy.loop]
    by_cases hany : Any result (fun _app => equal v _app) = true
    · simp only [hany, Bool.not_true, Bool.false_eq_true, if_false]
      obtain ⟨w, hw, hvw⟩ := (Any_iff _ result).mp hany
      have hw' : some w ∈ is.map (fun i => s[i]?) := by
        rw [← hmap]
        exact List.mem_map_of_mem _ hw
      obtain ⟨j, hj, hjw⟩ := List.mem_map.mp hw'
      apply ih (done ++ [v]) result is hs' hlt
      · intro i hi
        have := hbound i hi
        simp
        omega
      · exact hmap
      · exact huniq
      · intro k u hk hu
        simp at hk
        by_cases hkn : k = done.length
        · subst hkn
          rw [hv] at hu
          cases hu
          exact Or.inr ⟨j, hj, hbound j hj, w, hjw, hvw⟩
        · exact hcov k u (by omega) hu
    · have hany' : Any result (fun _app => equal v _app) = false := by simpa using hany
      simp only [hany', Bool.not_false, if_true]
      have hnone : ∀ w ∈ result, equal v w = false := by
        intro w hw
        cases h : equal v w
        · rfl
        · exact absurd ((Any_iff _ result).mpr ⟨w, hw, h⟩) hany
      apply ih (done ++ [v]) (result ++ [v]) (is ++ [done.length]) hs'
      · rw [List.pairwise_append]
        refine ⟨hlt, List.pairwise_singleton _ _, ?_⟩
        intro i hi j hj
        rw [List.mem_singleton] at hj
        subst hj
        exact hbound i hi
      · intro i hi
        simp
        rcases List.mem_append.mp hi with hi | hi
        · have := hbound i hi
          omega
        · rw [List.mem_singleton] at hi
          omega
      · rw [List.map_append, List.map_append, hmap]
        simp [hv]
      · rw [List.pairwise_append]
        refine ⟨huniq, List.pairwise_singleton _ _, ?_⟩
        intro x hx y hy
        rw [List.mem_singleton] at hy
        subst hy
        exact hnone x hx
      · intro k u hk hu
        simp at hk
        by_cases hkn : k = done.length
        · subst hkn
          exact Or.inl (by simp)
        · rcases hcov k u (by omega) hu with h | ⟨j, hj, h⟩
          · exact Or.inl (List.mem_append_left _ h)
          · exact Or.inr ⟨j, List.mem_append_left _ hj, h⟩

/-- C14, as stated, fails for an `equal` that is not reflexive: with the
function that always answers `false`, `DistinctBy` keeps the one element of
`[1]`, and no element `w` of the result has `equal(1, w)`. -/
theorem DistinctBy_needs_reflexive :
    DistinctBy [(1 : Nat)] (fun _ _ => false) = [1] ∧
    ¬ ∃ w ∈ DistinctBy [(1 : Nat)] (fun _ _ => false), (fun _ _ : Nat => false) 1 w = true := by
  refine ⟨by decide, ?_⟩
  intro ⟨w, _, h⟩
  cases h

/-- C14, amended: for every slice and every function `equal`, `DistinctBy`
returns a subsequence of the slice (the elements at increasing positions
`is`), no later element of which has `equal` with an earlier one, and every
element `v` of the slice is kept itself or has an earlier kept element `w`
with `equal(v, w)`; when `equal(v, v)` holds, some kept `w` that precedes or
is `v` has `equal(v, w)`. -/
theorem DistinctBy_unique_subsequence {α : Type} (equal : α → α → Bool) (s : List α) :
    List.Sublist (DistinctBy s equal) s ∧
    (∀ (i j : Nat) (x y : α), i < j → (DistinctBy s equal)[i]? = some x →
      (DistinctBy s equal)[j]? = some y → equal y x = false) ∧
    ∃ is : List Nat, List.Pairwise (fun i j => i < j) is ∧
      (DistinctBy s equal).map some = is.map (fun i => s[i]?) ∧
      (∀ (k : Nat) (v : α), s[k]? = some v →
        (k ∈ is ∨ ∃ j ∈ is, j < k ∧ ∃ w, s[j]? = some w ∧ equal v w = true) ∧
        (equal v v = true → ∃ j ∈ is, j ≤ k ∧ ∃ w, s[j]? = some w ∧ equal v w = true)) := by
  obtain ⟨t, ht, he⟩ := DistinctBy_loop_sublist equal s []
  obtain ⟨is, hlt, hmap, huniq, hcov⟩ := DistinctBy_loop_spec equal s s [] [] [] rfl
    List.Pairwise.nil (by simp) rfl List.Pairwise.nil (by intro k v hk; simp at hk)
  refine ⟨?_, ?_, is, hlt, hmap, ?_⟩
  · unfold DistinctBy
    rw [he]
    simpa using ht
  · intro i j x y hij hx hy
    have := List.pairwise_iff_getElem.mp huniq i j (List.getElem?_eq_some.mp hx).1
      (List.getElem?_eq_some.mp hy).1 hij
    obtain ⟨_, hx'⟩ := List.getElem?_eq_some.mp hx
    obtain ⟨_, hy'⟩ := List.getElem?_eq_some.mp hy
    unfold DistinctBy at hx' hy'
    rw [hx', hy'] at this
    exact this
  · intro k v hk
    refine ⟨hcov k v hk, ?_⟩
    intro hrefl
    rcases hcov k v hk with h | ⟨j, hj, hjk, h⟩
    · exact ⟨k, h, Nat.le_refl _, v, hk, hrefl⟩
    · exact ⟨j, hj, by omega, h⟩

theorem DistinctBy_unique_subsequence_witness :
    DistinctBy [(1, 0), (2, 1), (1, 2), (3, 3), (2, 4)]
        (fun a b : Nat × Nat => decide (a.1 = b.1)) = [(1, 0), (2, 1), (3, 3)] ∧
    List.Sublist (DistinctBy [(1, 0), (2, 1), (1, 2), (3, 3), (2, 4)]
        (fun a b : Nat × Nat => decide (a.1 = b.1)))
      [(1, 0), (2, 1), (1, 2), (3, 3), (2, 4)] :=
  ⟨by decide, (DistinctBy_unique_subsequence (fun a b : Nat × Nat => decide (a.1 = b.1))
    [(1, 0), (2, 1), (1, 2), (3, 3), (2, 4)]).1⟩


/-! ## Stability of insertion sort -/

theorem swap_adjacent {α : Type} {m r : List α} {j : Nat} {x y : α}
    (hs : swap m (j + 1) j = Except.ok r) (hx : m[j + 1]? = some x) (hy : m[j]? = some y) :
    m = m.take j ++ y :: x :: m.drop (j + 2) ∧ r = m.take j ++ x :: y :: m.drop (j + 2) := by
  obtain ⟨hlen, hget⟩ := swap_spec hs
  have hj1 : j + 1 < m.length := (List.getElem?_eq_some.mp hx).1
  have htl : (m.take j).length = j := by rw [List.length_take]; omega
  constructor
  · apply List.ext_getElem?
    intro k
    by_cases hk : k < j
    · rw [List.getElem?_append_left (by omega), List.getElem?_take_of_lt hk]
    · rw [List.getElem?_append_right (by omega), htl]
      by_cases hk0 : k = j
      · subst hk0
        simp [hy]
      · by_cases hk1 : k = j + 1
        · subst hk1
          simp [hx]
        · obtain ⟨d, hd⟩ : ∃ d, k = j + 2 + d := ⟨k - (j + 2), by omega⟩
          subst hd
          rw [show j + 2 + d - j = d + 2 by omega]
          simp [List.getElem?_drop]
  · apply List.ext_getElem?
    intro k
    rw [hget]
    by_cases hk : k < j
    · rw [if_neg (by omega), if_neg (by omega), List.getElem?_append_left (by omega),
        List.getElem?_take_of_lt hk]
    · rw [List.getElem?_append_right (by omega), htl]
      by_cases hk0 : k = j
      · subst hk0
        simp [hx]
      · by_cases hk1 : k = j + 1
        · subst hk1
          simp [hy]
        · obtain ⟨d, hd⟩ : ∃ d, k = j + 2 + d := ⟨k - (j + 2), by omega⟩
          subst hd
          rw [if_neg (by omega), if_neg (by omega), show j + 2 + d - j = d + 2 by omega]
          simp [List.getElem?_drop]

theorem filter_swap_adjacent {α : Type} (P : α → Bool) (pre post : List α) (x y : α)
    (h : ¬ (P x = true ∧ P y = true)) :
    (pre ++ x :: y :: post).filter P = (pre ++ y :: x :: post).filter P := by
  rw [List.filter_append, List.filter_append]
  congr 1
  cases hx : P x <;> cases hy : P y <;> simp [List.filter_cons, hx, hy]
  exact absurd ⟨hx, hy⟩ h

theorem AdjSwaps.append {α : Type} {less : α → α → Bool} {l m r : List α}
    (h1 : AdjSwaps less l m) (h2 : AdjSwaps less m r) : AdjSwaps less l r := by
  induction h2 with
  | refl => exact h1
  | step _ hx hy hlt hs ih => exact AdjSwaps.step ih hx hy hlt hs

theorem AdjSwaps.same_length {α : Type} {less : α → α → Bool} {l r : List α}
    (h : AdjSwaps less l r) : r.length = l.length := by
  induction h with
  | refl => rfl
  | step _ _ _ _ hs ih => rw [(swap_spec hs).1, ih]

theorem AdjSwaps.filter_eq {α : Type} {less : α → α → Bool} {l r : List α}
    (h : AdjSwaps less l r) (P : α → Bool)
    (hP : ∀ u v, less u v = true → ¬ (P u = true ∧ P v = true)) :
    r.filter P = l.filter P := by
  induction h with
  | refl => rfl
  | step _ hx hy hlt hs ih =>
    obtain ⟨hm, hr⟩ := swap_adjacent hs hx hy
    rw [← ih, hr]
    conv => rhs; rw [hm]
    exact filter_swap_adjacent P _ _ _ _ (hP _ _ hlt)

theorem insertionSort_inner_adj {α : Type} (less : α → α → Bool) (a : Nat) :
    ∀ (j : Nat) (l : List α), j < l.length →
    ∃ r, insertionSort.inner less a j l = Except.ok r ∧ AdjSwaps less l r := by
  intro j
  induction j with
  | zero =>
    intro l _
    exact ⟨l, rfl, AdjSwaps.refl l⟩
  | succ j ih =>
    intro l hj
    rw [insertionSort.inner]
    by_cases hgt : j + 1 > a
    · obtain ⟨x, hx, hx'⟩ := index_lt hj
      obtain ⟨y, hy, hy'⟩ := index_lt (show j < l.length by omega)
      simp only [hgt, if_true, hx', hy', ok_bind]
      by_cases hlt : less x y = true
      · obtain ⟨l', hs, hlen, _⟩ := swap_ok hj (show j < l.length by omega)
        obtain ⟨r, hr, hadj⟩ := ih l' (by omega)
        simp only [hlt, if_true, hs, ok_bind]
        exact ⟨r, hr, (AdjSwaps.step (AdjSwaps.refl l) hx hy hlt hs).append hadj⟩
      · simp only [hlt, if_false, pure_eq_ok]
        exact ⟨l, rfl, AdjSwaps.refl l⟩
    · simp only [hgt, if_false, pure_eq_ok]
      exact ⟨l, rfl, AdjSwaps.refl l⟩

theorem insertionSort_outer_adj {α : Type} (less : α → α → Bool) (a b : Nat) :
    ∀ (fuel i : Nat) (l : List α), b ≤ l.length → b ≤ fuel + i →
    ∃ r, insertionSort.outer less a b fuel i l = Except.ok r ∧ AdjSwaps less l r := by
  intro fuel
  induction fuel with
  | zero =>
    intro i l _ hf
    rw [insertionSort.outer, if_neg (by omega)]
    exact ⟨l, rfl, AdjSwaps.refl l⟩
  | succ f ih =>
    intro i l hb hf
    rw [insertionSort.outer]
    by_cases hib : i < b
    · obtain ⟨r1, h1, hadj1⟩ := insertionSort_inner_adj less a i l (by omega)
      obtain ⟨r, h2, hadj2⟩ := ih (i + 1) r1 (by rw [hadj1.same_length]; exact hb) (by omega)
      simp only [hib, if_true, h1, ok_bind]
      exact ⟨r, h2, hadj1.append hadj2⟩
    · simp only [hib, if_false, pure_eq_ok]
      exact ⟨l, rfl, AdjSwaps.refl l⟩

theorem insertionSort_adj {α : Type} (less : α → α → Bool) (l : List α) (a b : Nat)
    (hb : b ≤ l.length) :
    ∃ r, insertionSort less l a b = Except.ok r ∧ AdjSwaps less l r := by
  unfold insertionSort
  exact insertionSort_outer_adj less a b (b - a) (a + 1) l hb (by omega)

theorem equivalent_not_both {α : Type} {less : α → α → Bool} (hswo : StrictWeakOrder less)
    (x u v : α) (hlt : less u v = true) :
    ¬ ((!less x u && !less u x) = true ∧ (!less x v && !less v x) = true) := by
  intro ⟨hu, hv⟩
  simp only [Bool.and_eq_true, Bool.not_eq_true'] at hu hv
  have := (hswo.incomp_trans u x v hu.2 hu.1 hv.1 hv.2).1
  rw [hlt] at this
  cases this

/-- C20: `insertionSort` is stable.  For every range `[a, b)` inside the
slice, every strict weak ordering and every element `x`, the elements of the
range that are equivalent to `x` (neither less than the other) appear in the
output range in the same order as in the input range; so `SortBy` is stable
on every slice of at most 7 elements. -/
theorem insertionSort_stable {α : Type} (less : α → α → Bool) (hswo : StrictWeakOrder less)
    (l : List α) (a b : Nat) (hab : a ≤ b) (hb : b ≤ l.length) :
    (∃ r, insertionSort less l a b = Except.ok r ∧
      ∀ x, (slice r a b).filter (fun y => !less x y && !less y x) =
        (slice l a b).filter (fun y => !less x y && !less y x)) ∧
    (l.length ≤ 7 → ∃ r, SortBy less l = Except.ok r ∧
      ∀ x, r.filter (fun y => !less x y && !less y x) =
        l.filter (fun y => !less x y && !less y x)) := by
  constructor
  · obtain ⟨r, hr, hadj⟩ := insertionSort_adj less l a b hb
    obtain ⟨r', hr', hsh, _⟩ := insertionSort_spec (compat_trivial less) l a b hb
    rw [hr] at hr'
    cases hr'
    refine ⟨r, hr, ?_⟩
    intro x
    have hf := hadj.filter_eq (fun y => !less x y && !less y x)
      (fun u v hlt => equivalent_not_both hswo x u v hlt)
    obtain ⟨ht, hd⟩ := hsh.frame
    rw [split_slice r a b, split_slice l a b, ht, show a + (b - a) = b by omega, hd,
      List.filter_append, List.filter_append, List.filter_append, List.filter_append] at hf
    exact List.append_cancel_right (List.append_cancel_left hf)
  · intro h7
    obtain ⟨r, hr, hadj⟩ := insertionSort_adj less l 0 l.length (Nat.le_refl _)
    refine ⟨r, by rw [SortBy_of_short less l h7, hr], ?_⟩
    intro x
    exact hadj.filter_eq (fun y => !less x y && !less y x)
      (fun u v hlt => equivalent_not_both hswo x u v hlt)

theorem insertionSort_stable_witness :
    StrictWeakOrder lessKey ∧
    insertionSort lessKey [(9, 0), (2, 1), (1, 2), (2, 3), (0, 4), (1, 5), (7, 6)] 1 6 =
      Except.ok [(9, 0), (0, 4), (1, 2), (1, 5), (2, 1), (2, 3), (7, 6)] ∧
    (∃ r, insertionSort lessKey [(9, 0), (2, 1), (1, 2), (2, 3), (0, 4), (1, 5), (7, 6)] 1 6 =
        Except.ok r ∧
      ∀ x, (slice r 1 6).filter (fun y => !lessKey x y && !lessKey y x) =
        (slice [(9, 0), (2, 1), (1, 2), (2, 3), (0, 4), (1, 5), (7, 6)] 1 6).filter
          (fun y => !lessKey x y && !lessKey y x)) ∧
    ∃ r, SortBy lessKey [(9, 0), (2, 1), (1, 2), (2, 3), (0, 4), (1, 5), (7, 6)] =
        Except.ok r ∧
      ∀ x, r.filter (fun y => !lessKey x y && !lessKey y x) =
        [(9, 0), (2, 1), (1, 2), (2, 3), (0, 4), (1, 5), (7, 6)].filter
          (fun y => !lessKey x y && !lessKey y x) :=
  ⟨lessKey_strictWeakOrder, by decide!,
    (insertionSort_stable lessKey lessKey_strictWeakOrder
      [(9, 0), (2, 1), (1, 2), (2, 3), (0, 4), (1, 5), (7, 6)] 1 6 (by decide) (by decide)).1,
    (insertionSort_stable lessKey lessKey_strictWeakOrder
      [(9, 0), (2, 1), (1, 2), (2, 3), (0, 4), (1, 5), (7, 6)] 1 6 (by decide) (by decide)).2
      (by decide)⟩


/-! ## The partition with arbitrary zone predicates -/

theorem doPivot_scanUp_zones {α : Type} {lt : α → α → Bool} {L E G : α → Prop}
    (lo c : Nat) (p : α) (hz : Zones lt p L E G) : ∀ (fuel : Nat) (l : List α) (a b : Nat),
    lo < a → a ≤ b → b ≤ c → c ≤ l.length → c - b ≤ fuel → l[lo]? = some p →
    AllOn E l lo a → AllOn L l a b →
    ∃ r a' b', doPivot.scanUp lt lo c fuel l a b = Except.ok (r, a', b') ∧ Shuf a b' l r ∧
      a ≤ a' ∧ a' ≤ b' ∧ b ≤ b' ∧ b' ≤ c ∧
      AllOn E r lo a' ∧ AllOn L r a' b' ∧
      (b' = c ∨ ∃ x, r[b']? = some x ∧ lt p x = true) := by
  intro fuel
  induction fuel with
  | zero =>
    intro l a b _ hab hbc _ hf _ hE hL
    rw [doPivot.scanUp, if_neg (by omega)]
    exact ⟨l, a, b, rfl, Shuf.refl l, Nat.le_refl _, hab, Nat.le_refl _, hbc, hE, hL,
      Or.inl (by omega)⟩
  | succ f ih =>
    intro l a b hlo hab hbc hlen hf hp hE hL
    rw [doPivot.scanUp]
    by_cases hlt : b < c
    · obtain ⟨x, hx, hx'⟩ := index_lt (show b < l.length by omega)
      simp only [hlt, if_true, hx', index_ok hp, ok_bind]
      by_cases h1 : lt x p = true
      · have hL' : AllOn L l a (b + 1) := by
          intro k hk1 hk2 u hu
          by_cases hkb : k = b
          · subst hkb
            rw [hx] at hu
            cases hu
            exact hz.low _ h1
          · exact hL k hk1 (by omega) u hu
        obtain ⟨r, a', b', hr, hsh, h2, h3, h4, h5, h6, h7, h8⟩ :=
          ih l a (b + 1) hlo (by omega) (by omega) hlen (by omega) hp hE hL'
        simp only [h1, if_true]
        exact ⟨r, a', b', hr, hsh, h2, h3, by omega, h5, h6, h7, h8⟩
      · have h1' : lt x p = false := by simpa using h1
        by_cases h2 : lt p x = true
        · simp only [h1', h2, Bool.false_eq_true, if_false, Bool.not_true, pure_eq_ok]
          exact ⟨l, a, b, rfl, Shuf.refl l, Nat.le_refl _, hab, Nat.le_refl _, hbc, hE, hL,
            Or.inr ⟨x, hx, h2⟩⟩
        · have h2' : lt p x = false := by simpa using h2
          obtain ⟨l', hs, hlen', hget⟩ := swap_ok (show a < l.length by omega)
            (show b < l.length by omega)
          simp only [h1', h2', Bool.false_eq_true, if_false, Bool.not_false, if_true, hs,
            ok_bind]
          have hxE : E x := hz.mid _ h1' h2'
          have hp' : l'[lo]? = some p := by
            rw [hget, if_neg (by omega), if_neg (by omega)]
            exact hp
          have hE' : AllOn E l' lo (a + 1) := by
            intro k hk1 hk2 u hu
            rw [hget] at hu
            by_cases hka : k = a
            · by_cases hkb : k = b
              · rw [if_pos hkb, show a = b by omega, hx] at hu
                cases hu
                exact hxE
              · rw [if_neg hkb, if_pos hka, hx] at hu
                cases hu
                exact hxE
            · rw [if_neg (by omega), if_neg hka] at hu
              exact hE k hk1 (by omega) u hu
          have hL' : AllOn L l' (a + 1) (b + 1) := by
            intro k hk1 hk2 u hu
            rw [hget] at hu
            by_cases hkb : k = b
            · rw [if_pos hkb] at hu
              exact hL a (Nat.le_refl _) (by omega) u hu
            · rw [if_neg hkb, if_neg (by omega)] at hu
              exact hL k (by omega) (by omega) u hu
          obtain ⟨r, a', b', hr, hsh, h3, h4, h5, h6, h7, h8, h9⟩ :=
            ih l' (a + 1) (b + 1) (by omega) (by omega) (by omega) (by omega) (by omega)
              hp' hE' hL'
          refine ⟨r, a', b', hr, ?_, by omega, h4, by omega, h6, h7, h8, h9⟩
          exact (Shuf.of_swap (Nat.le_refl _) (by omega) (by omega) (by omega) hs).trans
            (hsh.mono (by omega) (Nat.le_refl _))
    · simp only [hlt, if_false, pure_eq_ok]
      exact ⟨l, a, b, rfl, Shuf.refl l, Nat.le_refl _, hab, Nat.le_refl _, hbc, hE, hL,
        Or.inl (by omega)⟩

theorem doPivot_scanDown_zones {α : Type} {lt : α → α → Bool} {L E G : α → Prop}
    (lo b hi : Nat) (p : α) (hz : Zones lt p L E G) : ∀ (fuel : Nat) (l : List α) (c d : Nat),
    lo < b → b ≤ c → c ≤ d → d ≤ hi → hi ≤ l.length → c - b ≤ fuel → l[lo]? = some p →
    AllOn G l c d → AllOn E l d hi →
    ∃ r c' d', doPivot.scanDown lt lo b fuel l c d = Except.ok (r, c', d') ∧ Shuf c' d l r ∧
      b ≤ c' ∧ c' ≤ c ∧ c' ≤ d' ∧ d' ≤ d ∧
      AllOn G r c' d' ∧ AllOn E r d' hi ∧
      (c' = b ∨ ∃ y, r[c' - 1]? = some y ∧ lt p y = false ∧ lt y p = true) := by
  intro fuel
  induction fuel with
  | zero =>
    intro l c d _ hbc hcd hdh _ hf _ hG hE
    rw [doPivot.scanDown, if_neg (by omega)]
    exact ⟨l, c, d, rfl, Shuf.refl l, hbc, Nat.le_refl _, hcd, Nat.le_refl _, hG, hE,
      Or.inl (by omega)⟩
  | succ f ih =>
    intro l c d hlo hbc hcd hdh hlen hf hp hG hE
    rw [doPivot.scanDown]
    by_cases hlt : b < c
    · obtain ⟨x, hx, hx'⟩ := index_lt (show c - 1 < l.length by omega)
      simp only [hlt, if_true, hx', index_ok hp, ok_bind]
      by_cases h1 : lt p x = true
      · have hG' : AllOn G l (c - 1) d := by
          intro k hk1 hk2 u hu
          by_cases hkc : k = c - 1
          · subst hkc
            rw [hx] at hu
            cases hu
            exact hz.high _ h1
          · exact hG k (by omega) hk2 u hu
        obtain ⟨r, c', d', hr, hsh, h2, h3, h4, h5, h6, h7, h8⟩ :=
          ih l (c - 1) d hlo (by omega) (by omega) hdh hlen (by omega) hp hG' hE
        simp only [h1, if_true]
        exact ⟨r, c', d', hr, hsh, h2, by omega, h4, h5, h6, h7, h8⟩
      · have h1' : lt p x = false := by simpa using h1
        by_cases h2 : lt x p = true
        · simp only [h1', h2, Bool.false_eq_true, if_false, Bool.not_true, pure_eq_ok]
          exact ⟨l, c, d, rfl, Shuf.refl l, hbc, Nat.le_refl _, hcd, Nat.le_refl _, hG, hE,
            Or.inr ⟨x, hx, h1', h2⟩⟩
        · have h2' : lt x p = false := by simpa using h2
          obtain ⟨l', hs, hlen', hget⟩ := swap_ok (show c - 1 < l.length by omega)
            (show d - 1 < l.length by omega)
          simp only [h1', h2', Bool.false_eq_true, if_false, Bool.not_false, if_true, hs,
            ok_bind]
          have hxE : E x := hz.mid _ h2' h1'
          have hp' : l'[lo]? = some p := by
            rw [hget, if_neg (by omega), if_neg (by omega)]
            exact hp
          have hG' : AllOn G l' (c - 1) (d - 1) := by
            intro k hk1 hk2 u hu
            rw [hget, if_neg (by omega)] at hu
            by_cases hkc : k = c - 1
            · rw [if_pos hkc] at hu
              exact hG (d - 1) (by omega) (by omega) u hu
            · rw [if_neg hkc] at hu
              exact hG k (by omega) (by omega) u hu
          have hE' : AllOn E l' (d - 1) hi := by
            intro k hk1 hk2 u hu
            rw [hget] at hu
            by_cases hkd : k = d - 1
            · rw [if_pos hkd, hx] at hu
              cases hu
              exact hxE
            · rw [if_neg hkd, if_neg (by omega)] at hu
              exact hE k (by omega) hk2 u hu
          obtain ⟨r, c', d', hr, hsh, h3, h4, h5, h6, h7, h8, h9⟩ :=
            ih l' (c - 1) (d - 1) hlo (by omega) (by omega) (by omega) (by omega) (by omega)
              hp' hG' hE'
          refine ⟨r, c', d', hr, ?_, h3, by omega, h5, by omega, h7, h8, h9⟩
          exact (Shuf.of_swap (by omega) (by omega) (by omega) (by omega) hs).trans
            (hsh.mono (Nat.le_refl _) (by omega))
    · simp only [hlt, if_false, pure_eq_ok]
      exact ⟨l, c, d, rfl, Shuf.refl l, hbc, Nat.le_refl _, hcd, Nat.le_refl _, hG, hE,
        Or.inl (by omega)⟩

theorem doPivot_loop_zones {α : Type} {lt : α → α → Bool} {L E G : α → Prop}
    (lo hi : Nat) (p : α) (hz : Zones lt p L E G) :
    ∀ (fuel : Nat) (l : List α) (a b c d : Nat),
    lo < a → a ≤ b → b ≤ c → c ≤ d → d ≤ hi → hi ≤ l.length → c - b + 1 ≤ 2 * fuel →
    l[lo]? = some p →
    AllOn E l lo a → AllOn L l a b →
    AllOn G l c d → AllOn E l d hi →
    ∃ r a' b' c' d', doPivot.loop lt lo fuel l a b c d = Except.ok (r, a', b', c', d') ∧
      Shuf (lo + 1) hi l r ∧ lo < a' ∧ a' ≤ b' ∧ b' = c' ∧ c' ≤ d' ∧ d' ≤ hi ∧
      AllOn E r lo a' ∧ AllOn L r a' b' ∧
      AllOn G r c' d' ∧ AllOn E r d' hi := by
  intro fuel
  induction fuel with
  | zero =>
    intro l a b c d _ _ _ _ _ _ hf
    omega
  | succ f ih =>
    intro l a b c d hlo hab hbc hcd hdh hlen hf hp hE1 hL hG hE2
    rw [doPivot.loop]
    obtain ⟨l1, a1, b1, h1, hsh1, ha1, hab1, hb1, hbc1, hE1', hL', hstop1⟩ :=
      doPivot_scanUp_zones lo c p hz (c - b) l a b hlo hab hbc (by omega) (Nat.le_refl _) hp
        hE1 hL
    have hlen1 : l1.length = l.length := hsh1.length_eq
    have hp1 : l1[lo]? = some p := by rw [hsh1.outside lo (by omega)]; exact hp
    obtain ⟨l2, c1, d1, h2, hsh2, hbc2, hc1, hcd1, hd1, hG', hE2', hstop2⟩ :=
      doPivot_scanDown_zones lo b1 hi p hz (c - b1) l1 c d (by omega) hbc1 hcd hdh
        (by omega) (Nat.le_refl _) hp1
        (hsh1.allOn_of_disjoint (Or.inr hbc1) hG)
        (hsh1.allOn_of_disjoint (Or.inr (by omega)) hE2)
    have hlen2 : l2.length = l1.length := hsh2.length_eq
    have hp2 : l2[lo]? = some p := by rw [hsh2.outside lo (by omega)]; exact hp1
    have hE1'' := hsh2.allOn_of_disjoint (Or.inl (by omega)) hE1'
    have hL'' := hsh2.allOn_of_disjoint (Or.inl hbc2) hL'
    simp only [h1, h2, ok_bind]
    by_cases hge : b1 ≥ c1
    · simp only [hge, if_true, pure_eq_ok]
      exact ⟨l2, a1, b1, c1, d1, rfl,
        (hsh1.mono (by omega) (by omega)).trans (hsh2.mono (by omega) (by omega)),
        by omega, hab1, by omega, hcd1, by omega, hE1'', hL'', hG', hE2'⟩
    · obtain ⟨x, hx, hpx⟩ : ∃ x, l1[b1]? = some x ∧ lt p x = true := by
        rcases hstop1 with h | h
        · omega
        · exact h
      obtain ⟨y, hy, hpy, hyp⟩ : ∃ y, l2[c1 - 1]? = some y ∧ lt p y = false ∧ lt y p = true := by
        rcases hstop2 with h | h
        · omega
        · exact h
      have hx2 : l2[b1]? = some x := by rw [hsh2.outside b1 (by omega)]; exact hx
      have hne : b1 ≠ c1 - 1 := by
        intro e
        rw [e, hy] at hx2
        cases hx2
        rw [hpx] at hpy
        cases hpy
      obtain ⟨l3, hs, hlen3, hget⟩ := swap_ok (show b1 < l2.length by omega)
        (show c1 - 1 < l2.length by omega)
      have hp3 : l3[lo]? = some p := by
        rw [hget, if_neg (by omega), if_neg (by omega)]
        exact hp2
      have hE13 : AllOn E l3 lo a1 := by
        intro k hk1 hk2 u hu
        rw [hget, if_neg (by omega), if_neg (by omega)] at hu
        exact hE1'' k hk1 hk2 u hu
      have hL3 : AllOn L l3 a1 (b1 + 1) := by
        intro k hk1 hk2 u hu
        rw [hget, if_neg (by omega)] at hu
        by_cases hkb : k = b1
        · rw [if_pos hkb, hy] at hu
          cases hu
          exact hz.low _ hyp
        · rw [if_neg hkb] at hu
          exact hL'' k hk1 (by omega) u hu
      have hG3 : AllOn G l3 (c1 - 1) d1 := by
        intro k hk1 hk2 u hu
        rw [hget] at hu
        by_cases hkc : k = c1 - 1
        · rw [if_pos hkc, hx2] at hu
          cases hu
          exact hz.high _ hpx
        · rw [if_neg hkc, if_neg (by omega)] at hu
          exact hG' k (by omega) hk2 u hu
      have hE23 : AllOn E l3 d1 hi := by
        intro k hk1 hk2 u hu
        rw [hget, if_neg (by omega), if_neg (by omega)] at hu
        exact hE2' k hk1 hk2 u hu
      obtain ⟨r, a', b', c', d', hr, hsh, q1, q2, q3, q4, q5, q6, q7, q8, q9⟩ :=
        ih l3 a1 (b1 + 1) (c1 - 1) d1 (by omega) (by omega) (by omega) (by omega) (by omega)
          (by omega) (by omega) hp3 hE13 hL3 hG3 hE23
      simp only [hge, if_false, hs, ok_bind]
      refine ⟨r, a', b', c', d', hr, ?_, q1, q2, q3, q4, q5, q6, q7, q8, q9⟩
      exact (((hsh1.mono (by omega) (by omega)).trans (hsh2.mono (by omega) (by omega))).trans
        (Shuf.of_swap (by omega) (by omega) (by omega) (by omega) hs)).trans hsh

theorem doPivot_zones {α : Type} {lt : α → α → Bool} {L E G : α → α → Prop}
    (hz : ∀ p, Zones lt p (L p) (E p) (G p)) (l : List α) (lo hi : Nat) (hlt : lo < hi)
    (hlen : hi ≤ l.length) :
    ∃ r mlo mhi p, doPivot lt l lo hi = Except.ok (r, mlo, mhi) ∧ Shuf lo hi l r ∧
      lo ≤ mlo ∧ mlo < mhi ∧ mhi ≤ hi ∧ p ∈ slice l lo hi ∧
      AllOn (L p) r lo mlo ∧ AllOn (E p) r mlo mhi ∧
      AllOn (G p) r mhi hi := by
  unfold doPivot
  obtain ⟨l0, h0, s0⟩ := doPivot_ninther_spec lt l lo hi hlen
  obtain ⟨l1, h1, s1⟩ := medianOfThree_spec lt l0 lo hi lo
    (lo + (hi - lo) / 2) (hi - 1)
    (Nat.le_refl _) hlt (by omega) (by omega) (by omega) (by omega)
    (by rw [s0.length_eq]; exact hlen)
  have hlen1 : l1.length = l.length := by rw [s1.length_eq, s0.length_eq]
  obtain ⟨p, hp, _⟩ := index_lt (show lo < l1.length by omega)
  obtain ⟨l2, a, b, c, d, h2, s2, ha, hab, hbc, hcd, hdh, hE1, hL, hG, hE2⟩ :=
    doPivot_loop_zones lo hi p (hz p) (hi - lo) l1 (lo + 1) (lo + 1) hi hi (by omega)
      (Nat.le_refl _) (by omega) (Nat.le_refl _) (Nat.le_refl _) (by omega) (by omega) hp
      (by
        intro k hk1 hk2 u hu
        have : k = lo := by omega
        subst this
        rw [hp] at hu
        cases hu
        exact (hz p).pivot)
      (by intro k hk1 hk2; omega) (by intro k hk1 hk2; omega) (by intro k hk1 hk2; omega)
  have hlen2 : l2.length = l.length := by rw [s2.length_eq, hlen1]
  subst hbc
  obtain ⟨n1, hn1⟩ : ∃ n1, n1 = min (b - a) (a - lo) := ⟨_, rfl⟩
  obtain ⟨n2, hn2⟩ : ∃ n2, n2 = min (hi - d) (d - b) := ⟨_, rfl⟩
  obtain ⟨l3, h3, s3, hget3⟩ := swapRange_spec l2 lo hi lo (b - n1) n1
    (Nat.le_refl _) (by omega) (by omega) (by omega)
  obtain ⟨l4, h4, s4, hget4⟩ := swapRange_spec l3 lo hi b (hi - n2) n2
    (by omega) (by omega) (by omega) (by rw [s3.length_eq]; omega)
  simp only [h0, h1, h2, ok_bind, ← hn1, ← hn2, h3, h4, pure_eq_ok]
  refine ⟨l4, lo + b - a, hi - (d - b), p, rfl,
    (((s0.trans s1).trans (s2.mono (by omega) (Nat.le_refl _))).trans s3).trans s4,
    by omega, by omega, by omega, ?_, ?_, ?_, ?_⟩
  · have hp0 : (slice l1 lo hi)[0]? = some p := by
      rw [getElem?_slice, if_pos (by omega)]
      exact hp
    exact ((s0.trans s1).slice_perm (by omega)).subset (mem_of_pos hp0)
  · intro k hk1 hk2 u hu
    rw [hget4, if_neg (by omega), if_neg (by omega), hget3] at hu
    split_ifs at hu
    · exact hL _ (by omega) (by omega) u hu
    · omega
    · exact hL _ (by omega) (by omega) u hu
  · intro k hk1 hk2 u hu
    rw [hget4] at hu
    split_ifs at hu
    · rw [hget3, if_neg (by omega), if_neg (by omega)] at hu
      exact hE2 _ (by omega) (by omega) u hu
    · omega
    · rw [hget3] at hu
      split_ifs at hu
      · omega
      · exact hE1 _ (by omega) (by omega) u hu
      · by_cases hkb : k < b
        · exact hE1 _ (by omega) (by omega) u hu
        · exact hE2 _ (by omega) (by omega) u hu
  · intro k hk1 hk2 u hu
    rw [hget4] at hu
    split_ifs at hu
    · omega
    · rw [hget3, if_neg (by omega), if_neg (by omega)] at hu
      exact hG _ (by omega) (by omega) u hu
    · rw [hget3, if_neg (by omega), if_neg (by omega)] at hu
      exact hG _ (by omega) (by omega) u hu


/-! ## The sort driver -/


theorem zones_of_irrefl {α : Type} {less : α → α → Bool} (hirr : ∀ a, less a a = false)
    (p : α) : Zones less p (fun x => less x p = true)
      (fun x => less x p = false ∧ less p x = false) (fun x => less p x = true) where
  low := fun _ h => h
  mid := fun _ h1 h2 => ⟨h1, h2⟩
  high := fun _ h => h
  pivot := ⟨hirr p, hirr p⟩

/-- C15: for every range `[lo, hi)` inside the slice with `hi - lo > 7` and
every strict weak ordering, `doPivot` returns `(midlo, midhi)` and leaves the
range a permutation of its contents (the rest of the slice unchanged) such
that, for a value `p` of the range, every element of `[lo, midlo)` is less
than `p`, every element of `[midlo, midhi)` is equivalent to `p`, and every
element of `[midhi, hi)` is greater than `p`. -/
theorem doPivot_three_zones {α : Type} (less : α → α → Bool) (hswo : StrictWeakOrder less)
    (l : List α) (lo hi : Nat) (h7 : hi - lo > 7) (hlen : hi ≤ l.length) :
    ∃ r midlo midhi p, doPivot less l lo hi = Except.ok (r, midlo, midhi) ∧
      r.length = l.length ∧ List.Perm (slice r lo hi) (slice l lo hi) ∧
      (∀ k, k < lo ∨ hi ≤ k → r[k]? = l[k]?) ∧
      p ∈ slice l lo hi ∧ lo ≤ midlo ∧ midlo < midhi ∧ midhi ≤ hi ∧
      (∀ k x, lo ≤ k → k < midlo → r[k]? = some x → less x p = true) ∧
      (∀ k x, midlo ≤ k → k < midhi → r[k]? = some x →
        less x p = false ∧ less p x = false) ∧
      (∀ k x, midhi ≤ k → k < hi → r[k]? = some x → less p x = true) := by
  obtain ⟨r, mlo, mhi, p, hr, hsh, h1, h2, h3, hp, hL, hE, hG⟩ :=
    doPivot_zones (zones_of_irrefl hswo.irrefl) l lo hi (by omega) hlen
  exact ⟨r, mlo, mhi, p, hr, hsh.length_eq, hsh.slice_perm (by omega),
    fun k hk => hsh.outside k hk, hp, h1, h2, h3,
    fun k x hk1 hk2 hx => hL k hk1 hk2 x hx,
    fun k x hk1 hk2 hx => hE k hk1 hk2 x hx,
    fun k x hk1 hk2 hx => hG k hk1 hk2 x hx⟩

theorem doPivot_three_zones_witness :
    StrictWeakOrder lessKey ∧
    doPivot lessKey
        [(9, 0), (1, 1), (0, 2), (2, 3), (1, 4), (0, 5), (2, 6), (1, 7), (0, 8), (9, 9)] 1 9 =
      Except.ok
        ([(9, 0), (0, 8), (0, 2), (0, 5), (1, 4), (1, 1), (2, 6), (1, 7), (2, 3), (9, 9)],
          1, 4) ∧
    ∃ r midlo midhi p, doPivot lessKey
        [(9, 0), (1, 1), (0, 2), (2, 3), (1, 4), (0, 5), (2, 6), (1, 7), (0, 8), (9, 9)] 1 9 =
        Except.ok (r, midlo, midhi) ∧
      r.length =
        [(9, 0), (1, 1), (0, 2), (2, 3), (1, 4), (0, 5), (2, 6), (1, 7), (0, 8), (9, 9)].length ∧
      List.Perm (slice r 1 9) (slice
        [(9, 0), (1, 1), (0, 2), (2, 3), (1, 4), (0, 5), (2, 6), (1, 7), (0, 8), (9, 9)] 1 9) ∧
      (∀ k, k < 1 ∨ 9 ≤ k → r[k]? =
        [(9, 0), (1, 1), (0, 2), (2, 3), (1, 4), (0, 5), (2, 6), (1, 7), (0, 8), (9, 9)][k]?) ∧
      p ∈ slice
        [(9, 0), (1, 1), (0, 2), (2, 3), (1, 4), (0, 5), (2, 6), (1, 7), (0, 8), (9, 9)] 1 9 ∧
      1 ≤ midlo ∧ midlo < midhi ∧ midhi ≤ 9 ∧
      (∀ k x, 1 ≤ k → k < midlo → r[k]? = some x → lessKey x p = true) ∧
      (∀ k x, midlo ≤ k → k < midhi → r[k]? = some x →
        lessKey x p = false ∧ lessKey p x = false) ∧
      (∀ k x, midhi ≤ k → k < 9 → r[k]? = some x → lessKey p x = true) :=
  ⟨lessKey_strictWeakOrder, by decide!,
    doPivot_three_zones lessKey lessKey_strictWeakOrder
      [(9, 0), (1, 1), (0, 2), (2, 3), (1, 4), (0, 5), (2, 6), (1, 7), (0, 8), (9, 9)] 1 9
      (by decide) (by decide)⟩


/-! ## The instrumented sort driver -/

theorem map_ok {ε α β : Type} (f : α → β) (a : α) :
    Except.map f (Except.ok a : Except ε α) = Except.ok (f a) := rfl

theorem map_error {ε α β : Type} (f : α → β) (e : ε) :
    Except.map f (Except.error e : Except ε α) = Except.error e := rfl

theorem error_bind {ε α β : Type} (e : ε) (f : α → Except ε β) :
    (Except.error e >>= f) = Except.error e := rfl

theorem quickSort_counted_refines {α : Type} (less : α → α → Bool) :
    ∀ (maxDepth : Nat) (l : List α) (a b : Nat),
    quickSort less l a b maxDepth =
      Except.map Prod.fst (quickSort.counted less l a b maxDepth) := by
  intro maxDepth
  induction maxDepth with
  | zero =>
    intro l a b
    rw [quickSort, quickSort.counted]
    by_cases h7 : b - a > 7
    · simp only [h7, if_true]
      cases heapSort less l a b with
      | error e => rfl
      | ok r => rfl
    · simp only [h7, if_false]
      by_cases h1 : b - a > 1
      · simp only [h1, if_true]
        cases insertionSort less l a b with
        | error e => rfl
        | ok r => rfl
      · simp only [h1, if_false]
        rfl
  | succ d ih =>
    intro l a b
    rw [quickSort, quickSort.counted]
    by_cases h7 : b - a > 7
    · simp only [h7, if_true]
      cases doPivot less l a b with
      | error e => rfl
      | ok t =>
        obtain ⟨r1, mlo, mhi⟩ := t
        simp only [ok_bind]
        by_cases hsm : mlo - a < b - mhi
        · simp only [hsm, if_true]
          rw [ih r1 a mlo]
          cases quickSort.counted less r1 a mlo d with
          | error e => rfl
          | ok t2 =>
            obtain ⟨r2, p1, d1⟩ := t2
            simp only [map_ok, ok_bind]
            rw [ih r2 mhi b]
            cases quickSort.counted less r2 mhi b d with
            | error e => rfl
            | ok t3 => rfl
        · simp only [hsm, if_false]
          rw [ih r1 mhi b]
          cases quickSort.counted less r1 mhi b d with
          | error e => rfl
          | ok t2 =>
            obtain ⟨r2, p1, d1⟩ := t2
            simp only [map_ok, ok_bind]
            rw [ih r2 a mlo]
            cases quickSort.counted less r2 a mlo d with
            | error e => rfl
            | ok t3 => rfl
    · simp only [h7, if_false]
      by_cases h1 : b - a > 1
      · simp only [h1, if_true]
        cases insertionSort less l a b with
        | error e => rfl
        | ok r => rfl
      · simp only [h1, if_false]
        rfl

theorem quickSort_unfold {α : Type} (less : α → α → Bool) (l : List α) (a b maxDepth : Nat)
    (h7 : b - a > 7) :
    quickSort less l a b (maxDepth + 1) =
      (doPivot less l a b >>= fun t =>
        quickSort less t.1 (quickSort.recursed a b t.2.1 t.2.2).1
            (quickSort.recursed a b t.2.1 t.2.2).2 maxDepth >>= fun r =>
          quickSort less r (quickSort.continued a b t.2.1 t.2.2).1
            (quickSort.continued a b t.2.1 t.2.2).2 maxDepth) := by
  rw [quickSort]
  simp only [h7, if_true]
  cases doPivot less l a b with
  | error e => rfl
  | ok t =>
    obtain ⟨r1, mlo, mhi⟩ := t
    simp only [ok_bind, quickSort.recursed, quickSort.continued]
    by_cases hsm : mlo - a < b - mhi
    · simp only [hsm, if_true]
    · simp only [hsm, if_false]


theorem quickSort_counted_spec {α : Type} (less : α → α → Bool) :
    ∀ (maxDepth : Nat) (l : List α) (a b : Nat), a ≤ b → b ≤ l.length →
    ∃ r p n, quickSort.counted less l a b maxDepth = Except.ok (r, p, n) ∧ Shuf a b l r ∧
      (n = 0 ∨ 2 ^ n ≤ b - a) ∧ n ≤ maxDepth ∧ (b - a ≤ 7 → p = 0 ∧ n = 0) := by
  have hc := compat_trivial less
  intro maxDepth
  induction maxDepth with
  | zero =>
    intro l a b hab hb
    rw [quickSort.counted]
    by_cases h7 : b - a > 7
    · obtain ⟨r, hr, hsh, _⟩ := heapSort_spec hc l a b hab hb
      simp only [h7, if_true, hr, ok_bind, pure_eq_ok]
      exact ⟨r, 0, 0, rfl, hsh, Or.inl rfl, Nat.le_refl _, fun _ => ⟨rfl, rfl⟩⟩
    · simp only [h7, if_false]
      by_cases h1 : b - a > 1
      · obtain ⟨r, hr, hsh, _⟩ := insertionSort_spec hc l a b hb
        simp only [h1, if_true, hr, ok_bind, pure_eq_ok]
        exact ⟨r, 0, 0, rfl, hsh, Or.inl rfl, Nat.le_refl _, fun _ => ⟨rfl, rfl⟩⟩
      · simp only [h1, if_false, pure_eq_ok]
        exact ⟨l, 0, 0, rfl, Shuf.refl l, Or.inl rfl, Nat.le_refl _, fun _ => ⟨rfl, rfl⟩⟩
  | succ d ih =>
    intro l a b hab hb
    rw [quickSort.counted]
    by_cases h7 : b - a > 7
    · obtain ⟨l1, mlo, mhi, p, h1, s1, hm1, hm2, hm3, _⟩ := doPivot_spec hc l a b (by omega) hb
      have hlen1 : l1.length = l.length := s1.length_eq
      simp only [h7, if_true, h1, ok_bind]
      have hpow : ∀ (d1 d2 r1 r2 : Nat), (d1 = 0 ∨ 2 ^ d1 ≤ r1) → (d2 = 0 ∨ 2 ^ d2 ≤ r2) →
          2 * r1 ≤ b - a → r2 ≤ b - a → 2 ^ max (d1 + 1) d2 ≤ b - a := by
        intro d1 d2 r1 r2 hd1 hd2 hr1 hr2
        have h1' : 2 ^ (d1 + 1) ≤ b - a := by
          rw [Nat.pow_succ]
          rcases hd1 with hd1 | hd1
          · subst hd1
            simp
            omega
          · omega
        rcases Nat.le_total (d1 + 1) d2 with hmax | hmax
        · rw [Nat.max_eq_right hmax]
          rcases hd2 with hd2 | hd2
          · omega
          · omega
        · rw [Nat.max_eq_left hmax]
          exact h1'
      by_cases hsm : mlo - a < b - mhi
      · obtain ⟨l2, p1, d1, h2, s2, hd1, hle1, _⟩ := ih l1 a mlo hm1 (by omega)
        obtain ⟨l3, p2, d2, h3, s3, hd2, hle2, _⟩ := ih l2 mhi b hm3
          (by rw [s2.length_eq]; omega)
        simp only [hsm, if_true, h2, h3, ok_bind, pure_eq_ok]
        refine ⟨l3, 1 + p1 + p2, max (d1 + 1) d2, rfl,
          (s1.trans (s2.mono (Nat.le_refl _) (by omega))).trans
            (s3.mono (by omega) (Nat.le_refl _)),
          Or.inr (hpow d1 d2 (mlo - a) (b - mhi) hd1 hd2 (by omega) (by omega)),
          by omega, by omega⟩
      · obtain ⟨l2, p1, d1, h2, s2, hd1, hle1, _⟩ := ih l1 mhi b hm3 (by omega)
        obtain ⟨l3, p2, d2, h3, s3, hd2, hle2, _⟩ := ih l2 a mlo hm1
          (by rw [s2.length_eq]; omega)
        simp only [hsm, if_false, h2, h3, ok_bind, pure_eq_ok]
        refine ⟨l3, 1 + p1 + p2, max (d1 + 1) d2, rfl,
          (s1.trans (s2.mono (by omega) (Nat.le_refl _))).trans
            (s3.mono (Nat.le_refl _) (by omega)),
          Or.inr (hpow d1 d2 (b - mhi) (mlo - a) hd1 hd2 (by omega) (by omega)),
          by omega, by omega⟩
    · simp only [h7, if_false]
      by_cases h1 : b - a > 1
      · obtain ⟨r, hr, hsh, _⟩ := insertionSort_spec hc l a b hb
        simp only [h1, if_true, hr, ok_bind, pure_eq_ok]
        exact ⟨r, 0, 0, rfl, hsh, Or.inl rfl, Nat.zero_le _, fun _ => ⟨rfl, rfl⟩⟩
      · simp only [h1, if_false, pure_eq_ok]
        exact ⟨l, 0, 0, rfl, Shuf.refl l, Or.inl rfl, Nat.zero_le _, fun _ => ⟨rfl, rfl⟩⟩

theorem quickSort_counted_depth {α : Type} (less : α → α → Bool) (maxDepth : Nat)
    (l : List α) (a b : Nat) (hab : a ≤ b) (hb : b ≤ l.length) :
    ∃ r p n, quickSort.counted less l a b maxDepth = Except.ok (r, p, n) ∧
      quickSort less l a b maxDepth = Except.ok r ∧ n ≤ Nat.log 2 (b - a) := by
  obtain ⟨r, p, n, hr, _, hn, _, _⟩ := quickSort_counted_spec less maxDepth l a b hab hb
  refine ⟨r, p, n, hr, by rw [quickSort_counted_refines, hr]; rfl, ?_⟩
  rcases hn with hn | hn
  · omega
  · exact Nat.le_log_of_pow_le (by decide) hn

/-- C16: when `quickSort` partitions a range `[a, b)` with `b - a > 7` and
`maxDepth > 0`, its recursive call is on the smaller of the two sub-ranges
`[a, mlo)` and `[mhi, b)` and the loop goes on with the other one; the range
of the recursive call has at most `(b - a - 1) / 2` elements, less than half
of the range, for every comparator; and the nesting depth of the recursive
calls is at most `floor(log2(b - a))`, so at most `floor(log2(n))` in a sort
of `n` elements. -/
theorem quickSort_recurses_on_smaller {α : Type} (less : α → α → Bool) (l : List α)
    (a b maxDepth : Nat) (hab : a ≤ b) (hb : b ≤ l.length) :
    (b - a > 7 → quickSort less l a b (maxDepth + 1) =
      (doPivot less l a b >>= fun t =>
        quickSort less t.1 (quickSort.recursed a b t.2.1 t.2.2).1
            (quickSort.recursed a b t.2.1 t.2.2).2 maxDepth >>= fun r =>
          quickSort less r (quickSort.continued a b t.2.1 t.2.2).1
            (quickSort.continued a b t.2.1 t.2.2).2 maxDepth)) ∧
    (b - a > 7 → ∃ r mlo mhi, doPivot less l a b = Except.ok (r, mlo, mhi) ∧
      (quickSort.recursed a b mlo mhi = (a, mlo) ∧
          quickSort.continued a b mlo mhi = (mhi, b) ∧ mlo - a < b - mhi ∨
        quickSort.recursed a b mlo mhi = (mhi, b) ∧
          quickSort.continued a b mlo mhi = (a, mlo) ∧ b - mhi ≤ mlo - a) ∧
      (quickSort.recursed a b mlo mhi).2 - (quickSort.recursed a b mlo mhi).1 ≤
        (b - a - 1) / 2 ∧
      2 * ((quickSort.recursed a b mlo mhi).2 - (quickSort.recursed a b mlo mhi).1) <
        b - a) ∧
    (∃ r p n, quickSort.counted less l a b maxDepth = Except.ok (r, p, n) ∧
      quickSort less l a b maxDepth = Except.ok r ∧ n ≤ Nat.log 2 (b - a)) ∧
    (∃ d r p n, SortBy less l = quickSort less l 0 l.length d ∧
      quickSort.counted less l 0 l.length d = Except.ok (r, p, n) ∧
      SortBy less l = Except.ok r ∧ n ≤ Nat.log 2 l.length) := by
  refine ⟨quickSort_unfold less l a b maxDepth, ?_,
    quickSort_counted_depth less maxDepth l a b hab hb, ?_⟩
  · intro h7
    obtain ⟨r, mlo, mhi, _, h1, _, hm1, hm2, hm3, _⟩ :=
      doPivot_spec (compat_trivial less) l a b (by omega) hb
    refine ⟨r, mlo, mhi, h1, ?_⟩
    by_cases hsm : mlo - a < b - mhi
    · have e1 : quickSort.recursed a b mlo mhi = (a, mlo) := by
        unfold quickSort.recursed
        rw [if_pos hsm]
      have e2 : quickSort.continued a b mlo mhi = (mhi, b) := by
        unfold quickSort.continued
        rw [if_pos hsm]
      refine ⟨Or.inl ⟨e1, e2, hsm⟩, ?_, ?_⟩
      · rw [e1]
        show mlo - a ≤ (b - a - 1) / 2
        omega
      · rw [e1]
        show 2 * (mlo - a) < b - a
        omega
    · have e1 : quickSort.recursed a b mlo mhi = (mhi, b) := by
        unfold quickSort.recursed
        rw [if_neg hsm]
      have e2 : quickSort.continued a b mlo mhi = (a, mlo) := by
        unfold quickSort.continued
        rw [if_neg hsm]
      refine ⟨Or.inr ⟨e1, e2, by omega⟩, ?_, ?_⟩
      · rw [e1]
        show b - mhi ≤ (b - a - 1) / 2
        omega
      · rw [e1]
        show 2 * (b - mhi) < b - a
        omega
  · obtain ⟨k, hk⟩ := SortBy_depth_total l.length l.length 0 (Nat.le_refl _)
    obtain ⟨r, p, n, hr, hq, hn⟩ := quickSort_counted_depth less (k * 2) l 0 l.length
      (Nat.zero_le _) (Nat.le_refl _)
    have hs : SortBy less l = quickSort less l 0 l.length (k * 2) := by
      unfold SortBy
      simp only [hk, ok_bind]
    exact ⟨k * 2, r, p, n, hs, hr, by rw [hs, hq], hn⟩

theorem quickSort_recurses_on_smaller_witness :
    quickSort.counted natural
        [(9 : Int), 8, 7, 6, 5, 4, 3, 2, 1, 0, 19, 18, 17, 16, 15, 14, 13, 12, 11, 10] 0 20 10 =
      Except.ok ([0, 1, 2, 3, 4, 5, 6, 7, 8, 9, 10, 11, 12, 13, 14, 15, 16, 17, 18, 19], 3, 2) ∧
    ∃ r p n, quickSort.counted natural
        [(9 : Int), 8, 7, 6, 5, 4, 3, 2, 1, 0, 19, 18, 17, 16, 15, 14, 13, 12, 11, 10] 0 20 10 =
        Except.ok (r, p, n) ∧
      quickSort natural
        [(9 : Int), 8, 7, 6, 5, 4, 3, 2, 1, 0, 19, 18, 17, 16, 15, 14, 13, 12, 11, 10] 0 20 10 =
        Except.ok r ∧ n ≤ Nat.log 2 (20 - 0) :=
  ⟨by decide!, (quickSort_recurses_on_smaller natural
      [(9 : Int), 8, 7, 6, 5, 4, 3, 2, 1, 0, 19, 18, 17, 16, 15, 14, 13, 12, 11, 10] 0 20 10
      (by decide) (by decide)).2.2.1⟩


/-! ## Sorting elements that are all equivalent -/

theorem swap_self {α : Type} (l : List α) (a : Nat) (ha : a < l.length) :
    swap l a a = Except.ok l := by
  obtain ⟨r, hr, _, hget⟩ := swap_ok ha ha
  rw [hr]
  congr 1
  apply List.ext_getElem?
  intro k
  rw [hget]
  by_cases hk : k = a
  · rw [if_pos hk, hk]
  · rw [if_neg hk, if_neg hk]

theorem less_false_of_pos {α : Type} {less : α → α → Bool} {l : List α}
    (H : ∀ x ∈ l, ∀ y ∈ l, less x y = false) {i j : Nat} {x y : α}
    (hx : l[i]? = some x) (hy : l[j]? = some y) : less x y = false :=
  H x (mem_of_pos hx) y (mem_of_pos hy)

theorem medianOfThree_step_of_equivalent {α : Type} {less : α → α → Bool} {l : List α}
    (H : ∀ x ∈ l, ∀ y ∈ l, less x y = false) (i j : Nat) (hi : i < l.length)
    (hj : j < l.length) : medianOfThree.step less l i j = Except.ok l := by
  unfold medianOfThree.step
  obtain ⟨x, hx, hx'⟩ := index_lt hi
  obtain ⟨y, hy, hy'⟩ := index_lt hj
  simp only [hx', hy', ok_bind, less_false_of_pos H hx hy, Bool.false_eq_true, if_false,
    pure_eq_ok]

theorem medianOfThree_of_equivalent {α : Type} {less : α → α → Bool} {l : List α}
    (H : ∀ x ∈ l, ∀ y ∈ l, less x y = false) (a b c : Nat) (ha : a < l.length)
    (hb : b < l.length) (hc : c < l.length) : medianOfThree less l a b c = Except.ok l := by
  unfold medianOfThree
  simp only [medianOfThree_step_of_equivalent H a b ha hb,
    medianOfThree_step_of_equivalent H c a hc ha, ok_bind]

theorem doPivot_ninther_of_equivalent {α : Type} {less : α → α → Bool} {l : List α}
    (H : ∀ x ∈ l, ∀ y ∈ l, less x y = false) (lo hi : Nat) (hlt : lo < hi)
    (hlen : hi ≤ l.length) :
    doPivot.ninther less l lo hi (lo + (hi - lo) / 2) = Except.ok l := by
  unfold doPivot.ninther
  by_cases h40 : hi - lo > 40
  · simp only [h40, if_true,
      medianOfThree_of_equivalent H lo (lo + (hi - lo) / 8) (lo + 2 * ((hi - lo) / 8))
        (by omega) (by omega) (by omega),
      medianOfThree_of_equivalent H (lo + (hi - lo) / 2)
        (lo + (hi - lo) / 2 - (hi - lo) / 8) (lo + (hi - lo) / 2 + (hi - lo) / 8)
        (by omega) (by omega) (by omega),
      medianOfThree_of_equivalent H (hi - 1) (hi - 1 - (hi - lo) / 8)
        (hi - 1 - 2 * ((hi - lo) / 8)) (by omega) (by omega) (by omega), ok_bind]
  · simp only [h40, if_false, pure_eq_ok]

theorem doPivot_scanUp_of_equivalent {α : Type} {less : α → α → Bool} {l : List α}
    (H : ∀ x ∈ l, ∀ y ∈ l, less x y = false) (pivot c : Nat) (hp : pivot < l.length)
    (hc : c ≤ l.length) : ∀ (fuel a : Nat), a ≤ c → c ≤ fuel + a →
    doPivot.scanUp less pivot c fuel l a a = Except.ok (l, c, c) := by
  intro fuel
  induction fuel with
  | zero =>
    intro a hac hf
    rw [doPivot.scanUp, if_neg (by omega)]
    have : a = c := by omega
    subst this
    rfl
  | succ f ih =>
    intro a hac hf
    rw [doPivot.scanUp]
    by_cases hlt : a < c
    · obtain ⟨x, hx, hx'⟩ := index_lt (show a < l.length by omega)
      obtain ⟨p, hp1, hp'⟩ := index_lt hp
      simp only [hlt, if_true, hx', hp', ok_bind, less_false_of_pos H hx hp1,
        less_false_of_pos H hp1 hx, Bool.false_eq_true, if_false, Bool.not_false,
        swap_self l a (by omega)]
      exact ih (a + 1) (by omega) (by omega)
    · have : a = c := by omega
      subst this
      simp only [hlt, if_false, pure_eq_ok]

theorem doPivot_scanDown_of_met {α : Type} (less : α → α → Bool) (l : List α)
    (pivot b fuel c d : Nat) (h : c ≤ b) :
    doPivot.scanDown less pivot b fuel l c d = Except.ok (l, c, d) := by
  cases fuel with
  | zero =>
    rw [doPivot.scanDown, if_neg (by omega)]
    rfl
  | succ f =>
    rw [doPivot.scanDown, if_neg (by omega)]
    rfl

theorem swapRange_zero {α : Type} (l : List α) (a b : Nat) :
    swapRange l a b 0 = Except.ok l := by
  unfold swapRange
  rw [swapRange.loop, if_neg (by omega)]
  rfl

theorem doPivot_of_equivalent {α : Type} {less : α → α → Bool} {l : List α}
    (H : ∀ x ∈ l, ∀ y ∈ l, less x y = false) (lo hi : Nat) (hlt : lo < hi)
    (hlen : hi ≤ l.length) : doPivot less l lo hi = Except.ok (l, lo, hi) := by
  unfold doPivot
  have hloop : doPivot.loop less lo (hi - lo) l (lo + 1) (lo + 1) hi hi =
      Except.ok (l, hi, hi, hi, hi) := by
    obtain ⟨f, hf⟩ : ∃ f, hi - lo = f + 1 := ⟨hi - lo - 1, by omega⟩
    rw [hf, doPivot.loop]
    simp only [doPivot_scanUp_of_equivalent H lo hi (by omega) hlen (hi - (lo + 1)) (lo + 1)
      (by omega) (by omega), ok_bind,
      doPivot_scanDown_of_met less l lo hi (hi - hi) hi hi (Nat.le_refl _), ge_iff_le,
      Nat.le_refl, if_true, pure_eq_ok]
  simp only [doPivot_ninther_of_equivalent H lo hi hlt hlen, ok_bind,
    medianOfThree_of_equivalent H lo (lo + (hi - lo) / 2) (hi - 1) (by omega) (by omega)
      (by omega), hloop, Nat.sub_self, Nat.zero_min, Nat.min_self, Nat.sub_zero,
    swapRange_zero, pure_eq_ok]
  congr 2
  congr 1
  omega

theorem quickSort_counted_empty {α : Type} (less : α → α → Bool) (l : List α)
    (a maxDepth : Nat) : quickSort.counted less l a a maxDepth = Except.ok (l, 0, 0) := by
  cases maxDepth with
  | zero =>
    rw [quickSort.counted, if_neg (by omega), if_neg (by omega)]
    rfl
  | succ d =>
    rw [quickSort.counted, if_neg (by omega), if_neg (by omega)]
    rfl

theorem quickSort_counted_of_equivalent {α : Type} {less : α → α → Bool} {l : List α}
    (H : ∀ x ∈ l, ∀ y ∈ l, less x y = false) (a b maxDepth : Nat) (h7 : b - a > 7)
    (hlen : b ≤ l.length) :
    quickSort.counted less l a b (maxDepth + 1) = Except.ok (l, 1, 1) := by
  rw [quickSort.counted]
  simp only [h7, if_true, doPivot_of_equivalent H a b (by omega) hlen, ok_bind,
    Nat.sub_self, Nat.lt_irrefl, if_false, quickSort_counted_empty, pure_eq_ok]
  rfl


theorem quickSort_counted_of_equivalent_short {α : Type} {less : α → α → Bool} {l : List α}
    (H : ∀ x ∈ l, ∀ y ∈ l, less x y = false) (a b maxDepth : Nat) (h7 : b - a ≤ 7)
    (hlen : b ≤ l.length) :
    quickSort.counted less l a b maxDepth = Except.ok (l, 0, 0) := by
  have hins : insertionSort less l a b = Except.ok l := by
    unfold insertionSort
    apply insertionSort_outer_of_sorted less a b l hlen _ (b - a) (a + 1) (by omega)
    intro i j _ _ _ x y hx hy
    exact less_false_of_pos H hy hx
  cases maxDepth with
  | zero =>
    rw [quickSort.counted, if_neg (by omega)]
    by_cases h1 : b - a > 1
    · simp only [h1, if_true, hins, ok_bind, pure_eq_ok]
    · simp only [h1, if_false, pure_eq_ok]
  | succ d =>
    rw [quickSort.counted, if_neg (by omega)]
    by_cases h1 : b - a > 1
    · simp only [h1, if_true, hins, ok_bind, pure_eq_ok]
    · simp only [h1, if_false, pure_eq_ok]

/-- C12, as stated, fails for short slices: three records with the same key
are returned unchanged, but the sort of a slice of at most 7 elements makes no
partition step at all (the counter of partition steps is `0`, not `1`). -/
theorem SortBy_equivalent_short_no_partition :
    (∀ x ∈ [(1, 0), (1, 1), (1, 2)], ∀ y ∈ [(1, 0), (1, 1), (1, 2)], lessKey x y = false) ∧
    SortBy lessKey [(1, 0), (1, 1), (1, 2)] = Except.ok [(1, 0), (1, 1), (1, 2)] ∧
    SortBy lessKey [(1, 0), (1, 1), (1, 2)] = quickSort lessKey [(1, 0), (1, 1), (1, 2)] 0 3 4 ∧
    quickSort.counted lessKey [(1, 0), (1, 1), (1, 2)] 0 3 4 =
      Except.ok ([(1, 0), (1, 1), (1, 2)], 0, 0) := by
  refine ⟨by decide, by decide, by decide, by decide⟩

/-- C12, amended: for every slice whose elements are pairwise equivalent
under `less` (`less(x, y)` is false for all elements `x`, `y`), `SortBy`
returns the slice unchanged.  With more than 7 elements the sort makes exactly
one partition step, which returns `(0, n)` and leaves both sub-ranges empty,
so the one recursive call is on the empty range `[n, n)`; with at most 7
elements it makes no partition step. -/
theorem SortBy_of_equivalent {α : Type} (less : α → α → Bool) (s : List α)
    (H : ∀ x ∈ s, ∀ y ∈ s, less x y = false) :
    SortBy less s = Except.ok s ∧
    ∃ d, SortBy less s = quickSort less s 0 s.length d ∧
      (s.length > 7 →
        doPivot less s 0 s.length = Except.ok (s, 0, s.length) ∧
        quickSort.recursed 0 s.length 0 s.length = (s.length, s.length) ∧
        quickSort.continued 0 s.length 0 s.length = (0, 0) ∧
        quickSort.counted less s 0 s.length d = Except.ok (s, 1, 1)) ∧
      (s.length ≤ 7 → quickSort.counted less s 0 s.length d = Except.ok (s, 0, 0)) := by
  obtain ⟨k, hk, hpow, _⟩ := SortBy_depth_spec s.length s.length 0 (Nat.le_refl _)
  rw [Nat.zero_add] at hk
  have hs : SortBy less s = quickSort less s 0 s.length (k * 2) := by
    unfold SortBy
    simp only [hk, ok_bind]
  have hlong : s.length > 7 →
      quickSort.counted less s 0 s.length (k * 2) = Except.ok (s, 1, 1) := by
    intro h7
    have hk1 : k ≠ 0 := by
      intro h0
      subst h0
      rw [Nat.pow_zero] at hpow
      omega
    obtain ⟨d, hd⟩ : ∃ d, k * 2 = d + 1 := ⟨k * 2 - 1, by omega⟩
    rw [hd]
    exact quickSort_counted_of_equivalent H 0 s.length d (by omega) (Nat.le_refl _)
  have hshort : s.length ≤ 7 →
      quickSort.counted less s 0 s.length (k * 2) = Except.ok (s, 0, 0) := fun h7 =>
    quickSort_counted_of_equivalent_short H 0 s.length (k * 2) (by omega) (Nat.le_refl _)
  refine ⟨?_, k * 2, hs, ?_, hshort⟩
  · rw [hs, quickSort_counted_refines]
    by_cases h7 : s.length > 7
    · rw [hlong h7]
      rfl
    · rw [hshort (by omega)]
      rfl
  · intro h7
    refine ⟨doPivot_of_equivalent H 0 s.length (by omega) (Nat.le_refl _), ?_, ?_, hlong h7⟩
    · unfold quickSort.recursed
      rw [if_neg (by omega)]
    · unfold quickSort.continued
      rw [if_neg (by omega)]

theorem SortBy_of_equivalent_witness :
    SortBy lessKey
        [(1, 0), (1, 1), (1, 2), (1, 3), (1, 4), (1, 5), (1, 6), (1, 7), (1, 8), (1, 9)] =
      Except.ok
        [(1, 0), (1, 1), (1, 2), (1, 3), (1, 4), (1, 5), (1, 6), (1, 7), (1, 8), (1, 9)] ∧
    doPivot lessKey
        [(1, 0), (1, 1), (1, 2), (1, 3), (1, 4), (1, 5), (1, 6), (1, 7), (1, 8), (1, 9)] 0 10 =
      Except.ok
        ([(1, 0), (1, 1), (1, 2), (1, 3), (1, 4), (1, 5), (1, 6), (1, 7), (1, 8), (1, 9)],
          0, 10) ∧
    ∃ d, SortBy lessKey
        [(1, 0), (1, 1), (1, 2), (1, 3), (1, 4), (1, 5), (1, 6), (1, 7), (1, 8), (1, 9)] =
        quickSort lessKey
          [(1, 0), (1, 1), (1, 2), (1, 3), (1, 4), (1, 5), (1, 6), (1, 7), (1, 8), (1, 9)]
          0 10 d ∧
      quickSort.counted lessKey
          [(1, 0), (1, 1), (1, 2), (1, 3), (1, 4), (1, 5), (1, 6), (1, 7), (1, 8), (1, 9)]
          0 10 d =
        Except.ok
          ([(1, 0), (1, 1), (1, 2), (1, 3), (1, 4), (1, 5), (1, 6), (1, 7), (1, 8), (1, 9)],
            1, 1) := by
  have h := SortBy_of_equivalent lessKey
    [(1, 0), (1, 1), (1, 2), (1, 3), (1, 4), (1, 5), (1, 6), (1, 7), (1, 8), (1, 9)]
    (by decide)
  obtain ⟨h1, d, h2, h3, _⟩ := h
  exact ⟨h1, (h3 (by decide)).1, d, h2, (h3 (by decide)).2.2.2⟩


/-! ## Descending sort of a linearly ordered type -/

/-- C24: for a linearly ordered element type and `less = (a < b)`,
`SortByDesc` returns the reverse of what `SortBy` returns, and
`IsSortedByDesc` answers `true` on the result of `SortByDesc`. -/
theorem SortByDesc_natural_eq_reverse {α : Type} [LinearOrder α] (s : List α) :
    ∃ r, SortBy natural s = Except.ok r ∧ SortByDesc natural s = Except.ok r.reverse ∧
      IsSortedByDesc natural r.reverse = Except.ok true ∧
      (SortByDesc natural s >>= IsSortedByDesc natural) = Except.ok true := by
  have hswo := natural_strictWeakOrder (α := α)
  obtain ⟨r, hr, hp, _, hso⟩ := SortBy_run (compat_of_strictWeakOrder hswo) s
  obtain ⟨r', hr', hp', _, hso'⟩ := SortBy_run (compat_greater hswo) s
  have hsorted : List.Sorted (fun a b : α => a ≤ b) r := by
    refine List.Pairwise.imp ?_ (sortedOn_iff_pairwise.mp hso)
    intro a b hab
    simpa [natural] using hab
  have hsorted' : List.Sorted (fun a b : α => a ≤ b) r'.reverse := by
    rw [List.Sorted, List.pairwise_reverse]
    refine List.Pairwise.imp ?_ (sortedOn_iff_pairwise.mp hso')
    intro a b hab
    simpa [natural] using hab
  have heq : r'.reverse = r :=
    List.eq_of_perm_of_sorted (((List.reverse_perm r').trans hp').trans hp.symm)
      hsorted' hsorted
  have hrev : r' = r.reverse := by rw [← heq, List.reverse_reverse]
  have hdesc : IsSortedByDesc natural r' = Except.ok true := by
    obtain ⟨b, hb, hiff⟩ := IsSortedByDesc_spec natural r'
    have : b = true := by
      rw [hiff]
      intro k hk1 hk2 x y hx hy
      have hyx := hso' (k - 1) k (Nat.zero_le _) (by omega) hk2 y x hy hx
      have hle : x ≤ y := by simpa [natural] using hyx
      rcases lt_or_eq_of_le hle with hlt | heq'
      · exact Or.inr (by simpa [natural] using hlt)
      · exact Or.inl heq'
    rw [hb, this]
  have hdesc' : SortByDesc natural s = Except.ok r' := hr'
  refine ⟨r, hr, by rw [hdesc', hrev], by rw [← hrev]; exact hdesc, ?_⟩
  rw [hdesc', ok_bind]
  exact hdesc

theorem SortByDesc_natural_eq_reverse_witness :
    SortBy natural [(5 : Int), -3, 9, 0, 5, 7, -3, 2, 8, 1] =
      Except.ok [-3, -3, 0, 1, 2, 5, 5, 7, 8, 9] ∧
    SortByDesc natural [(5 : Int), -3, 9, 0, 5, 7, -3, 2, 8, 1] =
      Except.ok [9, 8, 7, 5, 5, 2, 1, 0, -3, -3] ∧
    IsSortedByDesc natural [(9 : Int), 8, 7, 5, 5, 2, 1, 0, -3, -3] = Except.ok true ∧
    ∃ r, SortBy natural [(5 : Int), -3, 9, 0, 5, 7, -3, 2, 8, 1] = Except.ok r ∧
      SortByDesc natural [(5 : Int), -3, 9, 0, 5, 7, -3, 2, 8, 1] = Except.ok r.reverse ∧
      IsSortedByDesc natural r.reverse = Except.ok true ∧
      (SortByDesc natural [(5 : Int), -3, 9, 0, 5, 7, -3, 2, 8, 1] >>=
        IsSortedByDesc natural) = Except.ok true :=
  ⟨by decide!, by decide!, by decide!,
    SortByDesc_natural_eq_reverse [(5 : Int), -3, 9, 0, 5, 7, -3, 2, 8, 1]⟩


/-! ## Median of three -/

theorem medianOfThree_step_sorted {α : Type} {less : α → α → Bool}
    (hswo : StrictWeakOrder less) (l : List α) (i j : Nat) (hij : i ≠ j) {u v : α}
    (hu : l[i]? = some u) (hv : l[j]? = some v) :
    ∃ r x y, medianOfThree.step less l i j = Except.ok r ∧ r.length = l.length ∧
      r[i]? = some x ∧ r[j]? = some y ∧ less x y = false ∧
      less x u = false ∧ less x v = false ∧ less u y = false ∧ less v y = false ∧
      (x = u ∧ y = v ∨ x = v ∧ y = u) ∧
      ∀ k, k ≠ i → k ≠ j → r[k]? = l[k]? := by
  have hi : i < l.length := (List.getElem?_eq_some.mp hu).1
  have hj : j < l.length := (List.getElem?_eq_some.mp hv).1
  unfold medianOfThree.step
  simp only [index_ok hu, index_ok hv, ok_bind]
  by_cases hlt : less u v = true
  · obtain ⟨r, hs, hlen, hget⟩ := swap_ok hi hj
    simp only [hlt, if_true]
    refine ⟨r, v, u, hs, hlen, ?_, ?_, hswo.asymm _ _ hlt, hswo.asymm _ _ hlt,
      hswo.irrefl _, hswo.irrefl _, hswo.asymm _ _ hlt, Or.inr ⟨rfl, rfl⟩, ?_⟩
    · rw [hget, if_neg hij, if_pos rfl, hv]
    · rw [hget, if_pos rfl, hu]
    · intro k hki hkj
      rw [hget, if_neg hkj, if_neg hki]
  · have hlt' : less u v = false := by simpa using hlt
    simp only [hlt', Bool.false_eq_true, if_false, pure_eq_ok]
    exact ⟨l, u, v, rfl, rfl, hu, hv, hlt', hswo.irrefl _, hlt', hlt', hswo.irrefl _,
      Or.inl ⟨rfl, rfl⟩, fun _ _ _ => rfl⟩

/-- C21: for three pairwise distinct indices inside the slice and a strict
weak ordering, `medianOfThree` moves the median of `rcv[a], rcv[b], rcv[c]`
into `rcv[a]`: afterwards the three positions hold a permutation of their
three values with neither `less(rcv[a], rcv[b])` nor `less(rcv[c], rcv[a])`,
and every other position is unchanged. -/
theorem medianOfThree_moves_median {α : Type} (less : α → α → Bool)
    (hswo : StrictWeakOrder less) (l : List α) (a b c : Nat) (hab : a ≠ b) (hac : a ≠ c)
    (hbc : b ≠ c) (ha : a < l.length) (hb : b < l.length) (hc : c < l.length) :
    ∃ r x y z x0 y0 z0, medianOfThree less l a b c = Except.ok r ∧ r.length = l.length ∧
      l[a]? = some x0 ∧ l[b]? = some y0 ∧ l[c]? = some z0 ∧
      r[a]? = some x ∧ r[b]? = some y ∧ r[c]? = some z ∧
      less x y = false ∧ less z x = false ∧
      List.Perm [x, y, z] [x0, y0, z0] ∧
      ∀ k, k ≠ a → k ≠ b → k ≠ c → r[k]? = l[k]? := by
  obtain ⟨x0, hx0, _⟩ := index_lt ha
  obtain ⟨y0, hy0, _⟩ := index_lt hb
  obtain ⟨z0, hz0, _⟩ := index_lt hc
  unfold medianOfThree
  obtain ⟨r1, x1, y1, h1, hlen1, ha1, hb1, hxy1, _, _, _, _, hperm1, hout1⟩ :=
    medianOfThree_step_sorted hswo l a b hab hx0 hy0
  have hc1 : r1[c]? = some z0 := by rw [hout1 c (Ne.symm hac) (Ne.symm hbc)]; exact hz0
  obtain ⟨r2, z2, x2, h2, hlen2, hc2, ha2, hzx2, hz2z, hz2x, _, _, hperm2, hout2⟩ :=
    medianOfThree_step_sorted hswo r1 c a (Ne.symm hac) hc1 ha1
  have hb2 : r2[b]? = some y1 := by rw [hout2 b hbc hab.symm]; exact hb1
  obtain ⟨r3, x3, y3, h3, hlen3, ha3, hb3, hxy3, _, _, _, _, hperm3, hout3⟩ :=
    medianOfThree_step_sorted hswo r2 a b hab ha2 hb2
  have hc3 : r3[c]? = some z2 := by rw [hout3 c (Ne.symm hac) (Ne.symm hbc)]; exact hc2
  simp only [h1, h2, ok_bind]
  refine ⟨r3, x3, y3, z2, x0, y0, z0, h3, by rw [hlen3, hlen2, hlen1], hx0, hy0, hz0,
    ha3, hb3, hc3, hxy3, ?_, ?_, ?_⟩
  · -- z2 is not less than x3: x3 is x2 or y1, both at most z2
    have hy1z2 : less z2 y1 = false := hswo.not_lt_trans hz2x hxy1
    rcases hperm3 with ⟨e1, _⟩ | ⟨e1, _⟩
    · rw [e1]
      exact hzx2
    · rw [e1]
      exact hy1z2
  · -- the three values are permuted by each step
    have p1 : List.Perm [x1, y1, z0] [x0, y0, z0] := by
      rcases hperm1 with ⟨e1, e2⟩ | ⟨e1, e2⟩
      · rw [e1, e2]
      · rw [e1, e2]
        exact List.Perm.swap _ _ _
    have p2 : List.Perm [x2, y1, z2] [x1, y1, z0] := by
      rcases hperm2 with ⟨e1, e2⟩ | ⟨e1, e2⟩
      · rw [e1, e2]
      · rw [e1, e2]
        exact (List.Perm.swap y1 z0 [x1]).trans
          ((List.Perm.cons y1 (List.Perm.swap x1 z0 [])).trans (List.Perm.swap x1 y1 [z0]))
    have p3 : List.Perm [x3, y3, z2] [x2, y1, z2] := by
      rcases hperm3 with ⟨e1, e2⟩ | ⟨e1, e2⟩
      · rw [e1, e2]
      · rw [e1, e2]
        exact List.Perm.swap _ _ _
    exact (p3.trans p2).trans p1
  · intro k hka hkb hkc
    rw [hout3 k hka hkb, hout2 k hkc hka, hout1 k hka hkb]

theorem medianOfThree_moves_median_witness :
    StrictWeakOrder lessKey ∧
    medianOfThree lessKey [(3, 0), (9, 1), (1, 2), (9, 3), (2, 4)] 0 2 4 =
      Except.ok [(2, 4), (9, 1), (1, 2), (9, 3), (3, 0)] ∧
    ∃ r x y z x0 y0 z0,
      medianOfThree lessKey [(3, 0), (9, 1), (1, 2), (9, 3), (2, 4)] 0 2 4 = Except.ok r ∧
      r.length = [(3, 0), (9, 1), (1, 2), (9, 3), (2, 4)].length ∧
      [(3, 0), (9, 1), (1, 2), (9, 3), (2, 4)][0]? = some x0 ∧
      [(3, 0), (9, 1), (1, 2), (9, 3), (2, 4)][2]? = some y0 ∧
      [(3, 0), (9, 1), (1, 2), (9, 3), (2, 4)][4]? = some z0 ∧
      r[0]? = some x ∧ r[2]? = some y ∧ r[4]? = some z ∧
      lessKey x y = false ∧ lessKey z x = false ∧
      List.Perm [x, y, z] [x0, y0, z0] ∧
      ∀ k, k ≠ 0 → k ≠ 2 → k ≠ 4 →
        r[k]? = [(3, 0), (9, 1), (1, 2), (9, 3), (2, 4)][k]? :=
  ⟨lessKey_strictWeakOrder, by decide,
    medianOfThree_moves_median lessKey lessKey_strictWeakOrder
      [(3, 0), (9, 1), (1, 2), (9, 3), (2, 4)] 0 2 4 (by decide) (by decide) (by decide)
      (by decide) (by decide) (by decide)⟩


/-! ## The cursors of the partition -/

theorem doPivot_scanUpTraced_refines {α : Type} (less : α → α → Bool) (pivot c : Nat) :
    ∀ (fuel : Nat) (l : List α) (a b : Nat),
    doPivot.scanUp less pivot c fuel l a b =
      Except.map Prod.fst (doPivot.scanUpTraced less pivot c fuel l a b) := by
  intro fuel
  induction fuel with
  | zero =>
    intro l a b
    rw [doPivot.scanUp, doPivot.scanUpTraced]
    by_cases hlt : b < c
    · simp only [hlt, if_true]
      rfl
    · simp only [hlt, if_false]
      rfl
  | succ f ih =>
    intro l a b
    rw [doPivot.scanUp, doPivot.scanUpTraced]
    by_cases hlt : b < c
    · simp only [hlt, if_true]
      cases index l b with
      | error e => rfl
      | ok x =>
        cases index l pivot with
        | error e => rfl
        | ok p =>
          simp only [ok_bind]
          by_cases h1 : less x p = true
          · simp only [h1, if_true]
            rw [ih l a (b + 1)]
            cases doPivot.scanUpTraced less pivot c f l a (b + 1) with
            | error e => rfl
            | ok t => rfl
          · by_cases h2 : (!less p x) = true
            · simp only [h1, h2, if_false, if_true]
              cases swap l a b with
              | error e => rfl
              | ok l' =>
                simp only [ok_bind]
                rw [ih l' (a + 1) (b + 1)]
                cases doPivot.scanUpTraced less pivot c f l' (a + 1) (b + 1) with
                | error e => rfl
                | ok t => rfl
            · simp only [h1, h2, if_false]
              rfl
    · simp only [hlt, if_false]
      rfl

theorem doPivot_scanDownTraced_refines {α : Type} (less : α → α → Bool) (pivot b : Nat) :
    ∀ (fuel : Nat) (l : List α) (c d : Nat),
    doPivot.scanDown less pivot b fuel l c d =
      Except.map Prod.fst (doPivot.scanDownTraced less pivot b fuel l c d) := by
  intro fuel
  induction fuel with
  | zero =>
    intro l c d
    rw [doPivot.scanDown, doPivot.scanDownTraced]
    by_cases hlt : b < c
    · simp only [hlt, if_true]
      rfl
    · simp only [hlt, if_false]
      rfl
  | succ f ih =>
    intro l c d
    rw [doPivot.scanDown, doPivot.scanDownTraced]
    by_cases hlt : b < c
    · simp only [hlt, if_true]
      cases index l (c - 1) with
      | error e => rfl
      | ok x =>
        cases index l pivot with
        | error e => rfl
        | ok p =>
          simp only [ok_bind]
          by_cases h1 : less p x = true
          · simp only [h1, if_true]
            rw [ih l (c - 1) d]
            cases doPivot.scanDownTraced less pivot b f l (c - 1) d with
            | error e => rfl
            | ok t => rfl
          · by_cases h2 : (!less x p) = true
            · simp only [h1, h2, if_false, if_true]
              cases swap l (c - 1) (d - 1) with
              | error e => rfl
              | ok l' =>
                simp only [ok_bind]
                rw [ih l' (c - 1) (d - 1)]
                cases doPivot.scanDownTraced less pivot b f l' (c - 1) (d - 1) with
                | error e => rfl
                | ok t => rfl
            · simp only [h1, h2, if_false]
              rfl
    · simp only [hlt, if_false]
      rfl

theorem doPivot_loopTraced_refines {α : Type} (less : α → α → Bool) (pivot : Nat) :
    ∀ (fuel : Nat) (l : List α) (a b c d : Nat),
    doPivot.loop less pivot fuel l a b c d =
      Except.map Prod.fst (doPivot.loopTraced less pivot fuel l a b c d) := by
  intro fuel
  induction fuel with
  | zero =>
    intro l a b c d
    rfl
  | succ f ih =>
    intro l a b c d
    rw [doPivot.loop, doPivot.loopTraced, doPivot_scanUpTraced_refines]
    cases doPivot.scanUpTraced less pivot c (c - b) l a b with
    | error e => rfl
    | ok t =>
      obtain ⟨⟨l1, a1, b1⟩, t1⟩ := t
      simp only [map_ok, ok_bind]
      rw [doPivot_scanDownTraced_refines]
      cases doPivot.scanDownTraced less pivot b1 (c - b1) l1 c d with
      | error e => rfl
      | ok t' =>
        obtain ⟨⟨l2, c1, d1⟩, t2⟩ := t'
        simp only [map_ok, ok_bind]
        by_cases hge : b1 ≥ c1
        · simp only [hge, if_true]
          rfl
        · simp only [hge, if_false]
          cases swap l2 b1 (c1 - 1) with
          | error e => rfl
          | ok l3 =>
            simp only [ok_bind]
            rw [ih l3 a1 (b1 + 1) (c1 - 1) d1]
            cases doPivot.loopTraced less pivot f l3 a1 (b1 + 1) (c1 - 1) d1 with
            | error e => rfl
            | ok t3 => rfl


theorem doPivot_scanUpTraced_spec {α : Type} (less : α → α → Bool) (pivot c : Nat) :
    ∀ (fuel : Nat) (l : List α) (a b : Nat),
    a ≤ b → b ≤ c → c ≤ l.length → pivot < l.length → c - b ≤ fuel →
    ∃ r a' b' t, doPivot.scanUpTraced less pivot c fuel l a b = Except.ok ((r, a', b'), t) ∧
      (∀ q ∈ t, a ≤ q.1 ∧ q.1 ≤ q.2 ∧ q.2 ≤ c) ∧
      t.head? = some (a, b) ∧ t.getLast? = some (a', b') := by
  intro fuel
  induction fuel with
  | zero =>
    intro l a b hab hbc _ _ hf
    rw [doPivot.scanUpTraced, if_neg (by omega)]
    refine ⟨l, a, b, [(a, b)], rfl, ?_, rfl, rfl⟩
    intro q hq
    rw [List.mem_singleton] at hq
    subst hq
    exact ⟨Nat.le_refl _, hab, hbc⟩
  | succ f ih =>
    intro l a b hab hbc hlen hp hf
    have hstop : ∃ r a' b' t, (pure ((l, a, b), [(a, b)]) :
        Except Fault ((List α × Nat × Nat) × List (Nat × Nat))) = Except.ok ((r, a', b'), t) ∧
        (∀ q ∈ t, a ≤ q.1 ∧ q.1 ≤ q.2 ∧ q.2 ≤ c) ∧
        t.head? = some (a, b) ∧ t.getLast? = some (a', b') := by
      refine ⟨l, a, b, [(a, b)], rfl, ?_, rfl, rfl⟩
      intro q hq
      rw [List.mem_singleton] at hq
      subst hq
      exact ⟨Nat.le_refl _, hab, hbc⟩
    rw [doPivot.scanUpTraced]
    by_cases hlt : b < c
    · obtain ⟨x, hx, hx'⟩ := index_lt (show b < l.length by omega)
      obtain ⟨p, hp1, hp'⟩ := index_lt hp
      simp only [hlt, if_true, hx', hp', ok_bind]
      by_cases h1 : less x p = true
      · obtain ⟨r, a', b', t, hr, hall, hhd, hlast⟩ :=
          ih l a (b + 1) (by omega) (by omega) hlen hp (by omega)
        simp only [h1, if_true, hr, ok_bind, pure_eq_ok]
        refine ⟨r, a', b', (a, b) :: t, rfl, ?_, rfl, ?_⟩
        · intro q hq
          rcases List.mem_cons.mp hq with e | hq
          · subst e
            exact ⟨Nat.le_refl _, hab, hbc⟩
          · exact hall q hq
        · cases t with
          | nil => cases hhd
          | cons q t => exact hlast
      · have h1' : less x p = false := by simpa using h1
        by_cases h2 : less p x = true
        · simp only [h1', h2, Bool.false_eq_true, if_false, Bool.not_true]
          exact hstop
        · have h2' : less p x = false := by simpa using h2
          obtain ⟨l', hs, hlen', _⟩ := swap_ok (show a < l.length by omega)
            (show b < l.length by omega)
          obtain ⟨r, a', b', t, hr, hall, hhd, hlast⟩ :=
            ih l' (a + 1) (b + 1) (by omega) (by omega) (by omega) (by omega) (by omega)
          simp only [h1', h2', Bool.false_eq_true, if_false, Bool.not_false, if_true, hs,
            ok_bind, hr, pure_eq_ok]
          refine ⟨r, a', b', (a, b) :: t, rfl, ?_, rfl, ?_⟩
          · intro q hq
            rcases List.mem_cons.mp hq with e | hq
            · subst e
              exact ⟨Nat.le_refl _, hab, hbc⟩
            · have := hall q hq
              omega
          · cases t with
            | nil => cases hhd
            | cons q t => exact hlast
    · simp only [hlt, if_false]
      exact hstop

theorem doPivot_scanDownTraced_spec {α : Type} (less : α → α → Bool) (pivot b : Nat) :
    ∀ (fuel : Nat) (l : List α) (c d : Nat),
    b ≤ c → c ≤ d → d ≤ l.length → pivot < l.length → c - b ≤ fuel →
    ∃ r c' d' t, doPivot.scanDownTraced less pivot b fuel l c d = Except.ok ((r, c', d'), t) ∧
      (∀ q ∈ t, b ≤ q.1 ∧ q.1 ≤ q.2 ∧ q.2 ≤ d) ∧
      t.head? = some (c, d) ∧ t.getLast? = some (c', d') := by
  intro fuel
  induction fuel with
  | zero =>
    intro l c d hbc hcd _ _ hf
    rw [doPivot.scanDownTraced, if_neg (by omega)]
    refine ⟨l, c, d, [(c, d)], rfl, ?_, rfl, rfl⟩
    intro q hq
    rw [List.mem_singleton] at hq
    subst hq
    exact ⟨hbc, hcd, Nat.le_refl _⟩
  | succ f ih =>
    intro l c d hbc hcd hlen hp hf
    have hstop : ∃ r c' d' t, (pure ((l, c, d), [(c, d)]) :
        Except Fault ((List α × Nat × Nat) × List (Nat × Nat))) = Except.ok ((r, c', d'), t) ∧
        (∀ q ∈ t, b ≤ q.1 ∧ q.1 ≤ q.2 ∧ q.2 ≤ d) ∧
        t.head? = some (c, d) ∧ t.getLast? = some (c', d') := by
      refine ⟨l, c, d, [(c, d)], rfl, ?_, rfl, rfl⟩
      intro q hq
      rw [List.mem_singleton] at hq
      subst hq
      exact ⟨hbc, hcd, Nat.le_refl _⟩
    rw [doPivot.scanDownTraced]
    by_cases hlt : b < c
    · obtain ⟨x, hx, hx'⟩ := index_lt (show c - 1 < l.length by omega)
      obtain ⟨p, hp1, hp'⟩ := index_lt hp
      simp only [hlt, if_true, hx', hp', ok_bind]
      by_cases h1 : less p x = true
      · obtain ⟨r, c', d', t, hr, hall, hhd, hlast⟩ :=
          ih l (c - 1) d (by omega) (by omega) hlen hp (by omega)
        simp only [h1, if_true, hr, ok_bind, pure_eq_ok]
        refine ⟨r, c', d', (c, d) :: t, rfl, ?_, rfl, ?_⟩
        · intro q hq
          rcases List.mem_cons.mp hq with e | hq
          · subst e
            exact ⟨hbc, hcd, Nat.le_refl _⟩
          · exact hall q hq
        · cases t with
          | nil => cases hhd
          | cons q t => exact hlast
      · have h1' : less p x = false := by simpa using h1
        by_cases h2 : less x p = true
        · simp only [h1', h2, Bool.false_eq_true, if_false, Bool.not_true]
          exact hstop
        · have h2' : less x p = false := by simpa using h2
          obtain ⟨l', hs, hlen', _⟩ := swap_ok (show c - 1 < l.length by omega)
            (show d - 1 < l.length by omega)
          obtain ⟨r, c', d', t, hr, hall, hhd, hlast⟩ :=
            ih l' (c - 1) (d - 1) (by omega) (by omega) (by omega) (by omega) (by omega)
          simp only [h1', h2', Bool.false_eq_true, if_false, Bool.not_false, if_true, hs,
            ok_bind, hr, pure_eq_ok]
          refine ⟨r, c', d', (c, d) :: t, rfl, ?_, rfl, ?_⟩
          · intro q hq
            rcases List.mem_cons.mp hq with e | hq
            · subst e
              exact ⟨hbc, hcd, Nat.le_refl _⟩
            · have := hall q hq
              omega
          · cases t with
            | nil => cases hhd
            | cons q t => exact hlast
    · simp only [hlt, if_false]
      exact hstop

theorem doPivot_loopTraced_spec {α : Type} (less : α → α → Bool) (lo hi : Nat) :
    ∀ (fuel : Nat) (l : List α) (a b c d : Nat),
    lo < a → a ≤ b → b ≤ c → c ≤ d → d ≤ hi → hi ≤ l.length → c - b + 1 ≤ 2 * fuel →
    ∃ r a' b' c' d' t,
      doPivot.loopTraced less lo fuel l a b c d = Except.ok ((r, a', b', c', d'), t) ∧
      (∀ q ∈ t, lo < q.1 ∧ q.1 ≤ q.2.1 ∧ q.2.1 ≤ q.2.2.1 ∧ q.2.2.1 ≤ q.2.2.2 ∧ q.2.2.2 ≤ hi) ∧
      t.head? = some (a, b, c, d) ∧ t.getLast? = some (a', b', c', d') ∧ b' = c' := by
  intro fuel
  induction fuel with
  | zero =>
    intro l a b c d _ _ _ _ _ _ hf
    omega
  | succ f ih =>
    intro l a b c d hlo hab hbc hcd hdh hlen hf
    obtain ⟨p, hp, _⟩ := index_lt (show lo < l.length by omega)
    have hT := compat_trivial less
    obtain ⟨l1, a1, b1, h1, hsh1, ha1, hab1, hb1, hbc1, _, _, hstop1⟩ :=
      doPivot_scanUp_spec hT lo c p (c - b) l a b hlo hab hbc (by omega) (Nat.le_refl _) hp
        (fun _ _ _ _ _ => ⟨trivial, trivial⟩) (fun _ _ _ _ _ => trivial)
    have hlen1 : l1.length = l.length := hsh1.length_eq
    have hp1 : l1[lo]? = some p := by rw [hsh1.outside lo (by omega)]; exact hp
    obtain ⟨l2, c1, d1, h2, hsh2, hbc2, hc1, hcd1, hd1, _, _, hstop2⟩ :=
      doPivot_scanDown_spec hT lo b1 hi p (c - b1) l1 c d (by omega) hbc1 hcd hdh
        (by omega) (Nat.le_refl _) hp1
        (fun _ _ _ _ _ => trivial) (fun _ _ _ _ _ => ⟨trivial, trivial⟩)
    have hlen2 : l2.length = l1.length := hsh2.length_eq
    obtain ⟨r1, a1', b1', t1, ht1, hall1, hhd1, hlast1⟩ :=
      doPivot_scanUpTraced_spec less lo c (c - b) l a b hab hbc (by omega) (by omega)
        (Nat.le_refl _)
    have e1 : (r1, a1', b1') = (l1, a1, b1) := by
      have := doPivot_scanUpTraced_refines less lo c (c - b) l a b
      rw [ht1, h1] at this
      exact (Except.ok.inj this).symm
    cases e1
    obtain ⟨r2, c1', d1', t2, ht2, hall2, hhd2, hlast2⟩ :=
      doPivot_scanDownTraced_spec less lo b1 (c - b1) l1 c d hbc1 hcd (by omega) (by omega)
        (Nat.le_refl _)
    have e2 : (r2, c1', d1') = (l2, c1, d1) := by
      have := doPivot_scanDownTraced_refines less lo b1 (c - b1) l1 c d
      rw [ht2, h2] at this
      exact (Except.ok.inj this).symm
    cases e2
    have hallt : ∀ q ∈ t1.map (fun q => (q.1, q.2, c, d)) ++
        t2.map (fun q => (a1, b1, q.1, q.2)),
        lo < q.1 ∧ q.1 ≤ q.2.1 ∧ q.2.1 ≤ q.2.2.1 ∧ q.2.2.1 ≤ q.2.2.2 ∧ q.2.2.2 ≤ hi := by
      intro q hq
      rcases List.mem_append.mp hq with hq | hq
      · obtain ⟨u, hu, e⟩ := List.mem_map.mp hq
        subst e
        have := hall1 u hu
        exact ⟨by show lo < u.1; omega, this.2.1, this.2.2, hcd, hdh⟩
      · obtain ⟨u, hu, e⟩ := List.mem_map.mp hq
        subst e
        have := hall2 u hu
        exact ⟨by show lo < a1; omega, hab1, this.1, this.2.1, by show u.2 ≤ hi; omega⟩
    have hhdt : (t1.map (fun q => (q.1, q.2, c, d)) ++
        t2.map (fun q => (a1, b1, q.1, q.2))).head? = some (a, b, c, d) := by
      cases t1 with
      | nil => cases hhd1
      | cons u t1 =>
        cases Option.some.inj hhd1
        rfl
    have hlastt : (t1.map (fun q => (q.1, q.2, c, d)) ++
        t2.map (fun q => (a1, b1, q.1, q.2))).getLast? = some (a1, b1, c1, d1) := by
      rw [List.getLast?_append, List.getLast?_map, hlast2]
      rfl
    rw [doPivot.loopTraced]
    simp only [ht1, ht2, ok_bind]
    by_cases hge : b1 ≥ c1
    · simp only [hge, if_true, pure_eq_ok]
      exact ⟨l2, a1, b1, c1, d1, _, rfl, hallt, hhdt, hlastt, by omega⟩
    · obtain ⟨x, hx, hpx⟩ : ∃ x, l1[b1]? = some x ∧ less p x = true := by
        rcases hstop1 with h | h
        · omega
        · exact h
      obtain ⟨y, hy, hpy, hyp⟩ :
          ∃ y, l2[c1 - 1]? = some y ∧ less p y = false ∧ less y p = true := by
        rcases hstop2 with h | h
        · omega
        · exact h
      have hx2 : l2[b1]? = some x := by rw [hsh2.outside b1 (by omega)]; exact hx
      have hne : b1 ≠ c1 - 1 := by
        intro e
        rw [e, hy] at hx2
        cases hx2
        rw [hpx] at hpy
        cases hpy
      obtain ⟨l3, hs, hlen3, _⟩ := swap_ok (show b1 < l2.length by omega)
        (show c1 - 1 < l2.length by omega)
      obtain ⟨r, a', b', c', d', t3, hr, hall3, hhd3, hlast3, hbc3⟩ :=
        ih l3 a1 (b1 + 1) (c1 - 1) d1 (by omega) (by omega) (by omega) (by omega) (by omega)
          (by omega) (by omega)
      simp only [hge, if_false, hs, ok_bind, hr, pure_eq_ok]
      refine ⟨r, a', b', c', d', _, rfl, ?_, ?_, ?_, hbc3⟩
      · intro q hq
        rcases List.mem_append.mp hq with hq | hq
        · exact hallt q hq
        · exact hall3 q hq
      · rw [List.head?_append, hhdt]
        rfl
      · rw [List.getLast?_append, hlast3]
        rfl

/-- C22: for every comparator and every in-bounds range `[lo, hi)` with
`hi - lo > 7`, `doPivot` returns, and its split points satisfy
`lo ≤ midlo < midhi ≤ hi`, so both sub-ranges are strictly shorter than the
range. The scan of `doPivot`, run on the slice `l1` left by the choice of the
pivot, starts with the cursors `(lo + 1, lo + 1, hi, hi)`, keeps
`lo < a ≤ b ≤ c ≤ d ≤ hi` at the head of every iteration of its loops and ends
with `b = c`; the split points are `lo + b - a` and `hi - (d - c)`. -/
theorem doPivot_split_points {α : Type} (less : α → α → Bool) (l : List α) (lo hi : Nat)
    (h7 : hi - lo > 7) (hlen : hi ≤ l.length) :
    ∃ l1 r a b c d t r1 midlo midhi,
      (doPivot.ninther less l lo hi (lo + (hi - lo) / 2) >>= fun l0 =>
        medianOfThree less l0 lo (lo + (hi - lo) / 2) (hi - 1)) = Except.ok l1 ∧
      doPivot.loopTraced less lo (hi - lo) l1 (lo + 1) (lo + 1) hi hi =
        Except.ok ((r, a, b, c, d), t) ∧
      doPivot.loop less lo (hi - lo) l1 (lo + 1) (lo + 1) hi hi = Except.ok (r, a, b, c, d) ∧
      t.head? = some (lo + 1, lo + 1, hi, hi) ∧ t.getLast? = some (a, b, c, d) ∧
      (∀ q ∈ t, lo < q.1 ∧ q.1 ≤ q.2.1 ∧ q.2.1 ≤ q.2.2.1 ∧ q.2.2.1 ≤ q.2.2.2 ∧ q.2.2.2 ≤ hi) ∧
      b = c ∧
      doPivot less l lo hi = Except.ok (r1, midlo, midhi) ∧
      midlo = lo + b - a ∧ midhi = hi - (d - c) ∧
      lo ≤ midlo ∧ midlo < midhi ∧ midhi ≤ hi ∧
      midlo - lo < hi - lo ∧ hi - midhi < hi - lo := by
  obtain ⟨l0, h0, s0⟩ := doPivot_ninther_spec less l lo hi hlen
  obtain ⟨l1, h1, s1⟩ := medianOfThree_spec less l0 lo hi lo
    (lo + (hi - lo) / 2) (hi - 1)
    (Nat.le_refl _) (by omega) (by omega) (by omega) (by omega) (by omega)
    (by rw [s0.length_eq]; exact hlen)
  have hlen1 : l1.length = l.length := by rw [s1.length_eq, s0.length_eq]
  obtain ⟨l2, a, b, c, d, t, h2, hall, hhd, hlast, hbc⟩ :=
    doPivot_loopTraced_spec less lo hi (hi - lo) l1 (lo + 1) (lo + 1) hi hi (by omega)
      (Nat.le_refl _) (by omega) (Nat.le_refl _) (Nat.le_refl _) (by omega) (by omega)
  have h2' : doPivot.loop less lo (hi - lo) l1 (lo + 1) (lo + 1) hi hi =
      Except.ok (l2, a, b, c, d) := by
    rw [doPivot_loopTraced_refines, h2]
    rfl
  have hin : (a, b, c, d) ∈ t := List.mem_of_mem_getLast? hlast
  obtain ⟨ha, hab, _, hcd, hdh⟩ := hall _ hin
  have ha : lo < a := ha
  have hab : a ≤ b := hab
  have hcd : c ≤ d := hcd
  have hdh : d ≤ hi := hdh
  have hlen2 : l2.length = l.length := by
    obtain ⟨p, hp, _⟩ := index_lt (show lo < l1.length by omega)
    obtain ⟨r, a', b', c', d', hr, sh, _⟩ :=
      doPivot_loop_spec (compat_trivial less) lo hi p (hi - lo) l1 (lo + 1) (lo + 1) hi hi
        (by omega) (Nat.le_refl _) (by omega) (Nat.le_refl _) (Nat.le_refl _) (by omega)
        (by omega) hp (fun _ _ _ _ _ => ⟨trivial, trivial⟩) (fun _ _ _ _ _ => trivial)
        (fun _ _ _ _ _ => trivial) (fun _ _ _ _ _ => ⟨trivial, trivial⟩)
    rw [h2'] at hr
    cases Except.ok.inj hr
    rw [sh.length_eq, hlen1]
  subst hbc
  obtain ⟨n1, hn1⟩ : ∃ n1, n1 = min (b - a) (a - lo) := ⟨_, rfl⟩
  obtain ⟨n2, hn2⟩ : ∃ n2, n2 = min (hi - d) (d - b) := ⟨_, rfl⟩
  obtain ⟨l3, h3, s3, _⟩ := swapRange_spec l2 lo hi lo (b - n1) n1
    (Nat.le_refl _) (by omega) (by omega) (by omega)
  obtain ⟨l4, h4, _, _⟩ := swapRange_spec l3 lo hi b (hi - n2) n2
    (by omega) (by omega) (by omega) (by rw [s3.length_eq]; omega)
  refine ⟨l1, l2, a, b, b, d, t, l4, lo + b - a, hi - (d - b), ?_, h2, h2', hhd, hlast, hall,
    rfl, ?_, rfl, rfl, by omega, by omega, by omega, by omega, by omega⟩
  · rw [h0, ok_bind]
    exact h1
  · unfold doPivot
    simp only [h0, h1, h2', ok_bind, ← hn1, ← hn2, h3, h4, pure_eq_ok]

theorem doPivot_split_points_witness :
    9 - 1 > 7 ∧ 9 ≤ [5, 3, 9, 1, 4, 8, 2, 7, 6, 0].length ∧
    ∃ l1 r a b c d t r1 midlo midhi,
      (doPivot.ninther (fun (_ _ : Nat) => true) [5, 3, 9, 1, 4, 8, 2, 7, 6, 0] 1 9
          (1 + (9 - 1) / 2) >>= fun l0 =>
        medianOfThree (fun (_ _ : Nat) => true) l0 1 (1 + (9 - 1) / 2) (9 - 1)) =
          Except.ok l1 ∧
      doPivot.loopTraced (fun (_ _ : Nat) => true) 1 (9 - 1) l1 (1 + 1) (1 + 1) 9 9 =
        Except.ok ((r, a, b, c, d), t) ∧
      doPivot.loop (fun (_ _ : Nat) => true) 1 (9 - 1) l1 (1 + 1) (1 + 1) 9 9 =
        Except.ok (r, a, b, c, d) ∧
      t.head? = some (1 + 1, 1 + 1, 9, 9) ∧ t.getLast? = some (a, b, c, d) ∧
      (∀ q ∈ t, 1 < q.1 ∧ q.1 ≤ q.2.1 ∧ q.2.1 ≤ q.2.2.1 ∧ q.2.2.1 ≤ q.2.2.2 ∧ q.2.2.2 ≤ 9) ∧
      b = c ∧
      doPivot (fun (_ _ : Nat) => true) [5, 3, 9, 1, 4, 8, 2, 7, 6, 0] 1 9 =
        Except.ok (r1, midlo, midhi) ∧
      midlo = 1 + b - a ∧ midhi = 9 - (d - c) ∧
      1 ≤ midlo ∧ midlo < midhi ∧ midhi ≤ 9 ∧
      midlo - 1 < 9 - 1 ∧ 9 - midhi < 9 - 1 :=
  ⟨by decide, by decide,
    doPivot_split_points (fun (_ _ : Nat) => true) [5, 3, 9, 1, 4, 8, 2, 7, 6, 0] 1 9
      (by decide) (by decide)⟩


/-! ## Every access is inside the range -/

theorem index_checked {α : Type} {wa wb i : Nat} (h1 : wa ≤ i) (h2 : i < wb) (l : List α) :
    index.checked wa wb l i = index l i := by
  unfold index.checked
  rw [if_pos ⟨h1, h2⟩]

theorem swap_checked {α : Type} {wa wb i j : Nat} (hi1 : wa ≤ i) (hi2 : i < wb)
    (hj1 : wa ≤ j) (hj2 : j < wb) (l : List α) :
    swap.checked wa wb l i j = swap l i j := by
  unfold swap.checked swap
  rw [index_checked hi1 hi2, index_checked hj1 hj2]

theorem insertionSort_inner_checked {α : Type} {wa wb : Nat} (less : α → α → Bool) (a : Nat)
    (ha : wa ≤ a) : ∀ (j : Nat), j < wb → ∀ (l : List α),
    insertionSort.inner.checked wa wb less a j l = insertionSort.inner less a j l := by
  intro j
  induction j with
  | zero =>
    intro _ l
    rfl
  | succ j ih =>
    intro hj l
    rw [insertionSort.inner.checked, insertionSort.inner]
    by_cases hgt : j + 1 > a
    · simp only [hgt, if_true, index_checked (show wa ≤ j + 1 by omega) hj,
        index_checked (show wa ≤ j by omega) (show j < wb by omega),
        swap_checked (show wa ≤ j + 1 by omega) hj (show wa ≤ j by omega)
          (show j < wb by omega), ih (by omega)]
    · simp only [hgt, if_false]

theorem insertionSort_outer_checked {α : Type} {wa wb : Nat} (less : α → α → Bool) (a b : Nat)
    (ha : wa ≤ a) (hb : b ≤ wb) : ∀ (fuel i : Nat) (l : List α),
    insertionSort.outer.checked wa wb less a b fuel i l =
      insertionSort.outer less a b fuel i l := by
  intro fuel
  induction fuel with
  | zero =>
    intro i l
    rw [insertionSort.outer.checked, insertionSort.outer]
  | succ f ih =>
    intro i l
    rw [insertionSort.outer.checked, insertionSort.outer]
    by_cases hlt : i < b
    · simp only [hlt, if_true, insertionSort_inner_checked less a ha i (show i < wb by omega), ih]
    · simp only [hlt, if_false]

theorem insertionSort_checked {α : Type} {wa wb : Nat} (less : α → α → Bool) (a b : Nat)
    (ha : wa ≤ a) (hb : b ≤ wb) (l : List α) :
    insertionSort.checked wa wb less l a b = insertionSort less l a b :=
  insertionSort_outer_checked less a b ha hb _ _ l

theorem siftDown_pick_checked {α : Type} {wa wb : Nat} (less : α → α → Bool)
    (hi first : Nat) (h1 : wa ≤ first) (h2 : first + hi ≤ wb) (child : Nat) (l : List α) :
    siftDown.pick.checked wa wb less l hi first child =
      siftDown.pick less l hi first child := by
  unfold siftDown.pick.checked siftDown.pick
  by_cases h : child + 1 < hi
  · simp only [h, if_true, index_checked (show wa ≤ first + child by omega)
        (show first + child < wb by omega),
      index_checked (show wa ≤ first + child + 1 by omega)
        (show first + child + 1 < wb by omega)]
  · simp only [h, if_false]

theorem siftDown_pick_range {α : Type} (less : α → α → Bool) (l : List α)
    (hi first child m : Nat) (h : siftDown.pick less l hi first child = Except.ok m) :
    m = child ∨ (m = child + 1 ∧ child + 1 < hi) := by
  unfold siftDown.pick at h
  by_cases hc : child + 1 < hi
  · simp only [hc, if_true] at h
    cases hx : index l (first + child) with
    | error e =>
      rw [hx] at h
      cases h
    | ok x =>
      cases hy : index l (first + child + 1) with
      | error e =>
        rw [hx, hy] at h
        cases h
      | ok y =>
        rw [hx, hy] at h
        simp only [ok_bind] at h
        by_cases hl : less x y = true
        · simp only [hl, if_true, pure_eq_ok, Except.ok.injEq] at h
          exact Or.inr ⟨h.symm, hc⟩
        · have hl' : less x y = false := by simpa using hl
          simp only [hl', Bool.false_eq_true, if_false, pure_eq_ok, Except.ok.injEq] at h
          exact Or.inl h.symm
  · simp only [hc, if_false, pure_eq_ok, Except.ok.injEq] at h
    exact Or.inl h.symm

theorem siftDown_loop_checked {α : Type} {wa wb : Nat} (less : α → α → Bool)
    (hi first : Nat) (h1 : wa ≤ first) (h2 : first + hi ≤ wb) :
    ∀ (fuel : Nat) (root : Nat) (l : List α),
    siftDown.loop.checked wa wb less hi first fuel l root =
      siftDown.loop less hi first fuel l root := by
  intro fuel
  induction fuel with
  | zero =>
    intro root l
    rw [siftDown.loop.checked, siftDown.loop]
  | succ f ih =>
    intro root l
    rw [siftDown.loop.checked, siftDown.loop]
    by_cases hge : 2 * root + 1 ≥ hi
    · simp only [hge, if_true]
    · simp only [hge, if_false, siftDown_pick_checked less hi first h1 h2]
      cases hp : siftDown.pick less l hi first (2 * root + 1) with
      | error e => rfl
      | ok m =>
        have hm := siftDown_pick_range less l hi first (2 * root + 1) m hp
        simp only [ok_bind, index_checked (show wa ≤ first + root by omega)
            (show first + root < wb by omega),
          index_checked (show wa ≤ first + m by omega) (show first + m < wb by omega),
          swap_checked (show wa ≤ first + root by omega) (show first + root < wb by omega)
            (show wa ≤ first + m by omega) (show first + m < wb by omega), ih]

theorem siftDown_checked {α : Type} {wa wb : Nat} (less : α → α → Bool)
    (hi first : Nat) (h1 : wa ≤ first) (h2 : first + hi ≤ wb) (lo : Nat) (l : List α) :
    siftDown.checked wa wb less l lo hi first = siftDown less l lo hi first :=
  siftDown_loop_checked less hi first h1 h2 hi lo l

theorem heapSort_build_checked {α : Type} {wa wb : Nat} (less : α → α → Bool)
    (hi first : Nat) (h1 : wa ≤ first) (h2 : first + hi ≤ wb) : ∀ (i : Nat) (l : List α),
    heapSort.build.checked wa wb less hi first i l = heapSort.build less hi first i l := by
  intro i
  induction i with
  | zero =>
    intro l
    rw [heapSort.build.checked, heapSort.build]
    exact siftDown_checked less hi first h1 h2 0 l
  | succ i ih =>
    intro l
    rw [heapSort.build.checked, heapSort.build]
    simp only [siftDown_checked less hi first h1 h2, ih]

theorem heapSort_pop_checked {α : Type} {wa wb : Nat} (less : α → α → Bool)
    (lo first : Nat) (h1 : wa ≤ first) : ∀ (n : Nat), first + n ≤ wb → ∀ (l : List α),
    heapSort.pop.checked wa wb less lo first n l = heapSort.pop less lo first n l := by
  intro n
  induction n with
  | zero =>
    intro _ l
    rfl
  | succ i ih =>
    intro hn l
    rw [heapSort.pop.checked, heapSort.pop]
    simp only [swap_checked h1 (show first < wb by omega) (show wa ≤ first + i by omega)
        (show first + i < wb by omega),
      siftDown_checked less i first h1 (show first + i ≤ wb by omega), ih (by omega)]

theorem heapSort_checked {α : Type} {wa wb : Nat} (less : α → α → Bool) (a b : Nat)
    (ha : wa ≤ a) (hab : a ≤ b) (hb : b ≤ wb) (l : List α) :
    heapSort.checked wa wb less l a b = heapSort less l a b := by
  unfold heapSort.checked heapSort
  simp only [heapSort_build_checked less (b - a) a ha (show a + (b - a) ≤ wb by omega),
    heapSort_pop_checked less 0 a ha (b - a) (show a + (b - a) ≤ wb by omega)]

theorem medianOfThree_step_checked {α : Type} {wa wb i j : Nat} (less : α → α → Bool)
    (hi1 : wa ≤ i) (hi2 : i < wb) (hj1 : wa ≤ j) (hj2 : j < wb) (l : List α) :
    medianOfThree.step.checked wa wb less l i j = medianOfThree.step less l i j := by
  unfold medianOfThree.step.checked medianOfThree.step
  simp only [index_checked hi1 hi2, index_checked hj1 hj2, swap_checked hi1 hi2 hj1 hj2]

theorem medianOfThree_checked {α : Type} {wa wb a b c : Nat} (less : α → α → Bool)
    (ha1 : wa ≤ a) (ha2 : a < wb) (hb1 : wa ≤ b) (hb2 : b < wb) (hc1 : wa ≤ c) (hc2 : c < wb)
    (l : List α) :
    medianOfThree.checked wa wb less l a b c = medianOfThree less l a b c := by
  unfold medianOfThree.checked medianOfThree
  simp only [medianOfThree_step_checked less ha1 ha2 hb1 hb2,
    medianOfThree_step_checked less hc1 hc2 ha1 ha2]

theorem swapRange_loop_checked {α : Type} {wa wb : Nat} (a b n : Nat)
    (ha : wa ≤ a) (hb : wa ≤ b) (han : a + n ≤ wb) (hbn : b + n ≤ wb) :
    ∀ (fuel i : Nat) (l : List α),
    swapRange.loop.checked wa wb a b n fuel i l = swapRange.loop a b n fuel i l := by
  intro fuel
  induction fuel with
  | zero =>
    intro i l
    rw [swapRange.loop.checked, swapRange.loop]
  | succ f ih =>
    intro i l
    rw [swapRange.loop.checked, swapRange.loop]
    by_cases hlt : i < n
    · simp only [hlt, if_true, swap_checked (show wa ≤ a + i by omega)
          (show a + i < wb by omega) (show wa ≤ b + i by omega) (show b + i < wb by omega),
        ih]
    · simp only [hlt, if_false]

theorem swapRange_checked {α : Type} {wa wb : Nat} (a b n : Nat)
    (ha : wa ≤ a) (hb : wa ≤ b) (han : a + n ≤ wb) (hbn : b + n ≤ wb) (l : List α) :
    swapRange.checked wa wb l a b n = swapRange l a b n :=
  swapRange_loop_checked a b n ha hb han hbn n 0 l

theorem doPivot_scanUp_checked {α : Type} {wa wb : Nat} (less : α → α → Bool)
    (pivot c : Nat) (hp1 : wa ≤ pivot) (hp2 : pivot < wb) (hc : c ≤ wb) :
    ∀ (fuel a b : Nat), wa ≤ a → a ≤ b → ∀ (l : List α),
    doPivot.scanUp.checked wa wb less pivot c fuel l a b =
      doPivot.scanUp less pivot c fuel l a b := by
  intro fuel
  induction fuel with
  | zero =>
    intro a b _ _ l
    rw [doPivot.scanUp.checked, doPivot.scanUp]
  | succ f ih =>
    intro a b ha hab l
    rw [doPivot.scanUp.checked, doPivot.scanUp]
    by_cases hlt : b < c
    · simp only [hlt, if_true, index_checked (show wa ≤ b by omega) (show b < wb by omega),
        index_checked hp1 hp2,
        swap_checked ha (show a < wb by omega) (show wa ≤ b by omega) (show b < wb by omega),
        ih a (b + 1) ha (by omega), ih (a + 1) (b + 1) (by omega) (by omega)]
    · simp only [hlt, if_false]

theorem doPivot_scanUp_range {α : Type} (less : α → α → Bool) (pivot c : Nat) :
    ∀ (fuel : Nat) (l : List α) (a b : Nat) (r : List α) (a' b' : Nat),
    doPivot.scanUp less pivot c fuel l a b = Except.ok (r, a', b') → a ≤ b →
    a ≤ a' ∧ a' ≤ b' := by
  intro fuel
  induction fuel with
  | zero =>
    intro l a b r a' b' h hab
    rw [doPivot.scanUp] at h
    by_cases hlt : b < c
    · simp only [hlt, if_true] at h
      cases h
    · simp only [hlt, if_false, pure_eq_ok, Except.ok.injEq, Prod.mk.injEq] at h
      obtain ⟨_, e1, e2⟩ := h
      omega
  | succ f ih =>
    intro l a b r a' b' h hab
    rw [doPivot.scanUp] at h
    by_cases hlt : b < c
    · simp only [hlt, if_true] at h
      cases hx : index l b with
      | error e =>
        rw [hx] at h
        cases h
      | ok x =>
        cases hp : index l pivot with
        | error e =>
          rw [hx, hp] at h
          cases h
        | ok p =>
          rw [hx, hp] at h
          simp only [ok_bind] at h
          by_cases h1 : less x p = true
          · simp only [h1, if_true] at h
            have := ih l a (b + 1) r a' b' h (by omega)
            omega
          · by_cases h2 : (!less p x) = true
            · simp only [h1, h2, if_false, if_true] at h
              cases hs : swap l a b with
              | error e =>
                rw [hs] at h
                cases h
              | ok l' =>
                rw [hs] at h
                simp only [ok_bind] at h
                have := ih l' (a + 1) (b + 1) r a' b' h (by omega)
                omega
            · simp only [h1, h2, if_false, pure_eq_ok, Except.ok.injEq, Prod.mk.injEq] at h
              obtain ⟨_, e1, e2⟩ := h
              omega
    · simp only [hlt, if_false, pure_eq_ok, Except.ok.injEq, Prod.mk.injEq] at h
      obtain ⟨_, e1, e2⟩ := h
      omega

theorem doPivot_scanDown_checked {α : Type} {wa wb : Nat} (less : α → α → Bool)
    (pivot b : Nat) (hp1 : wa ≤ pivot) (hp2 : pivot < wb) (hb : wa ≤ b) :
    ∀ (fuel c d : Nat), c ≤ d → d ≤ wb → ∀ (l : List α),
    doPivot.scanDown.checked wa wb less pivot b fuel l c d =
      doPivot.scanDown less pivot b fuel l c d := by
  intro fuel
  induction fuel with
  | zero =>
    intro c d _ _ l
    rw [doPivot.scanDown.checked, doPivot.scanDown]
  | succ f ih =>
    intro c d hcd hd l
    rw [doPivot.scanDown.checked, doPivot.scanDown]
    by_cases hlt : b < c
    · simp only [hlt, if_true,
        index_checked (show wa ≤ c - 1 by omega) (show c - 1 < wb by omega),
        index_checked hp1 hp2,
        swap_checked (show wa ≤ c - 1 by omega) (show c - 1 < wb by omega)
          (show wa ≤ d - 1 by omega) (show d - 1 < wb by omega),
        ih (c - 1) d (by omega) hd, ih (c - 1) (d - 1) (by omega) (by omega)]
    · simp only [hlt, if_false]

theorem doPivot_scanDown_range {α : Type} (less : α → α → Bool) (pivot b : Nat) :
    ∀ (fuel : Nat) (l : List α) (c d : Nat) (r : List α) (c' d' : Nat),
    doPivot.scanDown less pivot b fuel l c d = Except.ok (r, c', d') → c ≤ d →
    c' ≤ d' ∧ d' ≤ d := by
  intro fuel
  induction fuel with
  | zero =>
    intro l c d r c' d' h hcd
    rw [doPivot.scanDown] at h
    by_cases hlt : b < c
    · simp only [hlt, if_true] at h
      cases h
    · simp only [hlt, if_false, pure_eq_ok, Except.ok.injEq, Prod.mk.injEq] at h
      obtain ⟨_, e1, e2⟩ := h
      omega
  | succ f ih =>
    intro l c d r c' d' h hcd
    rw [doPivot.scanDown] at h
    by_cases hlt : b < c
    · simp only [hlt, if_true] at h
      cases hx : index l (c - 1) with
      | error e =>
        rw [hx] at h
        cases h
      | ok x =>
        cases hp : index l pivot with
        | error e =>
          rw [hx, hp] at h
          cases h
        | ok p =>
          rw [hx, hp] at h
          simp only [ok_bind] at h
          by_cases h1 : less p x = true
          · simp only [h1, if_true] at h
            have := ih l (c - 1) d r c' d' h (by omega)
            omega
          · by_cases h2 : (!less x p) = true
            · simp only [h1, h2, if_false, if_true] at h
              cases hs : swap l (c - 1) (d - 1) with
              | error e =>
                rw [hs] at h
                cases h
              | ok l' =>
                rw [hs] at h
                simp only [ok_bind] at h
                have := ih l' (c - 1) (d - 1) r c' d' h (by omega)
                omega
            · simp only [h1, h2, if_false, pure_eq_ok, Except.ok.injEq, Prod.mk.injEq] at h
              obtain ⟨_, e1, e2⟩ := h
              omega
    · simp only [hlt, if_false, pure_eq_ok, Except.ok.injEq, Prod.mk.injEq] at h
      obtain ⟨_, e1, e2⟩ := h
      omega

theorem doPivot_loop_checked {α : Type} {wa wb : Nat} (less : α → α → Bool)
    (pivot : Nat) (hp1 : wa ≤ pivot) (hp2 : pivot < wb) :
    ∀ (fuel : Nat) (l : List α) (a b c d : Nat), wa ≤ a → a ≤ b → c ≤ d → d ≤ wb →
    doPivot.loop.checked wa wb less pivot fuel l a b c d =
      doPivot.loop less pivot fuel l a b c d := by
  intro fuel
  induction fuel with
  | zero =>
    intro l a b c d _ _ _ _
    rfl
  | succ f ih =>
    intro l a b c d ha hab hcd hd
    rw [doPivot.loop.checked, doPivot.loop,
      doPivot_scanUp_checked less pivot c hp1 hp2 (by omega) (c - b) a b ha hab l]
    cases h1 : doPivot.scanUp less pivot c (c - b) l a b with
    | error e => rfl
    | ok t =>
      obtain ⟨l1, a1, b1⟩ := t
      have hr1 := doPivot_scanUp_range less pivot c (c - b) l a b l1 a1 b1 h1 hab
      simp only [ok_bind]
      rw [doPivot_scanDown_checked less pivot b1 hp1 hp2 (by omega) (c - b1) c d hcd hd l1]
      cases h2 : doPivot.scanDown less pivot b1 (c - b1) l1 c d with
      | error e => rfl
      | ok t =>
        obtain ⟨l2, c1, d1⟩ := t
        have hr2 := doPivot_scanDown_range less pivot b1 (c - b1) l1 c d l2 c1 d1 h2 hcd
        simp only [ok_bind]
        by_cases hge : b1 ≥ c1
        · simp only [hge, if_true]
        · simp only [hge, if_false,
            swap_checked (show wa ≤ b1 by omega) (show b1 < wb by omega)
              (show wa ≤ c1 - 1 by omega) (show c1 - 1 < wb by omega)]
          cases hs : swap l2 b1 (c1 - 1) with
          | error e => rfl
          | ok l3 =>
            simp only [ok_bind]
            exact ih l3 a1 (b1 + 1) (c1 - 1) d1 (by omega) (by omega) (by omega) (by omega)

theorem doPivot_ninther_checked {α : Type} {wa wb : Nat} (less : α → α → Bool) (lo hi : Nat)
    (hlo : wa ≤ lo) (hhi : hi ≤ wb) (l : List α) :
    doPivot.ninther.checked wa wb less l lo hi (lo + (hi - lo) / 2) =
      doPivot.ninther less l lo hi (lo + (hi - lo) / 2) := by
  unfold doPivot.ninther.checked doPivot.ninther
  by_cases h40 : hi - lo > 40
  · have e1 := medianOfThree_checked less (show wa ≤ lo by omega) (show lo < wb by omega)
      (show wa ≤ lo + (hi - lo) / 8 by omega) (show lo + (hi - lo) / 8 < wb by omega)
      (show wa ≤ lo + 2 * ((hi - lo) / 8) by omega)
      (show lo + 2 * ((hi - lo) / 8) < wb by omega)
    have e2 := medianOfThree_checked less (show wa ≤ lo + (hi - lo) / 2 by omega)
      (show lo + (hi - lo) / 2 < wb by omega)
      (show wa ≤ lo + (hi - lo) / 2 - (hi - lo) / 8 by omega)
      (show lo + (hi - lo) / 2 - (hi - lo) / 8 < wb by omega)
      (show wa ≤ lo + (hi - lo) / 2 + (hi - lo) / 8 by omega)
      (show lo + (hi - lo) / 2 + (hi - lo) / 8 < wb by omega)
    have e3 := medianOfThree_checked less (show wa ≤ hi - 1 by omega)
      (show hi - 1 < wb by omega)
      (show wa ≤ hi - 1 - (hi - lo) / 8 by omega) (show hi - 1 - (hi - lo) / 8 < wb by omega)
      (show wa ≤ hi - 1 - 2 * ((hi - lo) / 8) by omega)
      (show hi - 1 - 2 * ((hi - lo) / 8) < wb by omega)
    simp only [h40, if_true, e1, e2, e3]
  · simp only [h40, if_false]

theorem doPivot_checked {α : Type} {wa wb : Nat} (less : α → α → Bool) (l : List α)
    (lo hi : Nat) (hlo : wa ≤ lo) (hlt : lo < hi) (hhi : hi ≤ wb) (hlen : hi ≤ l.length) :
    doPivot.checked wa wb less l lo hi = doPivot less l lo hi := by
  obtain ⟨l0, h0, s0⟩ := doPivot_ninther_spec less l lo hi hlen
  obtain ⟨l1, h1, s1⟩ := medianOfThree_spec less l0 lo hi lo
    (lo + (hi - lo) / 2) (hi - 1)
    (Nat.le_refl _) hlt (by omega) (by omega) (by omega) (by omega)
    (by rw [s0.length_eq]; exact hlen)
  have hlen1 : l1.length = l.length := by rw [s1.length_eq, s0.length_eq]
  obtain ⟨p, hp, _⟩ := index_lt (show lo < l1.length by omega)
  obtain ⟨l2, a, b, c, d, h2, _, ha, hab, hbc, hcd, hdh, _⟩ :=
    doPivot_loop_spec (compat_trivial less) lo hi p (hi - lo) l1 (lo + 1) (lo + 1) hi hi
      (by omega) (Nat.le_refl _) (by omega) (Nat.le_refl _) (Nat.le_refl _) (by omega)
      (by omega) hp (fun _ _ _ _ _ => ⟨trivial, trivial⟩) (fun _ _ _ _ _ => trivial)
      (fun _ _ _ _ _ => trivial) (fun _ _ _ _ _ => ⟨trivial, trivial⟩)
  have e0 := doPivot_ninther_checked less lo hi hlo hhi l
  have e1 := medianOfThree_checked less (show wa ≤ lo by omega) (show lo < wb by omega)
    (show wa ≤ lo + (hi - lo) / 2 by omega) (show lo + (hi - lo) / 2 < wb by omega)
    (show wa ≤ hi - 1 by omega) (show hi - 1 < wb by omega) l0
  have e2 := doPivot_loop_checked less lo hlo (show lo < wb by omega) (hi - lo) l1
    (lo + 1) (lo + 1) hi hi (by omega) (Nat.le_refl _) (Nat.le_refl _) hhi
  have e3 := fun (m : List α) =>
    swapRange_checked lo (b - min (b - a) (a - lo)) (min (b - a) (a - lo))
      hlo (show wa ≤ b - min (b - a) (a - lo) by omega)
      (show lo + min (b - a) (a - lo) ≤ wb by omega)
      (show b - min (b - a) (a - lo) + min (b - a) (a - lo) ≤ wb by omega) m
  have e4 := fun (m : List α) =>
    swapRange_checked c (hi - min (hi - d) (d - c)) (min (hi - d) (d - c))
      (show wa ≤ c by omega) (show wa ≤ hi - min (hi - d) (d - c) by omega)
      (show c + min (hi - d) (d - c) ≤ wb by omega)
      (show hi - min (hi - d) (d - c) + min (hi - d) (d - c) ≤ wb by omega) m
  unfold doPivot.checked doPivot
  simp only [e0, h0, ok_bind, e1, h1, e2, h2, e3, e4]

theorem quickSort_checked {α : Type} {wa wb : Nat} (less : α → α → Bool) :
    ∀ (maxDepth : Nat) (l : List α) (a b : Nat), wa ≤ a → a ≤ b → b ≤ wb → b ≤ l.length →
    quickSort.checked wa wb less l a b maxDepth = quickSort less l a b maxDepth := by
  have hT := compat_trivial less
  intro maxDepth
  induction maxDepth with
  | zero =>
    intro l a b ha hab hb hlen
    rw [quickSort.checked, quickSort]
    by_cases h7 : b - a > 7
    · simp only [h7, if_true]
      exact heapSort_checked less a b ha hab hb l
    · simp only [h7, if_false, insertionSort_checked less a b ha hb]
  | succ n ih =>
    intro l a b ha hab hb hlen
    rw [quickSort.checked, quickSort]
    by_cases h7 : b - a > 7
    · obtain ⟨r, mlo, mhi, p, hd, sh, hm1, hm2, hm3, _⟩ :=
        doPivot_spec hT l a b (by omega) hlen
      have hlenr : r.length = l.length := sh.length_eq
      simp only [h7, if_true, doPivot_checked less l a b ha (by omega) hb hlen, hd, ok_bind]
      by_cases hsm : mlo - a < b - mhi
      · obtain ⟨r2, hq, sh2, _⟩ := quickSort_spec hT n r a mlo hm1 (by omega)
        simp only [hsm, if_true, ih r a mlo ha hm1 (by omega) (by omega), hq, ok_bind]
        exact ih r2 mhi b (by omega) hm3 hb (by rw [sh2.length_eq]; omega)
      · obtain ⟨r2, hq, sh2, _⟩ := quickSort_spec hT n r mhi b hm3 (by omega)
        simp only [hsm, if_false, ih r mhi b (by omega) hm3 hb (by omega), hq, ok_bind]
        exact ih r2 a mlo ha hm1 (by omega) (by rw [sh2.length_eq]; omega)
    · simp only [h7, if_false, insertionSort_checked less a b ha hb]


/-- C23: for every comparator, every `maxDepth` and every range with
`a ≤ b ≤ len(rcv)`, the run of `quickSort` in which every index expression of
`quickSort` and of its helpers is checked against `[a, b)` returns what the
unchecked run returns, and that is a slice: no read or write is at an index
outside `[a, b)`, no index is out of bounds, and outside `[a, b)` the result
holds the elements of the input. The same is true of `heapSort` and
`insertionSort` on `[a, b)`, and of `doPivot` on `[a, b)` when `b - a > 7`. -/
theorem quickSort_accesses_inside_range {α : Type} (less : α → α → Bool) (l : List α)
    (a b maxDepth : Nat) (hab : a ≤ b) (hb : b ≤ l.length) :
    (∃ r, quickSort.checked a b less l a b maxDepth = Except.ok r ∧
      quickSort less l a b maxDepth = Except.ok r ∧ r.length = l.length ∧
      ∀ k, k < a ∨ b ≤ k → r[k]? = l[k]?) ∧
    (∃ r, heapSort.checked a b less l a b = Except.ok r ∧
      heapSort less l a b = Except.ok r ∧ r.length = l.length ∧
      ∀ k, k < a ∨ b ≤ k → r[k]? = l[k]?) ∧
    (∃ r, insertionSort.checked a b less l a b = Except.ok r ∧
      insertionSort less l a b = Except.ok r ∧ r.length = l.length ∧
      ∀ k, k < a ∨ b ≤ k → r[k]? = l[k]?) ∧
    (b - a > 7 → ∃ r midlo midhi,
      doPivot.checked a b less l a b = Except.ok (r, midlo, midhi) ∧
      doPivot less l a b = Except.ok (r, midlo, midhi) ∧ r.length = l.length ∧
      ∀ k, k < a ∨ b ≤ k → r[k]? = l[k]?) := by
  have hT := compat_trivial less
  refine ⟨?_, ?_, ?_, ?_⟩
  · obtain ⟨r, hr, sh, _⟩ := quickSort_spec hT maxDepth l a b hab hb
    refine ⟨r, ?_, hr, sh.length_eq, sh.outside⟩
    rw [quickSort_checked less maxDepth l a b (Nat.le_refl _) hab (Nat.le_refl _) hb]
    exact hr
  · obtain ⟨r, hr, sh, _⟩ := heapSort_spec hT l a b hab hb
    refine ⟨r, ?_, hr, sh.length_eq, sh.outside⟩
    rw [heapSort_checked less a b (Nat.le_refl _) hab (Nat.le_refl _) l]
    exact hr
  · obtain ⟨r, hr, sh, _⟩ := insertionSort_spec hT l a b hb
    refine ⟨r, ?_, hr, sh.length_eq, sh.outside⟩
    rw [insertionSort_checked less a b (Nat.le_refl _) (Nat.le_refl _) l]
    exact hr
  · intro h7
    obtain ⟨r, mlo, mhi, _, hr, sh, _⟩ := doPivot_spec hT l a b (by omega) hb
    refine ⟨r, mlo, mhi, ?_, hr, sh.length_eq, sh.outside⟩
    rw [doPivot_checked less l a b (Nat.le_refl _) (by omega) (Nat.le_refl _) hb]
    exact hr

theorem quickSort_accesses_inside_range_witness :
    1 ≤ 9 ∧ 9 ≤ [5, 3, 9, 1, 4, 8, 2, 7, 6, 0].length ∧
    quickSort.checked 1 9 (fun (x y : Nat) => decide (x ≤ y))
        [5, 3, 9, 1, 4, 8, 2, 7, 6, 0] 1 9 2 = Except.ok [5, 1, 2, 3, 4, 6, 7, 8, 9, 0] ∧
    quickSort.checked 2 9 (fun (x y : Nat) => decide (x ≤ y))
        [5, 3, 9, 1, 4, 8, 2, 7, 6, 0] 1 9 2 = Except.error Fault.indexOutOfRange ∧
    quickSort.checked 1 8 (fun (x y : Nat) => decide (x ≤ y))
        [5, 3, 9, 1, 4, 8, 2, 7, 6, 0] 1 9 2 = Except.error Fault.indexOutOfRange ∧
    ((∃ r, quickSort.checked 1 9 (fun (x y : Nat) => decide (x ≤ y))
          [5, 3, 9, 1, 4, 8, 2, 7, 6, 0] 1 9 2 = Except.ok r ∧
      quickSort (fun (x y : Nat) => decide (x ≤ y))
          [5, 3, 9, 1, 4, 8, 2, 7, 6, 0] 1 9 2 = Except.ok r ∧
      r.length = [5, 3, 9, 1, 4, 8, 2, 7, 6, 0].length ∧
      ∀ k, k < 1 ∨ 9 ≤ k → r[k]? = [5, 3, 9, 1, 4, 8, 2, 7, 6, 0][k]?) ∧
    (∃ r, heapSort.checked 1 9 (fun (x y : Nat) => decide (x ≤ y))
          [5, 3, 9, 1, 4, 8, 2, 7, 6, 0] 1 9 = Except.ok r ∧
      heapSort (fun (x y : Nat) => decide (x ≤ y))
          [5, 3, 9, 1, 4, 8, 2, 7, 6, 0] 1 9 = Except.ok r ∧
      r.length = [5, 3, 9, 1, 4, 8, 2, 7, 6, 0].length ∧
      ∀ k, k < 1 ∨ 9 ≤ k → r[k]? = [5, 3, 9, 1, 4, 8, 2, 7, 6, 0][k]?) ∧
    (∃ r, insertionSort.checked 1 9 (fun (x y : Nat) => decide (x ≤ y))
          [5, 3, 9, 1, 4, 8, 2, 7, 6, 0] 1 9 = Except.ok r ∧
      insertionSort (fun (x y : Nat) => decide (x ≤ y))
          [5, 3, 9, 1, 4, 8, 2, 7, 6, 0] 1 9 = Except.ok r ∧
      r.length = [5, 3, 9, 1, 4, 8, 2, 7, 6, 0].length ∧
      ∀ k, k < 1 ∨ 9 ≤ k → r[k]? = [5, 3, 9, 1, 4, 8, 2, 7, 6, 0][k]?) ∧
    (9 - 1 > 7 → ∃ r midlo midhi,
      doPivot.checked 1 9 (fun (x y : Nat) => decide (x ≤ y))
          [5, 3, 9, 1, 4, 8, 2, 7, 6, 0] 1 9 = Except.ok (r, midlo, midhi) ∧
      doPivot (fun (x y : Nat) => decide (x ≤ y))
          [5, 3, 9, 1, 4, 8, 2, 7, 6, 0] 1 9 = Except.ok (r, midlo, midhi) ∧
      r.length = [5, 3, 9, 1, 4, 8, 2, 7, 6, 0].length ∧
      ∀ k, k < 1 ∨ 9 ≤ k → r[k]? = [5, 3, 9, 1, 4, 8, 2, 7, 6, 0][k]?)) :=
  ⟨by decide, by decide, by decide!, by decide!, by decide!,
    quickSort_accesses_inside_range (fun (x y : Nat) => decide (x ≤ y))
      [5, 3, 9, 1, 4, 8, 2, 7, 6, 0] 1 9 2 (by decide) (by decide)⟩

end Gen
